import Mathlib

/-!
# Poset types: a shallow embedding of `poset-types.c`

The program enumerates "poset types" by a backtracking search over a shared
state (`lev`, `types`, `relations`, `leafs`, `length`, `ntypes`, `nleafs`).
Characters are modelled by their ASCII codes (`Nat`), a `char` buffer is a
`List Nat` in which `0` is the string terminator, C `int` counters that are
decremented below an earlier value are `Int`, array indices are `Nat`.
The search is modelled by explicit state passing; the recursion carries a
fuel argument and every loop whose bound is a global re-read on each
iteration carries an iteration budget.
-/

set_option autoImplicit false

namespace PosetTypes

/-! ## Configuration and constants -/

/-- The compile-time configuration: `MAXLEAFS` and the static flag `analcheck`. -/
structure Config where
  MAXLEAFS : Nat
  analcheck : Bool
deriving DecidableEq, Repr

/-- `#define MAXTYPES MAXLEAFS`. -/
def MAXTYPES (cfg : Config) : Nat := cfg.MAXLEAFS

/-- `#define MAXLENGTH (MAXLEAFS-1 + MAXLEAFS * (MAXLEAFS - 1) /2 + MAXLEAFS + 2)`. -/
def MAXLENGTH (cfg : Config) : Nat :=
  (cfg.MAXLEAFS - 1) + cfg.MAXLEAFS * (cfg.MAXLEAFS - 1) / 2 + cfg.MAXLEAFS + 2

/-- ASCII code of `'L'`. -/
abbrev chL : Nat := 76
/-- ASCII code of `'O'`. -/
abbrev chO : Nat := 79
/-- ASCII code of `'R'`. -/
abbrev chR : Nat := 82
/-- ASCII code of `'b'` (branching level). -/
abbrev chb : Nat := 98
/-- ASCII code of `'l'` (leaf level, and "less" in the adjacency matrix). -/
abbrev chl : Nat := 108
/-- ASCII code of `'p'` (new perp level). -/
abbrev chp : Nat := 112
/-- ASCII code of `'<'` (new prec level). -/
abbrev chlt : Nat := 60
/-- ASCII code of `'g'`. -/
abbrev chg : Nat := 103
/-- ASCII code of `'i'`. -/
abbrev chi : Nat := 105

/-! ## C strings -/

/-- `strlen`: number of characters before the first terminator. -/
def strlen : List Nat → Nat
  | [] => 0
  | c :: cs => if c = 0 then 0 else strlen cs + 1

/-- The string held by a buffer: the characters before the first terminator. -/
def cstr : List Nat → List Nat
  | [] => []
  | c :: cs => if c = 0 then [] else c :: cstr cs

/-- `strcpy (dst, src)`: the characters of `src` and its terminator overwrite
the start of `dst`; the rest of `dst` is untouched. -/
def strcpy (dst src : List Nat) : List Nat :=
  cstr src ++ 0 :: dst.drop (strlen src + 1)

/-! ## Relation predicates -/

/-- `ltlex (s1, s2)`: the loop `for (i = 0; s1[i] && s2[i]; i++)`. -/
def ltlex : List Nat → List Nat → Bool
  | a :: s1, b :: s2 =>
    if a = 0 ∨ b = 0 then false
    else if a < b then true
    else if a > b then false
    else ltlex s1 s2
  | _, _ => false

/-- `prec (s1, s2)`. -/
def prec : List Nat → List Nat → Bool
  | a :: s1, b :: s2 =>
    if a = 0 ∨ b = 0 then false
    else if a > b then false
    else if a = chL ∧ b = chR then true
    else prec s1 s2
  | _, _ => false

/-- The loop of `perp` started with the flags `f1`, `f2`. -/
def perpFrom : Bool → Bool → List Nat → List Nat → Bool
  | f1, f2, a :: s1, b :: s2 =>
    if a = 0 ∨ b = 0 then false
    else
      let g1 := if a < b then true else f1
      let g2 := if a > b then true else f2
      if g1 = true ∧ g2 = true then true else perpFrom g1 g2 s1 s2
  | _, _, _, _ => false

/-- `perp (s1, s2)`. -/
def perp (s1 s2 : List Nat) : Bool := perpFrom false false s1 s2

/-! ## The shared state -/

/-- The global variables of the search. -/
structure State where
  lev : List Nat
  types : List (List Nat)
  relations : List Int
  leafs : List (List Nat)
  length : Nat
  ntypes : Nat
  nleafs : Nat
deriving DecidableEq, Repr

/-- What `print_type` reports: the adjacency matrix rows, the level types
string and, for every leaf, its word and its lexicographic position. -/
structure Emission where
  adj : List (List Nat)
  lev : List Nat
  vertices : List (List Nat × Nat)
deriving DecidableEq, Repr

/-- The ways a run can stop early: the `exit`/`abort` calls of the program,
and the exhaustion of the fuel or of a loop budget of this model. -/
inductive Fault where
  | exitLength
  | exitOrder
  | abortRelations
  | exitPerp
  | exitPrec
  | outOfFuel
deriving DecidableEq, Repr

deriving instance DecidableEq for Except

/-- The result of running part of the search: the state left behind and the
objects printed, in order. -/
structure Run where
  st : State
  out : List Emission
deriving DecidableEq, Repr

/-- The row `types[k]`. -/
def tyrow (s : State) (k : Nat) : List Nat := s.types.getD k []

/-- The row `leafs[k]`. -/
def leafrow (s : State) (k : Nat) : List Nat := s.leafs.getD k []

/-- The assignment `t[k][p] = c` on a two-dimensional `char` array. -/
def putc (t : List (List Nat)) (k p c : Nat) : List (List Nat) :=
  t.set k ((t.getD k []).set p c)

/-- The increment `r[k]++`. -/
def incr (r : List Int) (k : Nat) : List Int := r.set k (r.getD k 0 + 1)

/-- The decrement `r[k]--`. -/
def decr (r : List Int) (k : Nat) : List Int := r.set k (r.getD k 0 - 1)

/-- The test `prec (types[a], types[b]) || perp (types[a], types[b])`. -/
def related (s : State) (a b : Nat) : Bool :=
  prec (tyrow s a) (tyrow s b) || perp (tyrow s a) (tyrow s b)

/-- The test `!perp (types[a], types[b]) && !prec (types[a], types[b])`. -/
def unrelated (s : State) (a b : Nat) : Bool :=
  !perp (tyrow s a) (tyrow s b) && !prec (tyrow s a) (tyrow s b)

/-- A `for (i = start; i < bound; i++)` loop whose bound is a global that the
body may change: the bound is read again before every iteration.  The first
argument is the iteration budget of the model. -/
def forLoop {σ : Type} (bound : σ → Nat) (body : Nat → σ → Except Fault σ) :
    Nat → Nat → σ → Except Fault σ
  | 0, _, _ => .error .outOfFuel
  | f + 1, i, st =>
    if i < bound st then
      match body i st with
      | .error e => .error e
      | .ok st1 => forLoop bound body f (i + 1) st1
    else .ok st

/-! ## The consistency checker -/

/-- The body of the inner loop of `counts` (lines 160-163); the accumulator is
`(preccount, perpcount, nrelations)`. -/
def countsPair (s : State) (i : Nat) (acc : Int × Int × List Int) (j : Nat) :
    Int × Int × List Int :=
  if prec (tyrow s i) (tyrow s j) = true then
    (acc.1 + 1, acc.2.1, incr (incr acc.2.2 i) j)
  else if perp (tyrow s i) (tyrow s j) = true then
    (acc.1, acc.2.1 + 1, incr (incr acc.2.2 i) j)
  else acc

/-- The outer loop of `counts` (lines 144-165) over the indices still to do. -/
def countsRows (s : State) : List Nat → Int × Int × List Int →
    Except Fault (Int × Int × List Int)
  | [], acc => .ok acc
  | i :: rest, acc =>
    if strlen (tyrow s i) ≠ s.length then .error .exitLength
    else if 0 < i ∧ ltlex (tyrow s (i - 1)) (tyrow s i) = false then .error .exitOrder
    else countsRows s rest
      ((List.range' (i + 1) (s.ntypes - (i + 1))).foldl (countsPair s i) acc)

/-- `counts (&preccount, &perpcount)`. -/
def counts (cfg : Config) (s : State) : Except Fault (Int × Int) :=
  match countsRows s (List.range s.ntypes) (0, 0, List.replicate (MAXTYPES cfg) 0) with
  | .error e => .error e
  | .ok (c1, c2, nrelations) =>
    if (List.range s.ntypes).all (fun i => s.relations.getD i 0 == nrelations.getD i 0) then
      .ok (c1, c2)
    else .error .abortRelations

/-- The guarded call `if (analcheck) counts (&c1, &c2);` whose results are
used only when `analcheck` is set. -/
def checked (cfg : Config) (s : State) : Except Fault (Int × Int) :=
  if cfg.analcheck = true then counts cfg s else .ok (0, 0)

/-! ## Emission -/

/-- `print_type`, as the data it prints. -/
def print_type (s : State) : Emission :=
  { adj := (List.range' 1 (s.nleafs - 1)).map (fun i =>
      (List.range i).map (fun j =>
        if prec (leafrow s i) (leafrow s j) = true then chl
        else if prec (leafrow s j) (leafrow s i) = true then chg
        else chi))
    lev := cstr s.lev
    vertices := (List.range s.nleafs).map (fun i =>
      (cstr (leafrow s i),
        ((List.range s.nleafs).filter (fun j =>
          decide (i ≠ j) && ltlex (leafrow s j) (leafrow s i))).length)) }

/-! ## The four moves -/

/-- Lines 225-246 of `dobranch`: the state handed to `recurse` when the type
`i` is split. -/
def branchStep (s : State) (i : Nat) : State :=
  let tr := (List.range' (i + 1) (s.ntypes - i)).reverse.foldl
    (fun (tr : List (List Nat) × List Int) j =>
      (putc (tr.1.set j (strcpy (tr.1.getD j []) (tr.1.getD (j - 1) []))) j s.length chR,
        tr.2.set j (tr.2.getD (j - 1) 0)))
    (s.types, s.relations)
  let t2 := (List.range' 0 (i + 1)).foldl (fun t k => putc t k s.length chO) tr.1
  let s4 : State :=
    { s with types := t2, relations := tr.2, lev := s.lev.set s.length chb,
             ntypes := s.ntypes + 1, length := s.length + 1 }
  let r5 := (List.range' 0 i).foldl
    (fun r k => if related s4 k i = true then incr r k else r) s4.relations
  let r6 := (List.range' (i + 2) (s4.ntypes - (i + 2))).foldl
    (fun r k => if related s4 i k = true then incr r k else r) r5
  { s4 with relations := r6 }

/-- The value of `k` after the loop of condition (A) (lines 281-283). -/
def condA (s : State) (i j : Nat) : Nat :=
  ((List.range' (i + 1) (j - (i + 1))).find? (fun k =>
    !perp (tyrow s i) (tyrow s k) && !perp (tyrow s k) (tyrow s j))).getD j

/-- Lines 292-303 of `doperp`: the state after the new perp column is written. -/
def perpStep (s : State) (i j : Nat) : State :=
  let t1 := (List.range' 0 i).foldl (fun t k => putc t k s.length chO) s.types
  let t2 := putc t1 i s.length chR
  let t3 := (List.range' (i + 1) (j - (i + 1))).foldl (fun t k =>
    putc t k s.length (if perp (t.getD i []) (t.getD k []) = true then chO else chR)) t2
  let t4 := putc t3 j s.length chO
  let t5 := (List.range' (j + 1) (s.ntypes - (j + 1))).foldl
    (fun t k => putc t k s.length chR) t4
  { s with types := t5, lev := s.lev.set s.length chp, length := s.length + 1,
           relations := incr (incr s.relations i) j }

/-- The value of `k` after the loop of condition (B1) (lines 350-352). -/
def condB1 (s : State) (i j : Nat) : Nat :=
  ((List.range' 0 i).find? (fun k =>
    !perp (tyrow s k) (tyrow s i) && !prec (tyrow s k) (tyrow s j))).getD i

/-- The value of `k` after the loop of condition (B2) (lines 355-357). -/
def condB2 (s : State) (i j : Nat) : Nat :=
  ((List.range' (j + 1) (s.ntypes - (j + 1))).find? (fun k =>
    !perp (tyrow s j) (tyrow s k) && !prec (tyrow s i) (tyrow s k))).getD s.ntypes

/-- Lines 365-376 of `doprec`: the state after the new prec column is written. -/
def precStep (s : State) (i j : Nat) : State :=
  let t1 := (List.range' 0 i).foldl (fun t k =>
    putc t k s.length (if perp (t.getD k []) (t.getD i []) = true then chO else chL)) s.types
  let t2 := putc t1 i s.length chL
  let t3 := (List.range' (i + 1) (j - (i + 1))).foldl (fun t k => putc t k s.length chO) t2
  let t4 := putc t3 j s.length chR
  let t5 := (List.range' (j + 1) (s.ntypes - (j + 1))).foldl (fun t k =>
    putc t k s.length (if perp (t.getD j []) (t.getD k []) = true then chO else chR)) t4
  { s with types := t5, lev := s.lev.set s.length chlt, length := s.length + 1,
           relations := incr (incr s.relations i) j }

/-- Lines 424-426 of `doleaf`: the type `i` is copied to the leaves and the
level is marked as a leaf level. -/
def leafMark (s : State) (i : Nat) : State :=
  { s with leafs := s.leafs.set s.nleafs (strcpy (leafrow s s.nleafs) (tyrow s i)),
           nleafs := s.nleafs + 1, lev := s.lev.set s.length chl }

/-- Lines 438-450 of `doleaf`: the type `i` is removed from the active list. -/
def leafShift (s : State) (i : Nat) : State :=
  let tr1 := (List.range' 0 i).foldl
    (fun (tr : List (List Nat) × List Int) k => (putc tr.1 k s.length chO, decr tr.2 k))
    (s.types, s.relations)
  let tr2 := (List.range' i (s.ntypes - 1 - i)).foldl
    (fun (tr : List (List Nat) × List Int) k =>
      (putc (tr.1.set k (strcpy (tr.1.getD k []) (tr.1.getD (k + 1) []))) k s.length chO,
        tr.2.set k (tr.2.getD (k + 1) 0 - 1)))
    tr1
  { s with types := tr2.1, relations := tr2.2, ntypes := s.ntypes - 1, length := s.length + 1 }

/-- The state handed to `recurse` by the leaf move on type `i`. -/
def leafStep (s : State) (i : Nat) : State := leafShift (leafMark s i) i

/-- The test at the head of `dobranch` (lines 211-215): whether branching is
attempted; `counts` may stop the program instead. -/
def branchGate (cfg : Config) (s : State) : Except Fault Bool :=
  if s.ntypes ≥ MAXTYPES cfg ∨ s.ntypes + s.nleafs ≥ cfg.MAXLEAFS then .ok false
  else
    match counts cfg s with
    | .error e => .error e
    | .ok (c1, c2) =>
      if (s.length : Int) + ((s.ntypes : Int) * ((s.ntypes : Int) - 1)) - c1 - c2
          ≥ (MAXLENGTH cfg : Int) then .ok false
      else .ok true

/-! ## The move generators and the driver -/

/-- The local variables of a move generator that survive an iteration: the
shared state, the output so far, and the lazily taken backup. -/
structure Loop where
  st : State
  out : List Emission
  bckup : Bool
  bckuptypes : List (List Nat)
  bckuprelations : List Int
deriving DecidableEq, Repr

/-- One iteration of the loop of `doleaf` (lines 413-460). -/
def doleafBody (rec : State → Except Fault Run) (i : Nat) (lp : Loop) : Except Fault Loop :=
  if lp.st.relations.getD i 0 ≠ (lp.st.ntypes : Int) - 1 then .ok lp
  else
    let bt := if lp.bckup = true then lp.bckuptypes else lp.st.types
    let br := if lp.bckup = true then lp.bckuprelations else lp.st.relations
    let s1 := leafMark lp.st i
    if s1.ntypes = 1 then
      let s2 := { s1 with nleafs := s1.nleafs - 1 }
      let s3 := { s2 with lev := s2.lev.set s2.length 0 }
      .ok { st := s3, out := lp.out ++ [print_type s1], bckup := true,
            bckuptypes := bt, bckuprelations := br }
    else
      match rec (leafShift s1 i) with
      | .error e => .error e
      | .ok r =>
        let t1 := { r.st with length := r.st.length - 1 }
        let t2 := { t1 with nleafs := t1.nleafs - 1 }
        let t3 := { t2 with ntypes := t2.ntypes + 1 }
        let t4 := { t3 with lev := t3.lev.set t3.length 0 }
        .ok { st := { t4 with types := bt, relations := br }, out := lp.out ++ r.out,
              bckup := true, bckuptypes := bt, bckuprelations := br }

/-- `doleaf`. -/
def doleaf (cfg : Config) (rec : State → Except Fault Run) (s : State) : Except Fault Run :=
  if s.nleafs = cfg.MAXLEAFS ∨ s.ntypes = 0 then .ok { st := s, out := [] }
  else
    match forLoop (fun lp => lp.st.ntypes) (doleafBody rec) (MAXTYPES cfg + 1) 0
        { st := s, out := [], bckup := false, bckuptypes := [], bckuprelations := [] } with
    | .error e => .error e
    | .ok lp => .ok { st := lp.st, out := lp.out }

/-- One iteration of the loop of `dobranch` (lines 224-254). -/
def dobranchBody (rec : State → Except Fault Run) (i : Nat) (lp : Loop) : Except Fault Loop :=
  match rec (branchStep lp.st i) with
  | .error e => .error e
  | .ok r =>
    let t1 := { r.st with ntypes := r.st.ntypes - 1 }
    let t2 := { t1 with length := t1.length - 1 }
    let t3 := { t2 with lev := t2.lev.set t2.length 0 }
    .ok { lp with st := { t3 with types := lp.bckuptypes, relations := lp.bckuprelations },
                  out := lp.out ++ r.out }

/-- `dobranch`. -/
def dobranch (cfg : Config) (rec : State → Except Fault Run) (s : State) : Except Fault Run :=
  match branchGate cfg s with
  | .error e => .error e
  | .ok false => .ok { st := s, out := [] }
  | .ok true =>
    match forLoop (fun lp => lp.st.ntypes) (dobranchBody rec) (MAXTYPES cfg + 1) 0
        { st := s, out := [], bckup := true, bckuptypes := s.types,
          bckuprelations := s.relations } with
    | .error e => .error e
    | .ok lp => .ok { st := lp.st, out := lp.out }

/-- The part shared by `doperp` and `doprec` after the column is written
(lines 305-324 and 378-397): the optional check of the recomputed counts, the
recursive call, and the restoration of the state. -/
def relationTail (cfg : Config) (rec : State → Except Fault Run) (isPerp : Bool)
    (c : Int × Int) (i j : Nat) (bt : List (List Nat)) (lp : Loop) (s1 : State) :
    Except Fault Loop :=
  match checked cfg s1 with
  | .error e => .error e
  | .ok cc =>
    if cfg.analcheck = true ∧ isPerp = true ∧ (cc.1 ≠ c.1 ∨ cc.2 ≠ c.2 + 1) then
      .error .exitPerp
    else if cfg.analcheck = true ∧ isPerp = false ∧ (cc.1 ≠ c.1 + 1 ∨ cc.2 ≠ c.2) then
      .error .exitPrec
    else
      match rec s1 with
      | .error e => .error e
      | .ok r =>
        let t1 := { r.st with relations := decr (decr r.st.relations i) j }
        let t2 := { t1 with length := t1.length - 1 }
        let t3 := { t2 with lev := t2.lev.set t2.length 0 }
        .ok { st := { t3 with types := bt }, out := lp.out ++ r.out, bckup := true,
              bckuptypes := bt, bckuprelations := lp.bckuprelations }

/-- The body of the inner loop of `doperp` (lines 274-326). -/
def doperpBody (cfg : Config) (rec : State → Except Fault Run) (c : Int × Int)
    (i j : Nat) (lp : Loop) : Except Fault Loop :=
  if unrelated lp.st i j = true then
    if j ≠ condA lp.st i j then .ok lp
    else
      let bt := if lp.bckup = true then lp.bckuptypes else lp.st.types
      relationTail cfg rec true c i j bt lp (perpStep lp.st i j)
  else .ok lp

/-- `doperp`. -/
def doperp (cfg : Config) (rec : State → Except Fault Run) (s : State) : Except Fault Run :=
  match checked cfg s with
  | .error e => .error e
  | .ok c =>
    match forLoop (fun lp => lp.st.ntypes)
        (fun i lp => forLoop (fun lp => lp.st.ntypes) (doperpBody cfg rec c i)
          (MAXTYPES cfg + 1) (i + 1) lp)
        (MAXTYPES cfg + 1) 0
        { st := s, out := [], bckup := false, bckuptypes := [], bckuprelations := [] } with
    | .error e => .error e
    | .ok lp => .ok { st := lp.st, out := lp.out }

/-- The body of the inner loop of `doprec` (lines 343-399). -/
def doprecBody (cfg : Config) (rec : State → Except Fault Run) (c : Int × Int)
    (i j : Nat) (lp : Loop) : Except Fault Loop :=
  if unrelated lp.st i j = true then
    if condB1 lp.st i j ≠ i then .ok lp
    else if condB2 lp.st i j ≠ lp.st.ntypes then .ok lp
    else
      let bt := if lp.bckup = true then lp.bckuptypes else lp.st.types
      relationTail cfg rec false c i j bt lp (precStep lp.st i j)
  else .ok lp

/-- `doprec`. -/
def doprec (cfg : Config) (rec : State → Except Fault Run) (s : State) : Except Fault Run :=
  match checked cfg s with
  | .error e => .error e
  | .ok c =>
    match forLoop (fun lp => lp.st.ntypes)
        (fun i lp => forLoop (fun lp => lp.st.ntypes) (doprecBody cfg rec c i)
          (MAXTYPES cfg + 1) (i + 1) lp)
        (MAXTYPES cfg + 1) 0
        { st := s, out := [], bckup := false, bckuptypes := [], bckuprelations := [] } with
    | .error e => .error e
    | .ok lp => .ok { st := lp.st, out := lp.out }

/-- One guarded move of `recurse`: the optional consistency check followed by
a move generator, started on the state and output of the moves before it. -/
def attempt (cfg : Config) (gen : State → Except Fault Run) (r : Run) : Except Fault Run :=
  match checked cfg r.st with
  | .error e => .error e
  | .ok _ =>
    match gen r.st with
    | .error e => .error e
    | .ok r1 => .ok { st := r1.st, out := r.out ++ r1.out }

/-- `recurse`, with the recursion depth bounded by the fuel. -/
def recurse (cfg : Config) : Nat → State → Except Fault Run
  | 0, _ => .error .outOfFuel
  | fuel + 1, s =>
    if s.length ≥ MAXLENGTH cfg then .ok { st := s, out := [] }
    else
      match attempt cfg (doleaf cfg (recurse cfg fuel)) { st := s, out := [] } with
      | .error e => .error e
      | .ok r1 =>
        match attempt cfg (dobranch cfg (recurse cfg fuel)) r1 with
        | .error e => .error e
        | .ok r2 =>
          match attempt cfg (doperp cfg (recurse cfg fuel)) r2 with
          | .error e => .error e
          | .ok r3 => attempt cfg (doprec cfg (recurse cfg fuel)) r3

/-- The state at program start (all statics zero) after `ntypes = 1`. -/
def seed (cfg : Config) : State :=
  { lev := List.replicate (MAXLENGTH cfg) 0
    types := List.replicate (MAXTYPES cfg) (List.replicate (MAXLENGTH cfg + 1) 0)
    relations := List.replicate (MAXTYPES cfg) 0
    leafs := List.replicate cfg.MAXLEAFS (List.replicate (MAXLENGTH cfg + 1) 0)
    length := 0
    ntypes := 1
    nleafs := 0 }

/-- `main`: the search started from the seed. -/
def main (cfg : Config) : Except Fault Run :=
  recurse cfg (MAXLENGTH cfg + 1) (seed cfg)

/-! ## Specification vocabulary -/

/-- Some position of the common part of two words has `a[p] < b[p]`. -/
def hasLt : List Nat → List Nat → Bool
  | a :: s1, b :: s2 => decide (a < b) || hasLt s1 s2
  | _, _ => false

/-- The number of other active types `j` for which `prec` or `perp` holds
between `types[k]` and `types[j]`, the earlier list element taken first. -/
def relCount (s : State) (k : Nat) : Nat :=
  (List.range k).countP (fun j => related s j k) +
    (List.range' (k + 1) (s.ntypes - (k + 1))).countP (fun j => related s k j)

/-- The number of pairs `i < j` of active types with `prec (types[i], types[j])`. -/
def precTotal (s : State) : Nat :=
  ((List.range s.ntypes).map (fun i =>
    (List.range' (i + 1) (s.ntypes - (i + 1))).countP (fun j =>
      prec (tyrow s i) (tyrow s j)))).sum

/-- The number of pairs `i < j` of active types with `perp (types[i], types[j])`. -/
def perpTotal (s : State) : Nat :=
  ((List.range s.ntypes).map (fun i =>
    (List.range' (i + 1) (s.ntypes - (i + 1))).countP (fun j =>
      perp (tyrow s i) (tyrow s j)))).sum

/-- Two states hold the same shared data: the same arrays `lev`, `types` and
`relations`, the same counters, and the same leaf rows below `nleafs`.  The
rows of `leafs` at or above `nleafs` are dead storage and may differ. -/
def SameShared (s t : State) : Prop :=
  t.lev = s.lev ∧ t.types = s.types ∧ t.relations = s.relations ∧
    t.length = s.length ∧ t.ntypes = s.ntypes ∧ t.nleafs = s.nleafs ∧
    t.leafs.length = s.leafs.length ∧ ∀ k, k < s.nleafs → leafrow t k = leafrow s k

/-- The states on which the search calls `recurse`: the seed, and the states
the four move generators hand to `recurse` from such a state (the guards are
the tests of `recurse`, `doleaf`, `dobranch`, `doperp` and `doprec`).  When a
generator has returned, only dead leaf rows may differ from before, which
is the last rule. -/
inductive Reachable (cfg : Config) : State → Prop where
  | seed : Reachable cfg (seed cfg)
  | leaf (s : State) (i : Nat) : Reachable cfg s → s.length < MAXLENGTH cfg →
      s.nleafs ≠ cfg.MAXLEAFS → i < s.ntypes →
      s.relations.getD i 0 = (s.ntypes : Int) - 1 → s.ntypes ≠ 1 →
      Reachable cfg (leafStep s i)
  | branch (s : State) (i : Nat) : Reachable cfg s → s.length < MAXLENGTH cfg →
      branchGate cfg s = .ok true → i < s.ntypes → Reachable cfg (branchStep s i)
  | perp (s : State) (i j : Nat) : Reachable cfg s → s.length < MAXLENGTH cfg →
      i < j → j < s.ntypes → unrelated s i j = true → condA s i j = j →
      Reachable cfg (perpStep s i j)
  | prec (s : State) (i j : Nat) : Reachable cfg s → s.length < MAXLENGTH cfg →
      i < j → j < s.ntypes → unrelated s i j = true → condB1 s i j = i →
      condB2 s i j = s.ntypes → Reachable cfg (precStep s i j)
  | stale (s t : State) : Reachable cfg s → SameShared s t → Reachable cfg t

/-- The representation invariant of the search. -/
structure Inv (cfg : Config) (s : State) : Prop where
  lev_len : s.lev.length = MAXLENGTH cfg
  lev_zero : ∀ p, s.length ≤ p → s.lev.getD p 0 = 0
  lev_tag : ∀ p, p < s.length →
    s.lev.getD p 0 = chb ∨ s.lev.getD p 0 = chl ∨ s.lev.getD p 0 = chp ∨ s.lev.getD p 0 = chlt
  types_len : s.types.length = MAXTYPES cfg
  row_len : ∀ k, k < MAXTYPES cfg → (tyrow s k).length = MAXLENGTH cfg + 1
  row_zero : ∀ k p, s.length ≤ p → (tyrow s k).getD p 0 = 0
  row_abc : ∀ k p, k < s.ntypes → p < s.length →
    (tyrow s k).getD p 0 = chL ∨ (tyrow s k).getD p 0 = chO ∨ (tyrow s k).getD p 0 = chR
  rel_len : s.relations.length = MAXTYPES cfg
  leafs_len : s.leafs.length = cfg.MAXLEAFS
  nt_pos : 1 ≤ s.ntypes
  nt_le : s.ntypes ≤ MAXTYPES cfg
  tot_le : s.ntypes + s.nleafs ≤ cfg.MAXLEAFS
  len_le : s.length ≤ MAXLENGTH cfg
  sorted : ∀ k, k + 1 < s.ntypes → ltlex (tyrow s k) (tyrow s (k + 1)) = true
  excl : ∀ a b, a < b → b < s.ntypes →
    ¬ (prec (tyrow s a) (tyrow s b) = true ∧ perp (tyrow s a) (tyrow s b) = true)
  rel_ok : ∀ k, k < s.ntypes → s.relations.getD k 0 = (relCount s k : Int)
  leaf_len : ∀ k, k < s.nleafs → strlen (leafrow s k) ≤ s.length

/-- A word that holds no terminator. -/
def NoNul (w : List Nat) : Prop := ∀ c ∈ w, c ≠ 0

/-- The word of the active type `k`: the first `length` characters of its row. -/
def word (s : State) (k : Nat) : List Nat := (tyrow s k).take s.length

/-- The state `t` arises from `s` by writing one column: the active row `k`
of `t` is the row `src k` of `s` with the character `col k` written at
position `s.length`; the rows that are not active are those of `s`. -/
structure Column (s t : State) (src col : Nat → Nat) : Prop where
  length_eq : t.length = s.length + 1
  types_len : t.types.length = s.types.length
  row_active : ∀ k, k < t.ntypes → tyrow t k = (tyrow s (src k)).set s.length (col k)
  src_lt : ∀ k, k < t.ntypes → src k < s.ntypes
  col_abc : ∀ k, k < t.ntypes → col k = chL ∨ col k = chO ∨ col k = chR
  row_stale : ∀ k, t.ntypes ≤ k → tyrow t k = tyrow s k

/-- The column written by `doperp` for the pair `i < j`. -/
def perpCol (s : State) (i j k : Nat) : Nat :=
  if k < i then chO
  else if k = i then chR
  else if k < j then (if perp (tyrow s i) (tyrow s k) = true then chO else chR)
  else if k = j then chO
  else chR

/-- The column written by `doprec` for the pair `i < j`. -/
def precCol (s : State) (i j k : Nat) : Nat :=
  if k < i then (if perp (tyrow s k) (tyrow s i) = true then chO else chL)
  else if k = i then chL
  else if k < j then chO
  else if k = j then chR
  else (if perp (tyrow s j) (tyrow s k) = true then chO else chR)

/-- The row of the old state from which `dobranch` fills row `k` when it
splits type `i`. -/
def branchSrc (i k : Nat) : Nat := if k ≤ i then k else k - 1

/-- The column written by `dobranch` when it splits type `i`. -/
def branchCol (i k : Nat) : Nat := if k ≤ i then chO else chR

/-- The row of the old state that becomes row `k` when `doleaf` removes type `i`. -/
def leafSrc (i k : Nat) : Nat := if k < i then k else k + 1

/-- The types `x` and `y` are distinct and related, whichever comes first in
the list. -/
def symRel (s : State) (x y : Nat) : Bool :=
  decide (x ≠ y) && related s (min x y) (max x y)

/-- An object printed by the search: `print_type` is called by `doleaf` when
the only active type of a reachable state becomes a leaf. -/
def Emitted (cfg : Config) (e : Emission) : Prop :=
  ∃ s, Reachable cfg s ∧ s.length < MAXLENGTH cfg ∧ s.ntypes = 1 ∧
    s.nleafs ≠ cfg.MAXLEAFS ∧ s.relations.getD 0 0 = 0 ∧ e = print_type (leafMark s 0)

/-- What a move generator needs from the recursive call on the states of the
next depth `d`: it returns, it leaves the shared state as it found it, and
it prints only objects of the search. -/
def RecOK (cfg : Config) (rec : State → Except Fault Run) (d : Nat) : Prop :=
  ∀ s, Reachable cfg s → s.length = d →
    ∃ r, rec s = .ok r ∧ SameShared s r.st ∧ ∀ e ∈ r.out, Emitted cfg e

/-- The loop invariant of the move generators: the shared state is that of
the entry state `s`, the output so far consists of objects of the search,
and a backup, once taken, holds the arrays of `s`. -/
def LoopOK (cfg : Config) (s : State) (lp : Loop) : Prop :=
  SameShared s lp.st ∧ (∀ e ∈ lp.out, Emitted cfg e) ∧
    (lp.bckup = true → lp.bckuptypes = s.types ∧ lp.bckuprelations = s.relations)

/-- The loop invariant of `doperp` and `doprec`, which back up `types` only. -/
def RelLoopOK (cfg : Config) (s : State) (lp : Loop) : Prop :=
  SameShared s lp.st ∧ (∀ e ∈ lp.out, Emitted cfg e) ∧
    (lp.bckup = true → lp.bckuptypes = s.types)

/-- The active list is strictly ascending under `ltlex`. -/
def Ascending (s : State) : Prop :=
  ∀ i, 0 < i → i < s.ntypes → ltlex (tyrow s (i - 1)) (tyrow s i) = true

/-- The configuration of the program as distributed: `MAXLEAFS` is 3 and
`analcheck` is 0. -/
def cfg3 : Config := { MAXLEAFS := 3, analcheck := false }

/-- The seed after the first type has been split: two active types `O`, `R`. -/
def twoTypes : State := branchStep (seed cfg3) 0

/-- The configuration with `MAXLEAFS` set to 2. -/
def cfg2 : Config := { MAXLEAFS := 2, analcheck := false }

/-- The configuration with `MAXLEAFS` set to 1. -/
def cfg1 : Config := { MAXLEAFS := 1, analcheck := false }

/-- The number of pairs `i < j` of active types related by neither `prec`
nor `perp`. -/
def unrelTotal (s : State) : Nat :=
  ((List.range s.ntypes).map (fun i =>
    (List.range' (i + 1) (s.ntypes - (i + 1))).countP (fun j => unrelated s i j))).sum

/-- The sum of the cached relation counts of the active types. -/
def relSum (s : State) : Int :=
  ((List.range s.ntypes).map (fun k => s.relations.getD k 0)).sum

/-- The program stopped by itself at the fault `e`: the fuel of the model did
not run out, and with `analcheck` off the fault is not one of the two checks
that only `analcheck` enables. -/
def Stops (cfg : Config) (e : Fault) : Prop :=
  e ≠ .outOfFuel ∧ (cfg.analcheck = false → e ≠ .exitPerp ∧ e ≠ .exitPrec)

/-- A call of the search on the state `s` has come to an end: it returned with
the depth and the number of active types of `s`, or the program stopped by
itself. -/
def Halts (cfg : Config) (s : State) (x : Except Fault Run) : Prop :=
  (∃ r, x = .ok r ∧ r.st.length = s.length ∧ r.st.ntypes = s.ntypes) ∨
    (∃ e, x = .error e ∧ Stops cfg e)

/-- What a move generator needs from the recursive call on the states of
depth `d` to come to an end itself. -/
def RecHalts (cfg : Config) (rec : State → Except Fault Run) (d : Nat) : Prop :=
  ∀ t, t.length = d → t.ntypes ≤ MAXTYPES cfg → Halts cfg t (rec t)

/-- The two types `OR` and `RO`: the seed split once, then made incomparable. -/
def perpPair : State := perpStep twoTypes 0 1

/-- The seed of the program as distributed, with the depth counter set to 1
although the word of its only type is empty. -/
def offDepth : State := { seed cfg3 with length := 1 }

/-- The configuration with `MAXLEAFS` set to 8. -/
def cfg8 : Config := { MAXLEAFS := 8, analcheck := false }

/-- The seed for `MAXLEAFS` 8 after `k` branch moves on the first type. -/
def splits : Nat → State
  | 0 => seed cfg8
  | k + 1 => branchStep (splits k) 0

/-- Two types `OOOOOOOO` and `ROOOOOOO` at depth 8 for `MAXLEAFS` 3, with no
leaves and no relations. -/
def deepPair : State :=
  { lev := [chb, chb, chb, chb, chb, chb, chb, chb, 0, 0]
    types := [[chO, chO, chO, chO, chO, chO, chO, chO, 0, 0, 0],
      [chR, chO, chO, chO, chO, chO, chO, chO, 0, 0, 0],
      [0, 0, 0, 0, 0, 0, 0, 0, 0, 0, 0]]
    relations := [0, 0, 0]
    leafs := List.replicate 3 (List.replicate 11 0)
    length := 8
    ntypes := 2
    nleafs := 0 }

/-- What identifies a printed object: the ordered list of its leaf words and
its level types string. -/
def emissionKey (e : Emission) : List (List Nat) × List Nat :=
  (e.vertices.map Prod.fst, e.lev)

/-- Exactly one of `prec (x, y)`, `prec (y, x)`, `perp (x, y)` holds. -/
def oneOf (x y : List Nat) : Bool :=
  (prec x y && !prec y x && !perp x y) || (!prec x y && prec y x && !perp x y) ||
    (!prec x y && !prec y x && perp x y)

/-- The depth budget: twice the depth plus the number of ordered pairs of
active types is at most twice the number of branch moves made (`T - 1` for
the `T = ntypes + nleafs` elements made so far), twice the number of leaf
moves, the number of ordered pairs of all elements, and the sum of the
relation counts. -/
def Budget (s : State) : Prop :=
  2 * (s.length : Int) + (s.ntypes : Int) * ((s.ntypes : Int) - 1) ≤
    2 * ((s.ntypes : Int) + (s.nleafs : Int) - 1) + 2 * (s.nleafs : Int) +
      ((s.ntypes : Int) + (s.nleafs : Int)) * ((s.ntypes : Int) + (s.nleafs : Int) - 1) +
      relSum s

/-- A word read as a number in base 256, behind a leading digit 1. -/
def wordCode (w : List Nat) : Nat := w.foldl (fun a c => a * 256 + c) 1

/-- A number computed from the leaf words and the level types string of a
printed object, used to compare printed objects. -/
def keyCode (k : List (List Nat) × List Nat) : Nat :=
  (k.1.map wordCode).foldl (fun a c => a * 2 ^ 80 + c) (wordCode k.2)

/-- No number occurs twice in the list. -/
def distinctNat : List Nat → Bool
  | [] => true
  | x :: xs => xs.all (fun y => !Nat.beq y x) && distinctNat xs

/-- A word over the letters `L`, `O`, `R`. -/
def Abc (w : List Nat) : Prop := ∀ c ∈ w, c = chL ∨ c = chO ∨ c = chR

/-- What the search keeps true of the leaves: every leaf word is over `L`,
`O`, `R`, and exactly one of the three relations holds between a leaf and any
active type, and between any two leaves. -/
structure LeafInv (s : State) : Prop where
  leaf_abc : ∀ a, a < s.nleafs → Abc (cstr (leafrow s a))
  leaf_type : ∀ a k, a < s.nleafs → k < s.ntypes → oneOf (leafrow s a) (tyrow s k) = true
  leaf_leaf : ∀ a b, a < b → b < s.nleafs → oneOf (leafrow s a) (leafrow s b) = true

/-- The word of the leaf `a` of a printed object. -/
def leafWord (e : Emission) (a : Nat) : List Nat := (e.vertices.getD a ([], 0)).1

/-- The entry of the adjacency matrix printed for the leaves `j < i`. -/
def adjEntry (e : Emission) (i j : Nat) : Nat := (e.adj.getD (i - 1) []).getD j 0

/-! ## C strings and the three predicates on words -/

theorem noNul_nil : NoNul [] := by
  intro c hc; cases hc

theorem noNul_cons {x : Nat} {w : List Nat} : NoNul (x :: w) ↔ x ≠ 0 ∧ NoNul w := by
  simp [NoNul]

theorem noNul_append {a b : List Nat} : NoNul (a ++ b) ↔ NoNul a ∧ NoNul b := by
  simp only [NoNul, List.mem_append]
  constructor
  · intro h; exact ⟨fun c hc => h c (Or.inl hc), fun c hc => h c (Or.inr hc)⟩
  · rintro ⟨h1, h2⟩ c (hc | hc)
    · exact h1 c hc
    · exact h2 c hc

theorem cstr_append_nul (w t : List Nat) (hw : NoNul w) : cstr (w ++ 0 :: t) = w := by
  induction w with
  | nil => simp [cstr]
  | cons x w ih =>
    have h := noNul_cons.mp hw
    simp [cstr, h.1, ih h.2]

theorem cstr_noNul (w : List Nat) : NoNul (cstr w) := by
  induction w with
  | nil => simpa [cstr] using noNul_nil
  | cons x w ih =>
    by_cases hx : x = 0
    · simpa [cstr, hx] using noNul_nil
    · simp only [cstr, hx, if_false]
      exact noNul_cons.mpr ⟨hx, ih⟩

theorem cstr_of_noNul (w : List Nat) (hw : NoNul w) : cstr w = w := by
  induction w with
  | nil => simp [cstr]
  | cons x w ih =>
    have h := noNul_cons.mp hw
    simp [cstr, h.1, ih h.2]

theorem strlen_eq_length_cstr (r : List Nat) : strlen r = (cstr r).length := by
  induction r with
  | nil => simp [strlen, cstr]
  | cons x r ih =>
    by_cases hx : x = 0
    · simp [strlen, cstr, hx]
    · simp [strlen, cstr, hx, ih]

theorem ltlex_cstr (a b : List Nat) : ltlex a b = ltlex (cstr a) (cstr b) := by
  induction a generalizing b with
  | nil => simp [ltlex, cstr]
  | cons x a ih =>
    cases b with
    | nil =>
      by_cases hx : x = 0 <;> simp [ltlex, cstr, hx]
    | cons y b =>
      by_cases hx : x = 0
      · simp [ltlex, cstr, hx]
      · by_cases hy : y = 0
        · simp [ltlex, cstr, hx, hy]
        · simp [ltlex, cstr, hx, hy, ih b]

theorem prec_cstr (a b : List Nat) : prec a b = prec (cstr a) (cstr b) := by
  induction a generalizing b with
  | nil => simp [prec, cstr]
  | cons x a ih =>
    cases b with
    | nil =>
      by_cases hx : x = 0 <;> simp [prec, cstr, hx]
    | cons y b =>
      by_cases hx : x = 0
      · simp [prec, cstr, hx]
      · by_cases hy : y = 0
        · simp [prec, cstr, hx, hy]
        · simp [prec, cstr, hx, hy, ih b]

theorem perpFrom_cstr (f1 f2 : Bool) (a b : List Nat) :
    perpFrom f1 f2 a b = perpFrom f1 f2 (cstr a) (cstr b) := by
  induction a generalizing b f1 f2 with
  | nil => simp [perpFrom, cstr]
  | cons x a ih =>
    cases b with
    | nil =>
      by_cases hx : x = 0 <;> simp [perpFrom, cstr, hx]
    | cons y b =>
      by_cases hx : x = 0
      · simp [perpFrom, cstr, hx]
      · by_cases hy : y = 0
        · simp [perpFrom, cstr, hx, hy]
        · simp only [perpFrom, cstr, hx, hy, or_self, if_false]
          rw [ih]

theorem perp_cstr (a b : List Nat) : perp a b = perp (cstr a) (cstr b) :=
  perpFrom_cstr false false a b

/-! ### The predicates on words without terminator -/

theorem ltlex_cons (x y : Nat) (a b : List Nat) (hx : x ≠ 0) (hy : y ≠ 0) :
    ltlex (x :: a) (y :: b) = (decide (x < y) || (decide (x = y) && ltlex a b)) := by
  simp only [ltlex, hx, hy, or_self, if_false]
  by_cases h1 : x < y
  · simp [h1]
  · by_cases h2 : x > y
    · have : x ≠ y := by omega
      simp [h1, h2, this]
    · have : x = y := by omega
      simp [this]

theorem prec_cons (x y : Nat) (a b : List Nat) (hx : x ≠ 0) (hy : y ≠ 0) :
    prec (x :: a) (y :: b) =
      (!decide (y < x) && (decide (x = chL ∧ y = chR) || prec a b)) := by
  simp only [prec, hx, hy, or_self, if_false]
  by_cases h1 : x > y
  · simp [h1]
  · have h1' : ¬ y < x := h1
    by_cases h2 : x = chL ∧ y = chR
    · simp [h1, h1', h2]
    · simp [h1, h1', h2]

theorem perpFrom_eq (f1 f2 : Bool) (a b : List Nat) (ha : NoNul a) (hb : NoNul b)
    (hf : (f1 && f2) = false) :
    perpFrom f1 f2 a b = ((f1 || hasLt a b) && (f2 || hasLt b a)) := by
  induction a generalizing b f1 f2 with
  | nil =>
    have h1 : perpFrom f1 f2 [] b = false := by cases b <;> rfl
    have h2 : hasLt [] b = false := by cases b <;> rfl
    have h3 : hasLt b [] = false := by cases b <;> rfl
    rw [h1, h2, h3]
    cases f1 <;> cases f2 <;> first | rfl | exact absurd hf (by decide)
  | cons x a ih =>
    cases b with
    | nil =>
      have h1 : perpFrom f1 f2 (x :: a) [] = false := rfl
      have h2 : hasLt (x :: a) [] = false := rfl
      have h3 : hasLt [] (x :: a) = false := rfl
      rw [h1, h2, h3]
      cases f1 <;> cases f2 <;> first | rfl | exact absurd hf (by decide)
    | cons y b =>
      have hx := noNul_cons.mp ha
      have hy := noNul_cons.mp hb
      simp only [perpFrom, hx.1, hy.1, or_self, if_false, hasLt]
      by_cases h1 : x < y
      · have h3 : ¬ x > y := by omega
        have h2 : ¬ y < x := by omega
        simp only [h1, h3, if_true, if_false, true_and]
        cases f2 with
        | true => simp
        | false =>
          rw [ih true false b hx.2 hy.2 rfl]
          simp [h2]
      · by_cases h2 : y < x
        · have h3 : x > y := h2
          simp only [h1, h3, if_true, if_false, and_true]
          cases f1 with
          | true => simp
          | false =>
            rw [ih false true b hx.2 hy.2 rfl]
            simp [h1, h2]
        · have h3 : ¬ x > y := h2
          simp only [h1, h3, if_false]
          have hf' : ¬ (f1 = true ∧ f2 = true) := by
            cases f1 <;> cases f2 <;> simp_all
          simp only [hf', if_false]
          rw [ih f1 f2 b hx.2 hy.2 hf]
          simp [h1, h2]

theorem perp_eq (a b : List Nat) (ha : NoNul a) (hb : NoNul b) :
    perp a b = (hasLt a b && hasLt b a) := by
  unfold perp
  rw [perpFrom_eq false false a b ha hb rfl]
  simp

theorem perp_comm (a b : List Nat) (ha : NoNul a) (hb : NoNul b) : perp a b = perp b a := by
  rw [perp_eq a b ha hb, perp_eq b a hb ha, Bool.and_comm]

theorem hasLt_self (a : List Nat) : hasLt a a = false := by
  induction a with
  | nil => simp [hasLt]
  | cons x a ih => simp [hasLt, ih]

theorem ltlex_self (a : List Nat) : ltlex a a = false := by
  induction a with
  | nil => simp [ltlex]
  | cons x a ih =>
    by_cases hx : x = 0
    · simp [ltlex, hx]
    · simp [ltlex, hx, ih]

theorem prec_self (a : List Nat) : prec a a = false := by
  induction a with
  | nil => simp [prec]
  | cons x a ih =>
    by_cases hx : x = 0
    · simp [prec, hx]
    · have h : ¬ (x = chL ∧ x = chR) := by
        rintro ⟨h1, h2⟩; rw [h1] at h2; exact absurd h2 (by decide)
      simp [prec, hx, ih, h]

theorem ltlex_hasLt (a b : List Nat) (ha : NoNul a) (hb : NoNul b)
    (h : ltlex a b = true) : hasLt a b = true := by
  induction a generalizing b with
  | nil => simp [ltlex] at h
  | cons x a ih =>
    cases b with
    | nil => simp [ltlex] at h
    | cons y b =>
      have hx := noNul_cons.mp ha
      have hy := noNul_cons.mp hb
      rw [ltlex_cons x y a b hx.1 hy.1] at h
      simp only [hasLt]
      by_cases h1 : x < y
      · simp [h1]
      · simp only [h1, decide_False, Bool.false_or, Bool.and_eq_true] at h
        simp [ih b hx.2 hy.2 h.2]

theorem ltlex_prec_rev (a b : List Nat) (ha : NoNul a) (hb : NoNul b)
    (h : ltlex a b = true) : prec b a = false := by
  induction a generalizing b with
  | nil => simp [ltlex] at h
  | cons x a ih =>
    cases b with
    | nil => simp [ltlex] at h
    | cons y b =>
      have hx := noNul_cons.mp ha
      have hy := noNul_cons.mp hb
      rw [ltlex_cons x y a b hx.1 hy.1] at h
      rw [prec_cons y x b a hy.1 hx.1]
      by_cases h1 : x < y
      · simp [h1]
      · simp only [h1, decide_False, Bool.false_or, Bool.and_eq_true, decide_eq_true_eq] at h
        have hxy : ¬ (y = chL ∧ x = chR) := by
          rintro ⟨h2, h3⟩; rw [h2, h3] at h; exact absurd h.1 (by decide)
        simp [h1, hxy, ih b hx.2 hy.2 h.2]

theorem ltlex_trans (a b c : List Nat) (ha : NoNul a) (hb : NoNul b) (hc : NoNul c)
    (hab : a.length = b.length) (hbc : b.length = c.length)
    (h1 : ltlex a b = true) (h2 : ltlex b c = true) : ltlex a c = true := by
  induction a generalizing b c with
  | nil => simp [ltlex] at h1
  | cons x a ih =>
    cases b with
    | nil => simp [ltlex] at h1
    | cons y b =>
      cases c with
      | nil => simp [ltlex] at h2
      | cons z c =>
        have hx := noNul_cons.mp ha
        have hy := noNul_cons.mp hb
        have hz := noNul_cons.mp hc
        rw [ltlex_cons x y a b hx.1 hy.1] at h1
        rw [ltlex_cons y z b c hy.1 hz.1] at h2
        rw [ltlex_cons x z a c hx.1 hz.1]
        simp only [Bool.or_eq_true, Bool.and_eq_true, decide_eq_true_eq] at h1 h2 ⊢
        simp only [List.length_cons, Nat.add_right_cancel_iff] at hab hbc
        rcases h1 with h1 | ⟨e1, h1⟩
        · rcases h2 with h2 | ⟨e2, _⟩
          · left; omega
          · left; omega
        · rcases h2 with h2 | ⟨e2, h2⟩
          · left; omega
          · right; exact ⟨by omega, ih b c hx.2 hy.2 hz.2 hab hbc h1 h2⟩

/-! ### Appending one column -/

theorem hasLt_snoc (a b : List Nat) (x y : Nat) (hab : a.length = b.length) :
    hasLt (a ++ [x]) (b ++ [y]) = (hasLt a b || decide (x < y)) := by
  induction a generalizing b with
  | nil =>
    cases b with
    | nil => simp [hasLt]
    | cons y b => simp at hab
  | cons u a ih =>
    cases b with
    | nil => simp at hab
    | cons v b =>
      simp only [List.length_cons, Nat.add_right_cancel_iff] at hab
      rw [List.cons_append, List.cons_append]
      simp only [hasLt]
      rw [ih b hab, Bool.or_assoc]

theorem ltlex_snoc (a b : List Nat) (x y : Nat) (ha : NoNul a) (hb : NoNul b)
    (h : ltlex a b = true) : ltlex (a ++ [x]) (b ++ [y]) = true := by
  induction a generalizing b with
  | nil => simp [ltlex] at h
  | cons u a ih =>
    cases b with
    | nil => simp [ltlex] at h
    | cons v b =>
      have hx := noNul_cons.mp ha
      have hy := noNul_cons.mp hb
      rw [ltlex_cons u v a b hx.1 hy.1] at h
      rw [List.cons_append, List.cons_append, ltlex_cons u v _ _ hx.1 hy.1]
      simp only [Bool.or_eq_true, Bool.and_eq_true, decide_eq_true_eq] at h ⊢
      rcases h with h | ⟨e, h⟩
      · exact Or.inl h
      · exact Or.inr ⟨e, ih b hx.2 hy.2 h⟩

theorem ltlex_snoc_self (a : List Nat) (x y : Nat) (ha : NoNul a) (hx : x ≠ 0) (hy : y ≠ 0) :
    ltlex (a ++ [x]) (a ++ [y]) = decide (x < y) := by
  induction a with
  | nil => simp [ltlex, hx, hy]
  | cons u a ih =>
    have hu := noNul_cons.mp ha
    rw [List.cons_append, List.cons_append, ltlex_cons u u _ _ hu.1 hu.1, ih hu.2]
    simp

theorem prec_snoc (a b : List Nat) (x y : Nat) (ha : NoNul a) (hb : NoNul b)
    (hab : a.length = b.length) (hx : x ≠ 0) (hy : y ≠ 0) :
    prec (a ++ [x]) (b ++ [y]) =
      (prec a b || (!hasLt b a && !decide (y < x) && decide (x = chL ∧ y = chR))) := by
  induction a generalizing b with
  | nil =>
    cases b with
    | nil => simp [prec, hasLt, hx, hy]
    | cons v b => simp at hab
  | cons u a ih =>
    cases b with
    | nil => simp at hab
    | cons v b =>
      have hu := noNul_cons.mp ha
      have hv := noNul_cons.mp hb
      simp only [List.length_cons, Nat.add_right_cancel_iff] at hab
      rw [List.cons_append, List.cons_append, prec_cons u v _ _ hu.1 hv.1,
        prec_cons u v _ _ hu.1 hv.1, ih b hu.2 hv.2 hab]
      simp only [hasLt]
      generalize decide (v < u) = d
      generalize decide (u = chL ∧ v = chR) = p
      generalize prec a b = P
      generalize hasLt b a = H
      generalize decide (y < x) = e
      generalize decide (x = chL ∧ y = chR) = f
      cases d <;> cases p <;> cases P <;> cases H <;> cases e <;> cases f <;> rfl

/-! ### Facts about three words -/

theorem hasLt_mid_right (a b c : List Nat) (hab : a.length = b.length)
    (hbc : b.length = c.length) (h1 : hasLt b a = false) (h2 : hasLt c a = true) :
    hasLt c b = true := by
  induction a generalizing b c with
  | nil =>
    cases c with
    | nil => simp [hasLt] at h2
    | cons z c => simp [hasLt] at h2
  | cons x a ih =>
    cases b with
    | nil => simp at hab
    | cons y b =>
      cases c with
      | nil => simp at hbc
      | cons z c =>
        simp only [List.length_cons, Nat.add_right_cancel_iff] at hab hbc
        simp only [hasLt, Bool.or_eq_false_iff, decide_eq_false_iff_not, Bool.or_eq_true,
          decide_eq_true_eq] at h1 h2 ⊢
        rcases h2 with h2 | h2
        · left; omega
        · right; exact ih b c hab hbc h1.2 h2

theorem hasLt_mid_left (a b c : List Nat) (hab : a.length = b.length)
    (hbc : b.length = c.length) (h1 : hasLt c a = true) (h2 : hasLt c b = false) :
    hasLt b a = true := by
  induction a generalizing b c with
  | nil =>
    cases c with
    | nil => simp [hasLt] at h1
    | cons z c => simp [hasLt] at h1
  | cons x a ih =>
    cases b with
    | nil => simp at hab
    | cons y b =>
      cases c with
      | nil => simp at hbc
      | cons z c =>
        simp only [List.length_cons, Nat.add_right_cancel_iff] at hab hbc
        simp only [hasLt, Bool.or_eq_false_iff, decide_eq_false_iff_not, Bool.or_eq_true,
          decide_eq_true_eq] at h1 h2 ⊢
        rcases h1 with h1 | h1
        · left; omega
        · right; exact ih b c hab hbc h1 h2.2

theorem prec_mid (a b c : List Nat) (ha : NoNul a) (hb : NoNul b) (hc : NoNul c)
    (hab : a.length = b.length) (hbc : b.length = c.length)
    (hR : ∀ z ∈ c, z ≤ chR)
    (h1 : prec a b = true) (h2 : hasLt c b = false) : prec a c = true := by
  induction a generalizing b c with
  | nil => simp [prec] at h1
  | cons x a ih =>
    cases b with
    | nil => simp at hab
    | cons y b =>
      cases c with
      | nil => simp at hbc
      | cons z c =>
        have hx := noNul_cons.mp ha
        have hy := noNul_cons.mp hb
        have hz := noNul_cons.mp hc
        simp only [List.length_cons, Nat.add_right_cancel_iff] at hab hbc
        rw [prec_cons x y a b hx.1 hy.1] at h1
        rw [prec_cons x z a c hx.1 hz.1]
        have hzR : z ≤ chR := hR z (List.mem_cons_self _ _)
        simp only [hasLt, Bool.or_eq_false_iff, decide_eq_false_iff_not, Bool.and_eq_true,
          Bool.not_eq_true', Bool.or_eq_true, decide_eq_true_eq] at h1 h2 ⊢
        refine ⟨by omega, ?_⟩
        rcases h1.2 with ⟨e1, e2⟩ | h3
        · left; exact ⟨e1, by omega⟩
        · right
          exact ih b c hx.2 hy.2 hz.2 hab hbc
            (fun w hw => hR w (List.mem_cons_of_mem _ hw)) h3 h2.2

/-! ## Arrays as lists: reading, writing and loops that write -/

theorem getD_set {α : Type} (t : List α) (k m : Nat) (v d : α) :
    (t.set k v).getD m d = if m = k ∧ k < t.length then v else t.getD m d := by
  simp only [List.getD_eq_getElem?_getD, List.getElem?_set]
  by_cases h : k = m
  · subst h
    by_cases h2 : k < t.length
    · simp [h2]
    · simp [h2, List.getElem?_eq_none (Nat.le_of_not_lt h2)]
  · have h' : ¬ m = k := fun e => h e.symm
    simp [h, h']

theorem getD_of_le {α : Type} (t : List α) (m : Nat) (d : α) (h : t.length ≤ m) :
    t.getD m d = d := by
  simp [List.getD_eq_getElem?_getD, List.getElem?_eq_none h]

theorem set_getD_self {α : Type} (t : List α) (k : Nat) (d : α) : t.set k (t.getD k d) = t := by
  apply List.ext_getElem?
  intro m
  rw [List.getElem?_set]
  by_cases h : k = m
  · subst h
    by_cases h2 : k < t.length
    · simp [h2, List.getD_eq_getElem?_getD, List.getElem?_eq_getElem h2]
    · simp [h2, List.getElem?_eq_none (Nat.le_of_not_lt h2)]
  · simp [h]

theorem ext_getD {α : Type} (t u : List α) (d : α) (hl : t.length = u.length)
    (h : ∀ m, m < t.length → t.getD m d = u.getD m d) : t = u := by
  apply List.ext_getElem hl
  intro m h1 h2
  have := h m h1
  simpa [List.getD_eq_getElem?_getD, List.getElem?_eq_getElem h1,
    List.getElem?_eq_getElem h2] using this

/-- An ascending loop that overwrites entry `k` at step `k` with a value that
depends only on entries the loop has not yet written. -/
theorem setLoop {α : Type} (d : α) (h : List α → Nat → α) (H : Nat → α) (n : Nat) :
    ∀ (a : Nat) (t0 : List α),
      (∀ k, a ≤ k → k < a + n → ∀ t : List α, t.length = t0.length →
        (∀ m, (m < a ∨ k ≤ m) → t.getD m d = t0.getD m d) → h t k = H k) →
      ((List.range' a n).foldl (fun t k => t.set k (h t k)) t0).length = t0.length ∧
      ∀ m, ((List.range' a n).foldl (fun t k => t.set k (h t k)) t0).getD m d =
        if a ≤ m ∧ m < a + n ∧ m < t0.length then H m else t0.getD m d := by
  induction n with
  | zero =>
    intro a t0 _
    refine ⟨rfl, fun m => ?_⟩
    have : ¬ (a ≤ m ∧ m < a + 0 ∧ m < t0.length) := by omega
    rw [if_neg this]
    rfl
  | succ n ih =>
    intro a t0 hyp
    have h0 : h t0 a = H a := hyp a (Nat.le_refl _) (by omega) t0 rfl (fun _ _ => rfl)
    have step : (List.range' a (n + 1)).foldl (fun t k => t.set k (h t k)) t0 =
        (List.range' (a + 1) n).foldl (fun t k => t.set k (h t k)) (t0.set a (H a)) := by
      simp [List.range', h0]
    rw [step]
    have hyp1 : ∀ k, a + 1 ≤ k → k < a + 1 + n → ∀ t : List α,
        t.length = (t0.set a (H a)).length →
        (∀ m, (m < a + 1 ∨ k ≤ m) → t.getD m d = (t0.set a (H a)).getD m d) →
        h t k = H k := by
      intro k hk1 hk2 t hl hm
      apply hyp k (by omega) (by omega) t (by simpa using hl)
      intro m hmm
      rw [hm m (by omega), getD_set]
      have : ¬ (m = a ∧ a < t0.length) := by omega
      simp [this]
    obtain ⟨l1, g1⟩ := ih (a + 1) (t0.set a (H a)) hyp1
    refine ⟨by simpa using l1, fun m => ?_⟩
    rw [g1 m, getD_set, List.length_set]
    by_cases c1 : a + 1 ≤ m ∧ m < a + 1 + n ∧ m < t0.length
    · have c2 : a ≤ m ∧ m < a + (n + 1) ∧ m < t0.length := by omega
      simp [c1, c2]
    · by_cases c3 : m = a ∧ a < t0.length
      · have c2 : a ≤ m ∧ m < a + (n + 1) ∧ m < t0.length := by omega
        simp [c1, c2, c3]
      · have c2 : ¬ (a ≤ m ∧ m < a + (n + 1) ∧ m < t0.length) := by omega
        simp [c1, c2, c3]

/-- A descending loop that overwrites entry `k` at step `k` with a value that
depends only on entries at or below `k` and entries outside the loop range. -/
theorem setLoopRev {α : Type} (d : α) (h : List α → Nat → α) (H : Nat → α) (n : Nat) :
    ∀ (a : Nat) (t0 : List α),
      (∀ k, a ≤ k → k < a + n → ∀ t : List α, t.length = t0.length →
        (∀ m, (m ≤ k ∨ a + n ≤ m) → t.getD m d = t0.getD m d) → h t k = H k) →
      ((List.range' a n).reverse.foldl (fun t k => t.set k (h t k)) t0).length = t0.length ∧
      ∀ m, ((List.range' a n).reverse.foldl (fun t k => t.set k (h t k)) t0).getD m d =
        if a ≤ m ∧ m < a + n ∧ m < t0.length then H m else t0.getD m d := by
  induction n with
  | zero =>
    intro a t0 _
    refine ⟨rfl, fun m => ?_⟩
    have : ¬ (a ≤ m ∧ m < a + 0 ∧ m < t0.length) := by omega
    rw [if_neg this]
    rfl
  | succ n ih =>
    intro a t0 hyp
    have h0 : h t0 (a + n) = H (a + n) :=
      hyp (a + n) (by omega) (by omega) t0 rfl (fun _ _ => rfl)
    have step : (List.range' a (n + 1)).reverse.foldl (fun t k => t.set k (h t k)) t0 =
        (List.range' a n).reverse.foldl (fun t k => t.set k (h t k))
          (t0.set (a + n) (H (a + n))) := by
      rw [List.range'_concat]
      simp [h0]
    rw [step]
    have hyp1 : ∀ k, a ≤ k → k < a + n → ∀ t : List α,
        t.length = (t0.set (a + n) (H (a + n))).length →
        (∀ m, (m ≤ k ∨ a + n ≤ m) → t.getD m d = (t0.set (a + n) (H (a + n))).getD m d) →
        h t k = H k := by
      intro k hk1 hk2 t hl hm
      apply hyp k (by omega) (by omega) t (by simpa using hl)
      intro m hmm
      rw [hm m (by omega), getD_set]
      have : ¬ (m = a + n ∧ a + n < t0.length) := by omega
      simp [this]
    obtain ⟨l1, g1⟩ := ih a (t0.set (a + n) (H (a + n))) hyp1
    refine ⟨by simpa using l1, fun m => ?_⟩
    rw [g1 m, getD_set, List.length_set]
    by_cases c1 : a ≤ m ∧ m < a + n ∧ m < t0.length
    · have c2 : a ≤ m ∧ m < a + (n + 1) ∧ m < t0.length := by omega
      simp [c1, c2]
    · by_cases c3 : m = a + n ∧ a + n < t0.length
      · have c2 : a ≤ m ∧ m < a + (n + 1) ∧ m < t0.length := by omega
        simp [c1, c2, c3]
      · have c2 : ¬ (a ≤ m ∧ m < a + (n + 1) ∧ m < t0.length) := by omega
        simp [c1, c2, c3]

theorem foldl_pair {α β γ : Type} (f : α → γ → α) (g : β → γ → β) (l : List γ) :
    ∀ (a : α) (b : β),
      l.foldl (fun (p : α × β) k => (f p.1 k, g p.2 k)) (a, b) = (l.foldl f a, l.foldl g b) := by
  induction l with
  | nil => intro a b; rfl
  | cons x l ih => intro a b; simp [List.foldl, ih]

/-! ### Rows -/

theorem cstr_eq_take (r : List Nat) : ∀ (n : Nat), (∀ p, p < n → r.getD p 0 ≠ 0) →
    r.getD n 0 = 0 → cstr r = r.take n := by
  induction r with
  | nil => intro n _ _; simp [cstr]
  | cons x r ih =>
    intro n h1 h2
    cases n with
    | zero =>
      have : x = 0 := by simpa using h2
      simp [cstr, this]
    | succ n =>
      have hx : x ≠ 0 := by simpa using h1 0 (by omega)
      simp only [cstr, hx, if_false, List.take_succ_cons]
      congr 1
      apply ih n
      · intro p hp
        have := h1 (p + 1) (by omega)
        simpa using this
      · simpa using h2

theorem take_set_succ (r : List Nat) (n c : Nat) (h : n < r.length) :
    (r.set n c).take (n + 1) = r.take n ++ [c] := by
  induction r generalizing n with
  | nil => simp at h
  | cons x r ih =>
    cases n with
    | zero => simp
    | succ n =>
      simp only [List.length_cons, Nat.add_lt_add_iff_right] at h
      simp [ih n h]

theorem noNul_take_of (r : List Nat) (n : Nat) (h : ∀ p, p < n → r.getD p 0 ≠ 0) :
    NoNul (r.take n) := by
  intro c hc
  obtain ⟨p, hp, rfl⟩ := List.mem_iff_getElem.mp hc
  have hp' : p < n ∧ p < r.length := by simpa using hp
  have := h p hp'.1
  simpa [List.getD_eq_getElem?_getD, List.getElem?_eq_getElem hp'.2] using this

theorem strcpy_clean (dst src : List Nat) (n : Nat) (hl : dst.length = src.length)
    (hn : n < src.length) (h1 : ∀ p, p < n → src.getD p 0 ≠ 0)
    (h2 : ∀ p, n ≤ p → src.getD p 0 = 0) (h3 : ∀ p, n ≤ p → dst.getD p 0 = 0) :
    strcpy dst src = src := by
  have hc : cstr src = src.take n := cstr_eq_take src n h1 (h2 n (Nat.le_refl _))
  have hs : strlen src = n := by
    rw [strlen_eq_length_cstr, hc, List.length_take]; omega
  unfold strcpy
  rw [hc, hs]
  apply ext_getD _ _ 0
  · simp only [List.length_append, List.length_take, List.length_cons, List.length_drop]
    omega
  · intro m _
    by_cases hm : m < n
    · rw [List.getD_eq_getElem?_getD, List.getD_eq_getElem?_getD,
        List.getElem?_append_left (by simp; omega), List.getElem?_take_of_lt hm]
    · rw [h2 m (by omega)]
      rw [List.getD_eq_getElem?_getD, List.getElem?_append_right (by simp; omega)]
      simp only [List.length_take]
      have e : min n src.length = n := by omega
      rw [e]
      by_cases hm2 : m = n
      · subst hm2; simp
      · obtain ⟨q, hq⟩ : ∃ q, m - n = q + 1 := ⟨m - n - 1, by omega⟩
        rw [hq, List.getElem?_cons_succ, List.getElem?_drop]
        have := h3 (n + 1 + q) (by omega)
        simpa [List.getD_eq_getElem?_getD] using this

/-! ## Consequences of the invariant for words -/

theorem inv_row_len {cfg : Config} {s : State} (h : Inv cfg s) {k : Nat} (hk : k < s.ntypes) :
    (tyrow s k).length = MAXLENGTH cfg + 1 :=
  h.row_len k (Nat.lt_of_lt_of_le hk h.nt_le)

theorem inv_row_ne {cfg : Config} {s : State} (h : Inv cfg s) {k p : Nat} (hk : k < s.ntypes)
    (hp : p < s.length) : (tyrow s k).getD p 0 ≠ 0 := by
  rcases h.row_abc k p hk hp with e | e | e <;> rw [e] <;> decide

theorem inv_cstr {cfg : Config} {s : State} (h : Inv cfg s) {k : Nat} (hk : k < s.ntypes) :
    cstr (tyrow s k) = word s k :=
  cstr_eq_take _ _ (fun _ hp => inv_row_ne h hk hp) (h.row_zero k _ (Nat.le_refl _))

theorem inv_word_len {cfg : Config} {s : State} (h : Inv cfg s) {k : Nat} (hk : k < s.ntypes) :
    (word s k).length = s.length := by
  unfold word
  rw [List.length_take, inv_row_len h hk]
  have := h.len_le
  omega

theorem inv_strlen {cfg : Config} {s : State} (h : Inv cfg s) {k : Nat} (hk : k < s.ntypes) :
    strlen (tyrow s k) = s.length := by
  rw [strlen_eq_length_cstr, inv_cstr h hk, inv_word_len h hk]

theorem inv_word_noNul {cfg : Config} {s : State} (h : Inv cfg s) {k : Nat}
    (hk : k < s.ntypes) : NoNul (word s k) :=
  noNul_take_of _ _ (fun _ hp => inv_row_ne h hk hp)

theorem inv_word_abc {cfg : Config} {s : State} (h : Inv cfg s) {k : Nat} (hk : k < s.ntypes) :
    ∀ c ∈ word s k, c = chL ∨ c = chO ∨ c = chR := by
  intro c hc
  obtain ⟨p, hp, rfl⟩ := List.mem_iff_getElem.mp hc
  have hp' : p < s.length ∧ p < (tyrow s k).length := by
    simpa [word] using hp
  have := h.row_abc k p hk hp'.1
  simpa [word, List.getD_eq_getElem?_getD, List.getElem?_eq_getElem hp'.2] using this

theorem inv_ltlex {cfg : Config} {s : State} (h : Inv cfg s) {a b : Nat} (ha : a < s.ntypes)
    (hb : b < s.ntypes) : ltlex (tyrow s a) (tyrow s b) = ltlex (word s a) (word s b) := by
  rw [ltlex_cstr, inv_cstr h ha, inv_cstr h hb]

theorem inv_prec {cfg : Config} {s : State} (h : Inv cfg s) {a b : Nat} (ha : a < s.ntypes)
    (hb : b < s.ntypes) : prec (tyrow s a) (tyrow s b) = prec (word s a) (word s b) := by
  rw [prec_cstr, inv_cstr h ha, inv_cstr h hb]

theorem inv_perp {cfg : Config} {s : State} (h : Inv cfg s) {a b : Nat} (ha : a < s.ntypes)
    (hb : b < s.ntypes) : perp (tyrow s a) (tyrow s b) = perp (word s a) (word s b) := by
  rw [perp_cstr, inv_cstr h ha, inv_cstr h hb]

/-- The active list is sorted pairwise, not only at neighbours. -/
theorem inv_sorted_lt {cfg : Config} {s : State} (h : Inv cfg s) :
    ∀ (d a : Nat), a + d + 1 < s.ntypes →
      ltlex (word s a) (word s (a + d + 1)) = true := by
  intro d
  induction d with
  | zero =>
    intro a ha
    rw [← inv_ltlex h (by omega) ha]
    exact h.sorted a ha
  | succ d ih =>
    intro a ha
    have h1 := ih a (by omega)
    have h2 : ltlex (word s (a + d + 1)) (word s (a + (d + 1) + 1)) = true := by
      rw [← inv_ltlex h (by omega) ha]
      exact h.sorted (a + d + 1) ha
    exact ltlex_trans _ _ _ (inv_word_noNul h (by omega)) (inv_word_noNul h (by omega))
      (inv_word_noNul h ha)
      (by rw [inv_word_len h (by omega), inv_word_len h (by omega)])
      (by rw [inv_word_len h (by omega), inv_word_len h ha]) h1 h2

theorem inv_lt_word {cfg : Config} {s : State} (h : Inv cfg s) {a b : Nat} (hab : a < b)
    (hb : b < s.ntypes) : ltlex (word s a) (word s b) = true := by
  have := inv_sorted_lt h (b - a - 1) a (by omega)
  have e : a + (b - a - 1) + 1 = b := by omega
  rwa [e] at this

theorem inv_lt {cfg : Config} {s : State} (h : Inv cfg s) {a b : Nat} (hab : a < b)
    (hb : b < s.ntypes) : ltlex (tyrow s a) (tyrow s b) = true := by
  rw [inv_ltlex h (by omega) hb]
  exact inv_lt_word h hab hb

theorem inv_hasLt {cfg : Config} {s : State} (h : Inv cfg s) {a b : Nat} (hab : a < b)
    (hb : b < s.ntypes) : hasLt (word s a) (word s b) = true :=
  ltlex_hasLt _ _ (inv_word_noNul h (by omega)) (inv_word_noNul h hb) (inv_lt_word h hab hb)

/-- On the sorted active list, `perp` of an ordered pair only asks for a
position where the earlier word is the larger one. -/
theorem inv_perp_eq {cfg : Config} {s : State} (h : Inv cfg s) {a b : Nat} (hab : a < b)
    (hb : b < s.ntypes) : perp (tyrow s a) (tyrow s b) = hasLt (word s b) (word s a) := by
  rw [inv_perp h (by omega) hb,
    perp_eq _ _ (inv_word_noNul h (by omega)) (inv_word_noNul h hb), inv_hasLt h hab hb]
  simp

theorem inv_prec_rev {cfg : Config} {s : State} (h : Inv cfg s) {a b : Nat} (hab : a < b)
    (hb : b < s.ntypes) : prec (tyrow s b) (tyrow s a) = false := by
  rw [inv_prec h hb (by omega)]
  exact ltlex_prec_rev _ _ (inv_word_noNul h (by omega)) (inv_word_noNul h hb)
    (inv_lt_word h hab hb)

/-! ### Reading a word that is one column longer -/

theorem hasLt_append_left (a b t : List Nat) (hab : a.length = b.length) :
    hasLt (a ++ t) b = hasLt a b := by
  induction a generalizing b with
  | nil =>
    cases b with
    | nil => cases t <;> rfl
    | cons y b => simp at hab
  | cons x a ih =>
    cases b with
    | nil => simp at hab
    | cons y b =>
      simp only [List.length_cons, Nat.add_right_cancel_iff] at hab
      rw [List.cons_append]
      simp only [hasLt]
      rw [ih b hab]

theorem hasLt_append_right (a b t : List Nat) (hab : a.length = b.length) :
    hasLt a (b ++ t) = hasLt a b := by
  induction a generalizing b with
  | nil =>
    cases b with
    | nil => cases t <;> rfl
    | cons y b => simp at hab
  | cons x a ih =>
    cases b with
    | nil => simp at hab
    | cons y b =>
      simp only [List.length_cons, Nat.add_right_cancel_iff] at hab
      rw [List.cons_append]
      simp only [hasLt]
      rw [ih b hab]

theorem perp_append_left (a b : List Nat) (x : Nat) (ha : NoNul a) (hb : NoNul b)
    (hx : x ≠ 0) (hab : a.length = b.length) : perp (a ++ [x]) b = perp a b := by
  have hax : NoNul (a ++ [x]) := noNul_append.mpr ⟨ha, by intro c hc; simp at hc; omega⟩
  rw [perp_eq _ _ hax hb, perp_eq _ _ ha hb, hasLt_append_left a b [x] hab,
    hasLt_append_right b a [x] hab.symm]

/-! ## Consequences of a column step -/

section ColumnFacts

variable {cfg : Config} {s t : State} {src col : Nat → Nat}

theorem col_ne {k : Nat} (hC : Column s t src col) (hk : k < t.ntypes) : col k ≠ 0 := by
  rcases hC.col_abc k hk with e | e | e <;> rw [e] <;> decide

theorem col_word (hI : Inv cfg s) (hL : s.length < MAXLENGTH cfg) (hC : Column s t src col)
    {k : Nat} (hk : k < t.ntypes) : word t k = word s (src k) ++ [col k] := by
  unfold word
  rw [hC.row_active k hk, hC.length_eq]
  apply take_set_succ
  rw [inv_row_len hI (hC.src_lt k hk)]
  omega

theorem col_row_zero (hI : Inv cfg s) (hC : Column s t src col) :
    ∀ k p, t.length ≤ p → (tyrow t k).getD p 0 = 0 := by
  intro k p hp
  rw [hC.length_eq] at hp
  by_cases hk : k < t.ntypes
  · rw [hC.row_active k hk, getD_set]
    have : ¬ (p = s.length ∧ s.length < (tyrow s (src k)).length) := by omega
    rw [if_neg this]
    exact hI.row_zero _ _ (by omega)
  · rw [hC.row_stale k (by omega)]
    exact hI.row_zero _ _ (by omega)

theorem col_row_abc (hI : Inv cfg s) (hL : s.length < MAXLENGTH cfg)
    (hC : Column s t src col) : ∀ k p, k < t.ntypes → p < t.length →
    (tyrow t k).getD p 0 = chL ∨ (tyrow t k).getD p 0 = chO ∨ (tyrow t k).getD p 0 = chR := by
  intro k p hk hp
  rw [hC.length_eq] at hp
  rw [hC.row_active k hk, getD_set]
  have hl := inv_row_len hI (hC.src_lt k hk)
  by_cases e : p = s.length
  · have : p = s.length ∧ s.length < (tyrow s (src k)).length := ⟨e, by omega⟩
    rw [if_pos this]
    exact hC.col_abc k hk
  · have : ¬ (p = s.length ∧ s.length < (tyrow s (src k)).length) := fun h => e h.1
    rw [if_neg this]
    exact hI.row_abc _ _ (hC.src_lt k hk) (by omega)

theorem col_row_len (hI : Inv cfg s) (hC : Column s t src col) :
    ∀ k, k < MAXTYPES cfg → (tyrow t k).length = MAXLENGTH cfg + 1 := by
  intro k hk
  by_cases hk2 : k < t.ntypes
  · rw [hC.row_active k hk2, List.length_set]
    exact inv_row_len hI (hC.src_lt k hk2)
  · rw [hC.row_stale k (by omega)]
    exact hI.row_len k hk

theorem col_cstr (hI : Inv cfg s) (hL : s.length < MAXLENGTH cfg) (hC : Column s t src col)
    {k : Nat} (hk : k < t.ntypes) : cstr (tyrow t k) = word t k := by
  apply cstr_eq_take
  · intro p hp
    rcases col_row_abc hI hL hC k p hk hp with e | e | e <;> rw [e] <;> decide
  · exact col_row_zero hI hC k _ (Nat.le_refl _)

theorem col_ltlex (hI : Inv cfg s) (hL : s.length < MAXLENGTH cfg) (hC : Column s t src col)
    {a b : Nat} (ha : a < t.ntypes) (hb : b < t.ntypes) (hab : src a < src b) :
    ltlex (tyrow t a) (tyrow t b) = true := by
  rw [ltlex_cstr, col_cstr hI hL hC ha, col_cstr hI hL hC hb, col_word hI hL hC ha,
    col_word hI hL hC hb]
  exact ltlex_snoc _ _ _ _ (inv_word_noNul hI (hC.src_lt a ha))
    (inv_word_noNul hI (hC.src_lt b hb)) (inv_lt_word hI hab (hC.src_lt b hb))

theorem col_prec (hI : Inv cfg s) (hL : s.length < MAXLENGTH cfg) (hC : Column s t src col)
    {a b : Nat} (ha : a < t.ntypes) (hb : b < t.ntypes) (hab : src a < src b) :
    prec (tyrow t a) (tyrow t b) =
      (prec (tyrow s (src a)) (tyrow s (src b)) ||
        (!perp (tyrow s (src a)) (tyrow s (src b)) &&
          decide (col a = chL ∧ col b = chR))) := by
  have hsa := hC.src_lt a ha
  have hsb := hC.src_lt b hb
  rw [prec_cstr, col_cstr hI hL hC ha, col_cstr hI hL hC hb, col_word hI hL hC ha,
    col_word hI hL hC hb,
    prec_snoc _ _ _ _ (inv_word_noNul hI hsa) (inv_word_noNul hI hsb)
      (by rw [inv_word_len hI hsa, inv_word_len hI hsb]) (col_ne hC ha) (col_ne hC hb),
    inv_perp_eq hI hab hsb, inv_prec hI hsa hsb]
  by_cases e : col a = chL ∧ col b = chR
  · have h3 : decide (col b < col a) = false := by
      apply decide_eq_false; rw [e.1, e.2]; decide
    rw [h3]
    simp [e]
  · simp [e]

theorem col_perp (hI : Inv cfg s) (hL : s.length < MAXLENGTH cfg) (hC : Column s t src col)
    {a b : Nat} (ha : a < t.ntypes) (hb : b < t.ntypes) (hab : src a < src b) :
    perp (tyrow t a) (tyrow t b) =
      (perp (tyrow s (src a)) (tyrow s (src b)) || decide (col b < col a)) := by
  have hsa := hC.src_lt a ha
  have hsb := hC.src_lt b hb
  have hla : (word s (src a)).length = (word s (src b)).length := by
    rw [inv_word_len hI hsa, inv_word_len hI hsb]
  have na : NoNul (word s (src a) ++ [col a]) :=
    noNul_append.mpr ⟨inv_word_noNul hI hsa, by
      intro c hc; simp at hc; rw [hc]; exact col_ne hC ha⟩
  have nb : NoNul (word s (src b) ++ [col b]) :=
    noNul_append.mpr ⟨inv_word_noNul hI hsb, by
      intro c hc; simp at hc; rw [hc]; exact col_ne hC hb⟩
  rw [perp_cstr, col_cstr hI hL hC ha, col_cstr hI hL hC hb, col_word hI hL hC ha,
    col_word hI hL hC hb, perp_eq _ _ na nb, hasLt_snoc _ _ _ _ hla,
    hasLt_snoc _ _ _ _ hla.symm, inv_perp_eq hI hab hsb, inv_hasLt hI hab hsb]
  simp

end ColumnFacts

/-! ## The columns written by `doperp` and `doprec` -/

theorem putcLoop (p : Nat) (g : List (List Nat) → Nat → Nat) (c : Nat → Nat) (n a : Nat)
    (t0 : List (List Nat))
    (hyp : ∀ k, a ≤ k → k < a + n → ∀ t : List (List Nat), t.length = t0.length →
      (∀ m, (m < a ∨ k ≤ m) → t.getD m [] = t0.getD m []) → g t k = c k) :
    ((List.range' a n).foldl (fun t k => putc t k p (g t k)) t0).length = t0.length ∧
    ∀ m, ((List.range' a n).foldl (fun t k => putc t k p (g t k)) t0).getD m [] =
      if a ≤ m ∧ m < a + n ∧ m < t0.length then (t0.getD m []).set p (c m)
      else t0.getD m [] := by
  have := setLoop ([] : List Nat) (fun t k => (t.getD k []).set p (g t k))
    (fun k => (t0.getD k []).set p (c k)) n a t0 (by
      intro k hk1 hk2 t hl hm
      show (t.getD k []).set p (g t k) = (t0.getD k []).set p (c k)
      rw [hm k (Or.inr (Nat.le_refl _)), hyp k hk1 hk2 t hl hm])
  exact this

theorem putcLoop_const (p c : Nat) (n a : Nat) (t0 : List (List Nat)) :
    ((List.range' a n).foldl (fun t k => putc t k p c) t0).length = t0.length ∧
    ∀ m, ((List.range' a n).foldl (fun t k => putc t k p c) t0).getD m [] =
      if a ≤ m ∧ m < a + n ∧ m < t0.length then (t0.getD m []).set p c
      else t0.getD m [] :=
  putcLoop p (fun _ _ => c) (fun _ => c) n a t0 (fun _ _ _ _ _ _ => rfl)

/-- One more stretch `[a, a + n)` of a column is written by a loop, after the
stretch `[0, a)` has been written. -/
theorem putcLoop_extend (p : Nat) (g : List (List Nat) → Nat → Nat) (c : Nat → Nat)
    (n a : Nat) (t0 t : List (List Nat)) (hl : t.length = t0.length)
    (hb : a + n ≤ t0.length)
    (ht : ∀ m, t.getD m [] = if m < a then (t0.getD m []).set p (c m) else t0.getD m [])
    (hyp : ∀ k, a ≤ k → k < a + n → ∀ u : List (List Nat),
      (∀ m, m < a → u.getD m [] = (t0.getD m []).set p (c m)) →
      (∀ m, k ≤ m → u.getD m [] = t0.getD m []) → g u k = c k) :
    ((List.range' a n).foldl (fun t k => putc t k p (g t k)) t).length = t0.length ∧
    ∀ m, ((List.range' a n).foldl (fun t k => putc t k p (g t k)) t).getD m [] =
      if m < a + n then (t0.getD m []).set p (c m) else t0.getD m [] := by
  obtain ⟨l1, f1⟩ := putcLoop p g c n a t (by
    intro k hk1 hk2 u _ hm
    apply hyp k hk1 hk2 u
    · intro m hm1
      rw [hm m (Or.inl hm1), ht m, if_pos hm1]
    · intro m hm1
      rw [hm m (Or.inr hm1), ht m, if_neg (by omega)])
  refine ⟨by rw [l1, hl], fun m => ?_⟩
  rw [f1 m, ht m, hl]
  by_cases c1 : m < a
  · rw [if_neg (by omega), if_pos c1, if_pos (by omega)]
  · by_cases c2 : m < a + n
    · rw [if_pos ⟨by omega, c2, by omega⟩, if_neg c1, if_pos c2]
    · rw [if_neg (by omega), if_neg c1, if_neg c2]

/-- One more entry of a column is written by a single assignment. -/
theorem putc_extend (p x : Nat) (c : Nat → Nat) (a : Nat) (t0 t : List (List Nat))
    (hl : t.length = t0.length) (hb : a + 1 ≤ t0.length)
    (ht : ∀ m, t.getD m [] = if m < a then (t0.getD m []).set p (c m) else t0.getD m [])
    (hx : x = c a) :
    (putc t a p x).length = t0.length ∧
    ∀ m, (putc t a p x).getD m [] =
      if m < a + 1 then (t0.getD m []).set p (c m) else t0.getD m [] := by
  have := putcLoop_extend p (fun _ _ => x) c 1 a t0 t hl hb ht (fun k hk1 hk2 _ _ _ => by
    have : k = a := by omega
    rw [this]; exact hx)
  simpa [List.range'] using this

theorem putc_length (t : List (List Nat)) (k p c : Nat) : (putc t k p c).length = t.length := by
  simp [putc]

theorem putc_getD (t : List (List Nat)) (k p c m : Nat) :
    (putc t k p c).getD m [] =
      if m = k ∧ k < t.length then (t.getD k []).set p c else t.getD m [] := by
  unfold putc
  rw [getD_set]

theorem inv_cstr_set {cfg : Config} {s : State} (h : Inv cfg s) (hL : s.length < MAXLENGTH cfg)
    {k : Nat} (hk : k < s.ntypes) {c : Nat} (hc : c ≠ 0) :
    cstr ((tyrow s k).set s.length c) = word s k ++ [c] := by
  have hl := inv_row_len h hk
  rw [cstr_eq_take _ (s.length + 1), take_set_succ _ _ _ (by omega)]
  · rfl
  · intro p hp
    rw [getD_set]
    by_cases e : p = s.length
    · rw [if_pos ⟨e, by omega⟩]; exact hc
    · rw [if_neg (fun x => e x.1)]
      exact inv_row_ne h hk (by omega)
  · rw [getD_set, if_neg (by omega)]
    exact h.row_zero k _ (by omega)

theorem inv_perp_set_left {cfg : Config} {s : State} (h : Inv cfg s)
    (hL : s.length < MAXLENGTH cfg) {a b : Nat} (ha : a < s.ntypes) (hb : b < s.ntypes)
    {c : Nat} (hc : c ≠ 0) :
    perp ((tyrow s a).set s.length c) (tyrow s b) = perp (tyrow s a) (tyrow s b) := by
  rw [perp_cstr, inv_cstr_set h hL ha hc, inv_cstr h hb, inv_perp h ha hb]
  exact perp_append_left _ _ _ (inv_word_noNul h ha) (inv_word_noNul h hb) hc
    (by rw [inv_word_len h ha, inv_word_len h hb])

theorem perpStep_types {cfg : Config} {s : State} (h : Inv cfg s)
    (hL : s.length < MAXLENGTH cfg) {i j : Nat} (hij : i < j) (hj : j < s.ntypes) :
    (perpStep s i j).types.length = s.types.length ∧
    ∀ m, tyrow (perpStep s i j) m =
      if m < s.ntypes then (tyrow s m).set s.length (perpCol s i j m) else tyrow s m := by
  have hn : s.ntypes ≤ s.types.length := by rw [h.types_len]; exact h.nt_le
  have f0 : ∀ m, s.types.getD m [] =
      if m < 0 then (s.types.getD m []).set s.length (perpCol s i j m)
      else s.types.getD m [] := fun m => by rw [if_neg (by omega)]
  obtain ⟨l1, f1⟩ := putcLoop_extend s.length (fun _ _ => chO) (perpCol s i j) i 0
    s.types s.types rfl (by omega) f0 (by
      intro k _ hk2 _ _ _
      unfold perpCol
      rw [if_pos (by omega)])
  obtain ⟨l2, f2⟩ := putc_extend s.length chR (perpCol s i j) (0 + i) s.types _ l1 (by omega)
    f1 (by unfold perpCol; rw [if_neg (by omega), if_pos (by omega)])
  obtain ⟨l3, f3⟩ := putcLoop_extend s.length
    (fun t k => if perp (t.getD i []) (t.getD k []) = true then chO else chR)
    (perpCol s i j) (j - (i + 1)) (0 + i + 1) s.types _ l2 (by omega) f2 (by
      intro k hk1 hk2 u hu1 hu2
      show (if perp (u.getD i []) (u.getD k []) = true then chO else chR) = _
      have e1 : perpCol s i j i = chR := by
        unfold perpCol; rw [if_neg (by omega), if_pos rfl]
      rw [hu1 i (by omega), hu2 k (Nat.le_refl _), e1]
      have := inv_perp_set_left h hL (a := i) (b := k) (by omega) (by omega)
        (c := chR) (by decide)
      unfold tyrow at this
      rw [this]
      unfold perpCol tyrow
      rw [if_neg (show ¬ k < i by omega), if_neg (show ¬ k = i by omega),
        if_pos (show k < j by omega)])
  obtain ⟨l4, f4⟩ := putc_extend s.length chO (perpCol s i j) (0 + i + 1 + (j - (i + 1)))
    s.types _ l3 (by omega) f3 (by
      unfold perpCol
      rw [if_neg (by omega), if_neg (by omega), if_neg (by omega), if_pos (by omega)])
  obtain ⟨l5, f5⟩ := putcLoop_extend s.length (fun _ _ => chR) (perpCol s i j)
    (s.ntypes - (j + 1)) (0 + i + 1 + (j - (i + 1)) + 1) s.types _ l4 (by omega) f4 (by
      intro k hk1 _ _ _ _
      unfold perpCol
      rw [if_neg (by omega), if_neg (by omega), if_neg (by omega), if_neg (by omega)])
  have e1 : 0 + i = i := by omega
  have e2 : 0 + i + 1 + (j - (i + 1)) = j := by omega
  have e3 : j + 1 + (s.ntypes - (j + 1)) = s.ntypes := by omega
  rw [e2] at l5 f5
  simp only [e1, e3] at l5 f5
  exact ⟨l5, f5⟩

theorem precStep_types {cfg : Config} {s : State} (h : Inv cfg s)
    (hL : s.length < MAXLENGTH cfg) {i j : Nat} (hij : i < j) (hj : j < s.ntypes) :
    (precStep s i j).types.length = s.types.length ∧
    ∀ m, tyrow (precStep s i j) m =
      if m < s.ntypes then (tyrow s m).set s.length (precCol s i j m) else tyrow s m := by
  have hn : s.ntypes ≤ s.types.length := by rw [h.types_len]; exact h.nt_le
  have f0 : ∀ m, s.types.getD m [] =
      if m < 0 then (s.types.getD m []).set s.length (precCol s i j m)
      else s.types.getD m [] := fun m => by rw [if_neg (by omega)]
  obtain ⟨l1, f1⟩ := putcLoop_extend s.length
    (fun t k => if perp (t.getD k []) (t.getD i []) = true then chO else chL)
    (precCol s i j) i 0 s.types s.types rfl (by omega) f0 (by
      intro k _ hk2 u _ hu2
      show (if perp (u.getD k []) (u.getD i []) = true then chO else chL) = _
      rw [hu2 k (Nat.le_refl _), hu2 i (by omega)]
      unfold precCol tyrow
      rw [if_pos (show k < i by omega)])
  obtain ⟨l2, f2⟩ := putc_extend s.length chL (precCol s i j) (0 + i) s.types _ l1 (by omega)
    f1 (by unfold precCol; rw [if_neg (by omega), if_pos (by omega)])
  obtain ⟨l3, f3⟩ := putcLoop_extend s.length (fun _ _ => chO)
    (precCol s i j) (j - (i + 1)) (0 + i + 1) s.types _ l2 (by omega) f2 (by
      intro k hk1 hk2 _ _ _
      unfold precCol
      rw [if_neg (show ¬ k < i by omega), if_neg (show ¬ k = i by omega),
        if_pos (show k < j by omega)])
  obtain ⟨l4, f4⟩ := putc_extend s.length chR (precCol s i j) (0 + i + 1 + (j - (i + 1)))
    s.types _ l3 (by omega) f3 (by
      unfold precCol
      rw [if_neg (by omega), if_neg (by omega), if_neg (by omega), if_pos (by omega)])
  obtain ⟨l5, f5⟩ := putcLoop_extend s.length
    (fun t k => if perp (t.getD j []) (t.getD k []) = true then chO else chR)
    (precCol s i j)
    (s.ntypes - (j + 1)) (0 + i + 1 + (j - (i + 1)) + 1) s.types _ l4 (by omega) f4 (by
      intro k hk1 hk2 u hu1 hu2
      show (if perp (u.getD j []) (u.getD k []) = true then chO else chR) = _
      have e1 : precCol s i j j = chR := by
        unfold precCol
        rw [if_neg (by omega), if_neg (by omega), if_neg (by omega), if_pos rfl]
      rw [hu1 j (by omega), hu2 k (Nat.le_refl _), e1]
      have := inv_perp_set_left h hL (a := j) (b := k) (by omega) (by omega)
        (c := chR) (by decide)
      unfold tyrow at this
      rw [this]
      unfold precCol tyrow
      rw [if_neg (show ¬ k < i by omega), if_neg (show ¬ k = i by omega),
        if_neg (show ¬ k < j by omega), if_neg (show ¬ k = j by omega)])
  have e1 : 0 + i = i := by omega
  have e2 : 0 + i + 1 + (j - (i + 1)) = j := by omega
  have e3 : j + 1 + (s.ntypes - (j + 1)) = s.ntypes := by omega
  rw [e2] at l5 f5
  simp only [e1, e3] at l5 f5
  exact ⟨l5, f5⟩

theorem perpCol_abc (s : State) (i j k : Nat) :
    perpCol s i j k = chL ∨ perpCol s i j k = chO ∨ perpCol s i j k = chR := by
  unfold perpCol
  split_ifs <;> simp

theorem precCol_abc (s : State) (i j k : Nat) :
    precCol s i j k = chL ∨ precCol s i j k = chO ∨ precCol s i j k = chR := by
  unfold precCol
  split_ifs <;> simp

theorem perpStep_column {cfg : Config} {s : State} (h : Inv cfg s)
    (hL : s.length < MAXLENGTH cfg) {i j : Nat} (hij : i < j) (hj : j < s.ntypes) :
    Column s (perpStep s i j) id (perpCol s i j) := by
  obtain ⟨l, f⟩ := perpStep_types h hL hij hj
  have hnt : (perpStep s i j).ntypes = s.ntypes := rfl
  exact
    { length_eq := rfl
      types_len := l
      row_active := fun k hk => by rw [f k, if_pos (by rw [hnt] at hk; exact hk)]; rfl
      src_lt := fun k hk => hk
      col_abc := fun k _ => perpCol_abc s i j k
      row_stale := fun k hk => by rw [f k, if_neg (by rw [hnt] at hk; omega)] }

theorem precStep_column {cfg : Config} {s : State} (h : Inv cfg s)
    (hL : s.length < MAXLENGTH cfg) {i j : Nat} (hij : i < j) (hj : j < s.ntypes) :
    Column s (precStep s i j) id (precCol s i j) := by
  obtain ⟨l, f⟩ := precStep_types h hL hij hj
  have hnt : (precStep s i j).ntypes = s.ntypes := rfl
  exact
    { length_eq := rfl
      types_len := l
      row_active := fun k hk => by rw [f k, if_pos (by rw [hnt] at hk; exact hk)]; rfl
      src_lt := fun k hk => hk
      col_abc := fun k _ => precCol_abc s i j k
      row_stale := fun k hk => by rw [f k, if_neg (by rw [hnt] at hk; omega)] }

/-! ## What the new column of `doperp` and `doprec` does to the relations -/

theorem find_getD_eq (l : List Nat) (p : Nat → Bool) (j : Nat) (hl : ∀ x ∈ l, x ≠ j)
    (h : (l.find? p).getD j = j) : ∀ x ∈ l, p x = false := by
  cases hf : l.find? p with
  | none =>
    intro x hx
    have := List.find?_eq_none.mp hf x hx
    simpa using this
  | some k =>
    rw [hf] at h
    have hk : k ∈ l := List.mem_of_find?_eq_some hf
    exact absurd h (hl k hk)

theorem condA_spec {s : State} {i j : Nat} (h : condA s i j = j) :
    ∀ k, i < k → k < j →
      perp (tyrow s i) (tyrow s k) = true ∨ perp (tyrow s k) (tyrow s j) = true := by
  intro k hk1 hk2
  have := find_getD_eq _ _ j (by
    intro x hx
    have := List.mem_range'_1.mp hx
    omega) h k (List.mem_range'_1.mpr ⟨by omega, by omega⟩)
  simp only [Bool.and_eq_false_iff, Bool.not_eq_false'] at this
  exact this

theorem condB1_spec {s : State} {i j : Nat} (h : condB1 s i j = i) :
    ∀ k, k < i →
      perp (tyrow s k) (tyrow s i) = true ∨ prec (tyrow s k) (tyrow s j) = true := by
  intro k hk
  have := find_getD_eq _ _ i (by
    intro x hx
    have := List.mem_range'_1.mp hx
    omega) h k (List.mem_range'_1.mpr ⟨by omega, by omega⟩)
  simp only [Bool.and_eq_false_iff, Bool.not_eq_false'] at this
  exact this

theorem condB2_spec {s : State} {i j : Nat} (h : condB2 s i j = s.ntypes) :
    ∀ k, j < k → k < s.ntypes →
      perp (tyrow s j) (tyrow s k) = true ∨ prec (tyrow s i) (tyrow s k) = true := by
  intro k hk1 hk2
  have := find_getD_eq _ _ s.ntypes (by
    intro x hx
    have := List.mem_range'_1.mp hx
    omega) h k (List.mem_range'_1.mpr ⟨by omega, by omega⟩)
  simp only [Bool.and_eq_false_iff, Bool.not_eq_false'] at this
  exact this

theorem unrelated_spec {s : State} {i j : Nat} (h : unrelated s i j = true) :
    perp (tyrow s i) (tyrow s j) = false ∧ prec (tyrow s i) (tyrow s j) = false := by
  unfold unrelated at h
  simpa using h

section PerpColumn

variable {cfg : Config} {s : State} {i j : Nat}

theorem perpCol_lo {k : Nat} (hk : k < i) : perpCol s i j k = chO := by
  unfold perpCol; rw [if_pos hk]

theorem perpCol_i : perpCol s i j i = chR := by
  unfold perpCol; rw [if_neg (by omega), if_pos rfl]

theorem perpCol_mid {k : Nat} (h1 : i < k) (h2 : k < j) :
    perpCol s i j k = if perp (tyrow s i) (tyrow s k) = true then chO else chR := by
  unfold perpCol; rw [if_neg (by omega), if_neg (by omega), if_pos h2]

theorem perpCol_j (hij : i < j) : perpCol s i j j = chO := by
  unfold perpCol
  rw [if_neg (by omega), if_neg (by omega), if_neg (by omega), if_pos rfl]

theorem perpCol_hi {k : Nat} (hij : i < j) (hk : j < k) : perpCol s i j k = chR := by
  unfold perpCol
  rw [if_neg (by omega), if_neg (by omega), if_neg (by omega), if_neg (by omega)]

theorem perpCol_OR (k : Nat) : perpCol s i j k = chO ∨ perpCol s i j k = chR := by
  unfold perpCol
  split_ifs <;> simp

/-- A pair whose new column entries decrease was already perp, unless it is
the pair `(i, j)` itself. -/
theorem perpCol_decr (hI : Inv cfg s) (hij : i < j) (hj : j < s.ntypes)
    (hA : condA s i j = j) {a b : Nat} (hab : a < b) (hb : b < s.ntypes)
    (hd : perpCol s i j b < perpCol s i j a) :
    (a = i ∧ b = j) ∨ perp (tyrow s a) (tyrow s b) = true := by
  have hOR : chO < chR := by decide
  have hA' := condA_spec hA
  -- the entry of `a` is `R`, the entry of `b` is `O`
  have ha : perpCol s i j a = chR := by
    rcases perpCol_OR (s := s) (i := i) (j := j) a with e | e
    · rcases perpCol_OR (s := s) (i := i) (j := j) b with e2 | e2 <;> rw [e, e2] at hd <;>
        omega
    · exact e
  have hb' : perpCol s i j b = chO := by
    rcases perpCol_OR (s := s) (i := i) (j := j) b with e | e
    · exact e
    · rw [ha, e] at hd; omega
  have hne : chO ≠ chR := by decide
  by_cases a1 : a < i
  · rw [perpCol_lo a1] at ha; exact absurd ha hne
  by_cases a2 : a = i
  · subst a2
    by_cases b1 : b < j
    · rw [perpCol_mid hab b1] at hb'
      right
      by_cases hp : perp (tyrow s a) (tyrow s b) = true
      · exact hp
      · rw [if_neg hp] at hb'; exact absurd hb'.symm hne
    · by_cases b2 : b = j
      · exact Or.inl ⟨rfl, b2⟩
      · rw [perpCol_hi hij (by omega)] at hb'; exact absurd hb'.symm hne
  by_cases a3 : a < j
  · have hai : i < a := by omega
    rw [perpCol_mid hai a3] at ha
    have hnp : perp (tyrow s i) (tyrow s a) = false := by
      by_cases hp : perp (tyrow s i) (tyrow s a) = true
      · rw [if_pos hp] at ha; exact absurd ha hne
      · simpa using hp
    right
    by_cases b1 : b < j
    · rw [perpCol_mid (by omega) b1] at hb'
      have hpb : perp (tyrow s i) (tyrow s b) = true := by
        by_cases hp : perp (tyrow s i) (tyrow s b) = true
        · exact hp
        · rw [if_neg hp] at hb'; exact absurd hb'.symm hne
      rw [inv_perp_eq hI hai (by omega)] at hnp
      rw [inv_perp_eq hI (by omega) hb] at hpb
      rw [inv_perp_eq hI hab hb]
      exact hasLt_mid_right (word s i) (word s a) (word s b)
        (by rw [inv_word_len hI (by omega), inv_word_len hI (by omega)])
        (by rw [inv_word_len hI (by omega), inv_word_len hI hb]) hnp hpb
    · by_cases b2 : b = j
      · subst b2
        rcases hA' a hai a3 with h1 | h1
        · rw [h1] at hnp; exact absurd hnp (by decide)
        · exact h1
      · rw [perpCol_hi hij (by omega)] at hb'; exact absurd hb'.symm hne
  by_cases a4 : a = j
  · rw [a4, perpCol_j hij] at ha; exact absurd ha hne
  · rw [perpCol_hi hij (by omega)] at hb'; exact absurd hb'.symm hne

theorem perpStep_prec (hI : Inv cfg s) (hL : s.length < MAXLENGTH cfg) (hij : i < j)
    (hj : j < s.ntypes) {a b : Nat} (hab : a < b) (hb : b < s.ntypes) :
    prec (tyrow (perpStep s i j) a) (tyrow (perpStep s i j) b) =
      prec (tyrow s a) (tyrow s b) := by
  have hC := perpStep_column hI hL hij hj
  rw [col_prec hI hL hC (a := a) (b := b) (by exact (by omega : a < s.ntypes)) hb hab]
  have : ¬ (perpCol s i j a = chL ∧ perpCol s i j b = chR) := by
    rintro ⟨h1, _⟩
    rcases perpCol_OR (s := s) (i := i) (j := j) a with e | e <;> rw [e] at h1 <;>
      exact absurd h1 (by decide)
  simp [this]

theorem perpStep_perp (hI : Inv cfg s) (hL : s.length < MAXLENGTH cfg) (hij : i < j)
    (hj : j < s.ntypes) (hA : condA s i j = j) {a b : Nat} (hab : a < b)
    (hb : b < s.ntypes) :
    perp (tyrow (perpStep s i j) a) (tyrow (perpStep s i j) b) =
      (perp (tyrow s a) (tyrow s b) || decide (a = i ∧ b = j)) := by
  have hC := perpStep_column hI hL hij hj
  rw [col_perp hI hL hC (a := a) (b := b) (by exact (by omega : a < s.ntypes)) hb hab]
  by_cases hd : perpCol s i j b < perpCol s i j a
  · have h1 : decide (perpCol s i j b < perpCol s i j a) = true := decide_eq_true hd
    rw [h1]
    rcases perpCol_decr hI hij hj hA hab hb hd with e | e
    · simp [e]
    · simp [e]
  · by_cases e : a = i ∧ b = j
    · exfalso
      apply hd
      rw [e.1, e.2, perpCol_i, perpCol_j hij]
      decide
    · simp [hd, e]

end PerpColumn

section PrecColumn

variable {cfg : Config} {s : State} {i j : Nat}

theorem precCol_lo {k : Nat} (hk : k < i) :
    precCol s i j k = if perp (tyrow s k) (tyrow s i) = true then chO else chL := by
  unfold precCol; rw [if_pos hk]

theorem precCol_i : precCol s i j i = chL := by
  unfold precCol; rw [if_neg (by omega), if_pos rfl]

theorem precCol_mid {k : Nat} (h1 : i < k) (h2 : k < j) : precCol s i j k = chO := by
  unfold precCol; rw [if_neg (by omega), if_neg (by omega), if_pos h2]

theorem precCol_j (hij : i < j) : precCol s i j j = chR := by
  unfold precCol
  rw [if_neg (by omega), if_neg (by omega), if_neg (by omega), if_pos rfl]

theorem precCol_hi {k : Nat} (hij : i < j) (hk : j < k) :
    precCol s i j k = if perp (tyrow s j) (tyrow s k) = true then chO else chR := by
  unfold precCol
  rw [if_neg (by omega), if_neg (by omega), if_neg (by omega), if_neg (by omega)]

/-- A pair whose new column entries decrease was already perp. -/
theorem precCol_decr (hI : Inv cfg s) (hij : i < j) (hj : j < s.ntypes)
    {a b : Nat} (hab : a < b) (hb : b < s.ntypes)
    (hd : precCol s i j b < precCol s i j a) : perp (tyrow s a) (tyrow s b) = true := by
  have hLO : chL < chO := by decide
  have hOR : chO < chR := by decide
  by_cases a1 : a < i
  · rw [precCol_lo a1] at hd
    by_cases hp : perp (tyrow s a) (tyrow s i) = true
    · rw [if_pos hp] at hd
      by_cases b1 : b < i
      · rw [precCol_lo b1] at hd
        by_cases hq : perp (tyrow s b) (tyrow s i) = true
        · rw [if_pos hq] at hd; omega
        · have hq' : perp (tyrow s b) (tyrow s i) = false := by simpa using hq
          rw [inv_perp_eq hI a1 (by omega)] at hp
          rw [inv_perp_eq hI b1 (by omega)] at hq'
          rw [inv_perp_eq hI hab hb]
          exact hasLt_mid_left (word s a) (word s b) (word s i)
            (by rw [inv_word_len hI (by omega), inv_word_len hI (by omega)])
            (by rw [inv_word_len hI (by omega), inv_word_len hI (by omega)]) hp hq'
      · by_cases b2 : b = i
        · rw [b2]; exact hp
        · by_cases b3 : b < j
          · rw [precCol_mid (by omega) b3] at hd; omega
          · by_cases b4 : b = j
            · rw [b4, precCol_j hij] at hd; omega
            · rw [precCol_hi hij (by omega)] at hd
              split_ifs at hd <;> omega
    · rw [if_neg hp] at hd
      -- nothing is below `L`
      have : chL ≤ precCol s i j b := by
        rcases precCol_abc s i j b with e | e | e <;> rw [e] <;> decide
      omega
  by_cases a2 : a = i
  · rw [a2, precCol_i] at hd
    have : chL ≤ precCol s i j b := by
      rcases precCol_abc s i j b with e | e | e <;> rw [e] <;> decide
    omega
  by_cases a3 : a < j
  · rw [precCol_mid (by omega) a3] at hd
    by_cases b3 : b < j
    · rw [precCol_mid (by omega) b3] at hd; omega
    · by_cases b4 : b = j
      · rw [b4, precCol_j hij] at hd; omega
      · rw [precCol_hi hij (by omega)] at hd
        split_ifs at hd <;> omega
  by_cases a4 : a = j
  · subst a4
    rw [precCol_j hij, precCol_hi hij hab] at hd
    by_cases hq : perp (tyrow s a) (tyrow s b) = true
    · exact hq
    · rw [if_neg hq] at hd; omega
  · have haj : j < a := by omega
    rw [precCol_hi hij haj, precCol_hi hij (by omega)] at hd
    by_cases hp : perp (tyrow s j) (tyrow s a) = true
    · rw [if_pos hp] at hd
      split_ifs at hd <;> omega
    · rw [if_neg hp] at hd
      have hp' : perp (tyrow s j) (tyrow s a) = false := by simpa using hp
      by_cases hq : perp (tyrow s j) (tyrow s b) = true
      · rw [inv_perp_eq hI haj (by omega)] at hp'
        rw [inv_perp_eq hI (by omega) hb] at hq
        rw [inv_perp_eq hI hab hb]
        exact hasLt_mid_right (word s j) (word s a) (word s b)
          (by rw [inv_word_len hI (by omega), inv_word_len hI (by omega)])
          (by rw [inv_word_len hI (by omega), inv_word_len hI hb]) hp' hq
      · rw [if_neg hq] at hd; omega

/-- A pair that receives `L` and `R` in the new column already was prec,
unless it is the pair `(i, j)` itself. -/
theorem precCol_LR (hI : Inv cfg s) (hij : i < j) (hj : j < s.ntypes)
    (hB1 : condB1 s i j = i) (hB2 : condB2 s i j = s.ntypes)
    {a b : Nat} (hab : a < b) (hb : b < s.ntypes)
    (h1 : precCol s i j a = chL) (h2 : precCol s i j b = chR) :
    (a = i ∧ b = j) ∨ prec (tyrow s a) (tyrow s b) = true := by
  have hLO : chL ≠ chO := by decide
  have hOR : chO ≠ chR := by decide
  have hLR : chL ≠ chR := by decide
  have b1' := condB1_spec hB1
  have b2' := condB2_spec hB2
  -- the entry `R` only occurs at `j` and beyond, without perp to `j`
  have hbj : b = j ∨ (j < b ∧ perp (tyrow s j) (tyrow s b) = false) := by
    by_cases c1 : b < i
    · rw [precCol_lo c1] at h2
      split_ifs at h2
      · exact absurd h2 hOR
      · exact absurd h2 hLR
    by_cases c2 : b = i
    · rw [c2, precCol_i] at h2; exact absurd h2 hLR
    by_cases c3 : b < j
    · rw [precCol_mid (by omega) c3] at h2; exact absurd h2 hOR
    by_cases c4 : b = j
    · exact Or.inl c4
    · right
      refine ⟨by omega, ?_⟩
      rw [precCol_hi hij (by omega)] at h2
      by_cases hq : perp (tyrow s j) (tyrow s b) = true
      · rw [if_pos hq] at h2; exact absurd h2 hOR
      · simpa using hq
  -- the entry `L` only occurs at `i` and before, without perp to `i`
  have hai : a = i ∨ (a < i ∧ perp (tyrow s a) (tyrow s i) = false) := by
    by_cases c1 : a < i
    · right
      refine ⟨c1, ?_⟩
      rw [precCol_lo c1] at h1
      by_cases hq : perp (tyrow s a) (tyrow s i) = true
      · rw [if_pos hq] at h1; exact absurd h1.symm hLO
      · simpa using hq
    by_cases c2 : a = i
    · exact Or.inl c2
    by_cases c3 : a < j
    · rw [precCol_mid (by omega) c3] at h1; exact absurd h1.symm hLO
    by_cases c4 : a = j
    · rw [c4, precCol_j hij] at h1; exact absurd h1.symm hLR
    · rw [precCol_hi hij (by omega)] at h1
      split_ifs at h1
      · exact absurd h1.symm hLO
      · exact absurd h1.symm hLR
  have key : ∀ a, a < i → perp (tyrow s a) (tyrow s i) = false →
      prec (tyrow s a) (tyrow s j) = true := by
    intro a ha hp
    rcases b1' a ha with h | h
    · rw [h] at hp; exact absurd hp (by decide)
    · exact h
  rcases hai with ea | ⟨ha, hpa⟩
  · rcases hbj with eb | ⟨hb', hpb⟩
    · exact Or.inl ⟨ea, eb⟩
    · right
      rw [ea]
      rcases b2' b hb' hb with h | h
      · rw [h] at hpb; exact absurd hpb (by decide)
      · exact h
  · right
    rcases hbj with eb | ⟨hb', hpb⟩
    · rw [eb]; exact key a ha hpa
    · have hk := key a ha hpa
      rw [inv_prec hI (by omega) hj] at hk
      rw [inv_perp_eq hI hb' hb] at hpb
      rw [inv_prec hI (by omega) hb]
      exact prec_mid (word s a) (word s j) (word s b) (inv_word_noNul hI (by omega))
        (inv_word_noNul hI hj) (inv_word_noNul hI hb)
        (by rw [inv_word_len hI (by omega), inv_word_len hI hj])
        (by rw [inv_word_len hI hj, inv_word_len hI hb])
        (by
          intro z hz
          rcases inv_word_abc hI hb z hz with e | e | e <;> rw [e] <;> decide)
        hk hpb

theorem precStep_perp (hI : Inv cfg s) (hL : s.length < MAXLENGTH cfg) (hij : i < j)
    (hj : j < s.ntypes) {a b : Nat} (hab : a < b) (hb : b < s.ntypes) :
    perp (tyrow (precStep s i j) a) (tyrow (precStep s i j) b) =
      perp (tyrow s a) (tyrow s b) := by
  have hC := precStep_column hI hL hij hj
  rw [col_perp hI hL hC (a := a) (b := b) (by exact (by omega : a < s.ntypes)) hb hab]
  simp only [id_eq]
  by_cases hd : precCol s i j b < precCol s i j a
  · rw [precCol_decr hI hij hj hab hb hd]; rfl
  · rw [decide_eq_false hd, Bool.or_false]

theorem precStep_prec (hI : Inv cfg s) (hL : s.length < MAXLENGTH cfg) (hij : i < j)
    (hj : j < s.ntypes) (hU : unrelated s i j = true) (hB1 : condB1 s i j = i)
    (hB2 : condB2 s i j = s.ntypes) {a b : Nat} (hab : a < b) (hb : b < s.ntypes) :
    prec (tyrow (precStep s i j) a) (tyrow (precStep s i j) b) =
      (prec (tyrow s a) (tyrow s b) || decide (a = i ∧ b = j)) := by
  have hC := precStep_column hI hL hij hj
  rw [col_prec hI hL hC (a := a) (b := b) (by exact (by omega : a < s.ntypes)) hb hab]
  simp only [id_eq]
  have hU' := unrelated_spec hU
  by_cases e : a = i ∧ b = j
  · rw [decide_eq_true e, e.1, e.2, hU'.1, hU'.2, precCol_i, precCol_j hij]
    rfl
  · rw [decide_eq_false e, Bool.or_false]
    by_cases hlr : precCol s i j a = chL ∧ precCol s i j b = chR
    · rcases precCol_LR hI hij hj hB1 hB2 hab hb hlr.1 hlr.2 with h | h
      · exact absurd h e
      · rw [h]; rfl
    · rw [decide_eq_false hlr, Bool.and_false, Bool.or_false]

end PrecColumn

/-! ## Counting -/

theorem countP_flip (l : List Nat) (x : Nat) (p q : Nat → Bool) (hnd : l.Nodup) (hx : x ∈ l)
    (h1 : ∀ y ∈ l, y ≠ x → q y = p y) (h2 : p x = false) (h3 : q x = true) :
    l.countP q = l.countP p + 1 := by
  induction l with
  | nil => cases hx
  | cons y l ih =>
    have hnd' := List.nodup_cons.mp hnd
    by_cases e : y = x
    · subst e
      have hc : l.countP q = l.countP p := by
        apply List.countP_congr
        intro z hz
        have hzy : z ≠ y := fun e => hnd'.1 (e ▸ hz)
        rw [h1 z (List.mem_cons_of_mem _ hz) hzy]
      rw [List.countP_cons_of_pos _ _ h3, List.countP_cons_of_neg _ _ (by simp [h2]), hc]
    · have hx' : x ∈ l := by
        rcases List.mem_cons.mp hx with e2 | e2
        · exact absurd e2.symm e
        · exact e2
      have ih' := ih hnd'.2 hx' (fun z hz hzx => h1 z (List.mem_cons_of_mem _ hz) hzx)
      have hy : q y = p y := h1 y (List.mem_cons_self _ _) e
      simp only [List.countP_cons, ih', hy]
      omega

theorem countP_same (l : List Nat) (p q : Nat → Bool) (h : ∀ y ∈ l, q y = p y) :
    l.countP q = l.countP p := by
  apply List.countP_congr
  intro z hz
  rw [h z hz]

theorem sum_map_flip (l : List Nat) (x : Nat) (f g : Nat → Nat) (hnd : l.Nodup) (hx : x ∈ l)
    (h1 : ∀ y ∈ l, y ≠ x → g y = f y) (h2 : g x = f x + 1) :
    (l.map g).sum = (l.map f).sum + 1 := by
  induction l with
  | nil => cases hx
  | cons y l ih =>
    have hnd' := List.nodup_cons.mp hnd
    by_cases e : y = x
    · subst e
      have hc : (l.map g).sum = (l.map f).sum := by
        congr 1
        apply List.map_congr_left
        intro z hz
        exact h1 z (List.mem_cons_of_mem _ hz) (fun e => hnd'.1 (e ▸ hz))
      simp only [List.map_cons, List.sum_cons, h2, hc]
      omega
    · have hx' : x ∈ l := by
        rcases List.mem_cons.mp hx with e2 | e2
        · exact absurd e2.symm e
        · exact e2
      have ih' := ih hnd'.2 hx' (fun z hz hzx => h1 z (List.mem_cons_of_mem _ hz) hzx)
      simp only [List.map_cons, List.sum_cons, ih', h1 y (List.mem_cons_self _ _) e]
      omega

theorem incr_length (r : List Int) (k : Nat) : (incr r k).length = r.length := by
  simp [incr]

theorem incr_getD (r : List Int) (k m : Nat) :
    (incr r k).getD m 0 = if m = k ∧ k < r.length then r.getD k 0 + 1 else r.getD m 0 := by
  unfold incr; rw [getD_set]

theorem decr_length (r : List Int) (k : Nat) : (decr r k).length = r.length := by
  simp [decr]

theorem decr_getD (r : List Int) (k m : Nat) :
    (decr r k).getD m 0 = if m = k ∧ k < r.length then r.getD k 0 - 1 else r.getD m 0 := by
  unfold decr; rw [getD_set]

theorem incr_getD_add (r : List Int) (k m : Nat) :
    (incr r k).getD m 0 = r.getD m 0 + (if m = k ∧ k < r.length then 1 else 0) := by
  rw [incr_getD]
  by_cases c : m = k ∧ k < r.length
  · rw [if_pos c, if_pos c, c.1]
  · rw [if_neg c, if_neg c, Int.add_zero]

theorem decr_getD_sub (r : List Int) (k m : Nat) :
    (decr r k).getD m 0 = r.getD m 0 - (if m = k ∧ k < r.length then 1 else 0) := by
  rw [decr_getD]
  by_cases c : m = k ∧ k < r.length
  · rw [if_pos c, if_pos c, c.1]
  · rw [if_neg c, if_neg c, Int.sub_zero]

/-- Undoing the two increments of a relation move restores the array. -/
theorem decr_decr_incr_incr (r : List Int) (i j : Nat) :
    decr (decr (incr (incr r i) j) i) j = r := by
  apply ext_getD _ _ 0
  · simp [decr_length, incr_length]
  · intro m _
    rw [decr_getD_sub, decr_getD_sub, incr_getD_add, incr_getD_add, decr_length, incr_length,
      incr_length, incr_length]
    split_ifs <;> omega

/-! ## The relation counts after a relation move -/

section RelationStep

variable {cfg : Config} {s t : State} {i j : Nat}

theorem relCount_flip (hnt : t.ntypes = s.ntypes) (hij : i < j) (hj : j < s.ntypes)
    (hrel : ∀ a b, a < b → b < s.ntypes →
      related t a b = (related s a b || decide (a = i ∧ b = j)))
    (hU : related s i j = false) {k : Nat} (hk : k < s.ntypes) :
    relCount t k = relCount s k + (if k = i ∨ k = j then 1 else 0) := by
  unfold relCount
  rw [hnt]
  by_cases e1 : k = i
  · subst e1
    have p1 : (List.range k).countP (fun m => related t m k) =
        (List.range k).countP (fun m => related s m k) := by
      apply countP_same
      intro m hm
      have hm' := List.mem_range.mp hm
      rw [hrel m k hm' hk, decide_eq_false (by omega), Bool.or_false]
    have p2 : (List.range' (k + 1) (s.ntypes - (k + 1))).countP (fun m => related t k m) =
        (List.range' (k + 1) (s.ntypes - (k + 1))).countP (fun m => related s k m) + 1 := by
      apply countP_flip _ j _ _ (List.nodup_range' _ _)
        (List.mem_range'_1.mpr ⟨by omega, by omega⟩)
      · intro m hm hmj
        have hm' := List.mem_range'_1.mp hm
        rw [hrel k m (by omega) (by omega), decide_eq_false (by omega), Bool.or_false]
      · exact hU
      · rw [hrel k j hij hj, decide_eq_true ⟨rfl, rfl⟩, Bool.or_true]
    rw [p1, p2, if_pos (Or.inl rfl)]
    omega
  · by_cases e2 : k = j
    · subst e2
      have p1 : (List.range k).countP (fun m => related t m k) =
          (List.range k).countP (fun m => related s m k) + 1 := by
        apply countP_flip _ i _ _ (List.nodup_range _) (List.mem_range.mpr hij)
        · intro m hm hmi
          have hm' := List.mem_range.mp hm
          rw [hrel m k hm' hk, decide_eq_false (by omega), Bool.or_false]
        · exact hU
        · rw [hrel i k hij hj, decide_eq_true ⟨rfl, rfl⟩, Bool.or_true]
      have p2 : (List.range' (k + 1) (s.ntypes - (k + 1))).countP (fun m => related t k m) =
          (List.range' (k + 1) (s.ntypes - (k + 1))).countP (fun m => related s k m) := by
        apply countP_same
        intro m hm
        have hm' := List.mem_range'_1.mp hm
        rw [hrel k m (by omega) (by omega), decide_eq_false (by omega), Bool.or_false]
      rw [p1, p2, if_pos (Or.inr rfl)]
      omega
    · have p1 : (List.range k).countP (fun m => related t m k) =
          (List.range k).countP (fun m => related s m k) := by
        apply countP_same
        intro m hm
        have hm' := List.mem_range.mp hm
        rw [hrel m k hm' hk, decide_eq_false (by omega), Bool.or_false]
      have p2 : (List.range' (k + 1) (s.ntypes - (k + 1))).countP (fun m => related t k m) =
          (List.range' (k + 1) (s.ntypes - (k + 1))).countP (fun m => related s k m) := by
        apply countP_same
        intro m hm
        have hm' := List.mem_range'_1.mp hm
        rw [hrel k m (by omega) (by omega), decide_eq_false (by omega), Bool.or_false]
      rw [p1, p2, if_neg (by omega)]
      omega

/-- The invariant survives a move that writes a column on the unchanged
active list and makes exactly the pair `(i, j)` related: by `prec` when
`isPrec` is set, by `perp` otherwise. -/
theorem inv_relation_step (isPrec : Bool) (col : Nat → Nat) (tag : Nat)
    (hI : Inv cfg s) (hL : s.length < MAXLENGTH cfg) (hC : Column s t id col)
    (htag : tag = chb ∨ tag = chl ∨ tag = chp ∨ tag = chlt)
    (hlev : t.lev = s.lev.set s.length tag)
    (hrels : t.relations = incr (incr s.relations i) j)
    (hnt : t.ntypes = s.ntypes) (hnl : t.nleafs = s.nleafs) (hleafs : t.leafs = s.leafs)
    (hij : i < j) (hj : j < s.ntypes) (hU : unrelated s i j = true)
    (hprec : ∀ a b, a < b → b < s.ntypes → prec (tyrow t a) (tyrow t b) =
      (prec (tyrow s a) (tyrow s b) || (isPrec && decide (a = i ∧ b = j))))
    (hperp : ∀ a b, a < b → b < s.ntypes → perp (tyrow t a) (tyrow t b) =
      (perp (tyrow s a) (tyrow s b) || (!isPrec && decide (a = i ∧ b = j)))) :
    Inv cfg t := by
  have hU' := unrelated_spec hU
  have hrel : ∀ a b, a < b → b < s.ntypes →
      related t a b = (related s a b || decide (a = i ∧ b = j)) := by
    intro a b hab hb
    unfold related
    rw [hprec a b hab hb, hperp a b hab hb]
    cases isPrec <;> cases prec (tyrow s a) (tyrow s b) <;>
      cases perp (tyrow s a) (tyrow s b) <;> cases decide (a = i ∧ b = j) <;> rfl
  have hUr : related s i j = false := by
    unfold related; rw [hU'.1, hU'.2]; rfl
  have hlen := hC.length_eq
  have hrl : s.relations.length = MAXTYPES cfg := hI.rel_len
  have hntle := hI.nt_le
  exact
    { lev_len := by rw [hlev, List.length_set]; exact hI.lev_len
      lev_zero := by
        intro p hp
        rw [hlev, getD_set, if_neg (by omega)]
        exact hI.lev_zero p (by omega)
      lev_tag := by
        intro p hp
        rw [hlev, getD_set]
        by_cases e : p = s.length
        · rw [if_pos ⟨e, by rw [hI.lev_len]; exact hL⟩]; exact htag
        · rw [if_neg (fun h => e h.1)]
          exact hI.lev_tag p (by omega)
      types_len := by rw [hC.types_len]; exact hI.types_len
      row_len := col_row_len hI hC
      row_zero := col_row_zero hI hC
      row_abc := col_row_abc hI hL hC
      rel_len := by rw [hrels, incr_length, incr_length]; exact hI.rel_len
      leafs_len := by rw [hleafs]; exact hI.leafs_len
      nt_pos := by rw [hnt]; exact hI.nt_pos
      nt_le := by rw [hnt]; exact hI.nt_le
      tot_le := by rw [hnt, hnl]; exact hI.tot_le
      len_le := by omega
      sorted := by
        intro k hk
        rw [hnt] at hk
        exact col_ltlex hI hL hC (by rw [hnt]; omega) (by rw [hnt]; exact hk)
          (by show k < k + 1; omega)
      excl := by
        intro a b hab hb
        rw [hnt] at hb
        rw [hprec a b hab hb, hperp a b hab hb]
        by_cases e : a = i ∧ b = j
        · rw [e.1, e.2, hU'.1, hU'.2]
          cases isPrec <;> simp
        · rw [decide_eq_false e]
          have := hI.excl a b hab hb
          simpa using this
      rel_ok := by
        intro k hk
        rw [hnt] at hk
        rw [relCount_flip hnt hij hj hrel hUr hk, hrels, incr_getD, incr_getD, incr_getD,
          incr_length, hI.rel_ok k hk, hI.rel_ok i (by omega), hI.rel_ok j hj]
        by_cases e1 : k = j
        · subst e1
          rw [if_pos ⟨rfl, by omega⟩, if_neg (by omega), if_pos (Or.inr rfl)]
          push_cast; ring
        · rw [if_neg (fun h => e1 h.1)]
          by_cases e2 : k = i
          · subst e2
            rw [if_pos ⟨rfl, by omega⟩, if_pos (Or.inl rfl)]
            push_cast; ring
          · rw [if_neg (fun h => e2 h.1), if_neg (by omega)]
            simp
      leaf_len := by
        intro k hk
        rw [hnl] at hk
        have := hI.leaf_len k hk
        unfold leafrow at this ⊢
        rw [hleafs]
        omega }

theorem inv_perpStep (hI : Inv cfg s) (hL : s.length < MAXLENGTH cfg) (hij : i < j)
    (hj : j < s.ntypes) (hU : unrelated s i j = true) (hA : condA s i j = j) :
    Inv cfg (perpStep s i j) :=
  inv_relation_step false (perpCol s i j) chp hI hL (perpStep_column hI hL hij hj)
    (Or.inr (Or.inr (Or.inl rfl))) rfl rfl rfl rfl rfl hij hj hU
    (fun a b hab hb => by
      rw [perpStep_prec hI hL hij hj hab hb]; simp)
    (fun a b hab hb => by
      rw [perpStep_perp hI hL hij hj hA hab hb]; simp)

theorem inv_precStep (hI : Inv cfg s) (hL : s.length < MAXLENGTH cfg) (hij : i < j)
    (hj : j < s.ntypes) (hU : unrelated s i j = true) (hB1 : condB1 s i j = i)
    (hB2 : condB2 s i j = s.ntypes) : Inv cfg (precStep s i j) :=
  inv_relation_step true (precCol s i j) chlt hI hL (precStep_column hI hL hij hj)
    (Or.inr (Or.inr (Or.inr rfl))) rfl rfl rfl rfl rfl hij hj hU
    (fun a b hab hb => by
      rw [precStep_prec hI hL hij hj hU hB1 hB2 hab hb]; simp)
    (fun a b hab hb => by
      rw [precStep_perp hI hL hij hj hab hb]; simp)

end RelationStep

/-! ## The consistency checker computes the specified counts -/

theorem countP_cons_true (p : Nat → Bool) (a : Nat) (l : List Nat) (h : p a = true) :
    (a :: l).countP p = l.countP p + 1 := by
  rw [List.countP_cons, if_pos h]

theorem countP_cons_false (p : Nat → Bool) (a : Nat) (l : List Nat) (h : p a = false) :
    (a :: l).countP p = l.countP p := by
  rw [List.countP_cons, if_neg (by rw [h]; decide)]
  rfl

theorem countsPair_spec (s : State) (i : Nat) (l : List Nat) :
    ∀ (acc : Int × Int × List Int), (∀ j ∈ l, i < j ∧ j < acc.2.2.length) → l.Nodup →
      (l.foldl (countsPair s i) acc).1 =
          acc.1 + (l.countP (fun j => prec (tyrow s i) (tyrow s j)) : Nat) ∧
      (l.foldl (countsPair s i) acc).2.1 =
          acc.2.1 + (l.countP (fun j =>
            !prec (tyrow s i) (tyrow s j) && perp (tyrow s i) (tyrow s j)) : Nat) ∧
      (l.foldl (countsPair s i) acc).2.2.length = acc.2.2.length ∧
      ∀ k, (l.foldl (countsPair s i) acc).2.2.getD k 0 =
        acc.2.2.getD k 0 + (if k = i then (l.countP (fun j => related s i j) : Nat) else 0)
          + (if k ∈ l ∧ related s i k = true then 1 else 0) := by
  induction l with
  | nil =>
    intro acc _ _
    refine ⟨by simp, by simp, rfl, fun k => ?_⟩
    simp
  | cons j l ih =>
    intro acc hl hnd
    have hnd' := List.nodup_cons.mp hnd
    have hj := hl j (List.mem_cons_self _ _)
    have hi : i < acc.2.2.length := by omega
    rw [List.foldl_cons]
    have hlen : (countsPair s i acc j).2.2.length = acc.2.2.length := by
      unfold countsPair
      split_ifs <;> simp [incr_length]
    obtain ⟨r1, r2, r3, r4⟩ := ih (countsPair s i acc j)
      (fun x hx => by
        have := hl x (List.mem_cons_of_mem _ hx)
        rw [hlen]; exact this) hnd'.2
    have hjl : j ∉ l := hnd'.1
    have hnrel : ∀ k, (countsPair s i acc j).2.2.getD k 0 =
        acc.2.2.getD k 0 + (if related s i j = true then
          (if k = i then 1 else 0) + (if k = j then 1 else 0) else 0) := by
      intro k
      unfold countsPair related
      by_cases hp : prec (tyrow s i) (tyrow s j) = true
      · rw [if_pos hp, hp, Bool.true_or, if_pos rfl]
        show (incr (incr acc.2.2 i) j).getD k 0 = _
        rw [incr_getD_add, incr_getD_add, incr_length]
        split_ifs <;> omega
      · rw [if_neg hp]
        have hp' : prec (tyrow s i) (tyrow s j) = false := by simpa using hp
        rw [hp', Bool.false_or]
        by_cases hq : perp (tyrow s i) (tyrow s j) = true
        · rw [if_pos hq, if_pos hq]
          show (incr (incr acc.2.2 i) j).getD k 0 = _
          rw [incr_getD_add, incr_getD_add, incr_length]
          split_ifs <;> omega
        · rw [if_neg hq, if_neg hq]; omega
    refine ⟨?_, ?_, by rw [r3, hlen], fun k => ?_⟩
    · rw [r1]
      unfold countsPair
      by_cases hp : prec (tyrow s i) (tyrow s j) = true
      · rw [if_pos hp, countP_cons_true _ _ _ hp]
        push_cast; ring
      · rw [if_neg hp, countP_cons_false _ _ _ (by simpa using hp)]
        split_ifs <;> rfl
    · rw [r2]
      unfold countsPair
      by_cases hp : prec (tyrow s i) (tyrow s j) = true
      · rw [if_pos hp, countP_cons_false _ _ _ (by simp [hp])]
      · rw [if_neg hp]
        have hp' : prec (tyrow s i) (tyrow s j) = false := by simpa using hp
        by_cases hq : perp (tyrow s i) (tyrow s j) = true
        · rw [if_pos hq, countP_cons_true _ _ _ (by simp [hp', hq])]
          push_cast; ring
        · rw [if_neg hq, countP_cons_false _ _ _ (by simp [hq])]
    · rw [r4 k, hnrel k, List.countP_cons]
      have hmem : k ∈ l → i < k := fun hx => (hl k (List.mem_cons_of_mem _ hx)).1
      have hij : i < j := hj.1
      by_cases hkl : k ∈ l
      · have h1 : k ≠ j := fun e => hjl (e ▸ hkl)
        have h2 : k ≠ i := by have := hmem hkl; omega
        have h3 : k ∈ j :: l := List.mem_cons_of_mem _ hkl
        simp only [hkl, h1, h2, h3, true_and, if_false]
        split_ifs <;> simp
      · by_cases e2 : k = j
        · subst e2
          have h2 : k ≠ i := by omega
          have h3 : k ∈ k :: l := List.mem_cons_self _ _
          simp only [hkl, h2, h3, true_and, false_and, if_false, if_true]
          split_ifs <;> simp
        · have h3 : k ∉ j :: l := by
            intro h
            rcases List.mem_cons.mp h with h | h
            · exact e2 h
            · exact hkl h
          simp only [hkl, h3, e2, false_and, if_false]
          by_cases e1 : k = i
          · simp only [e1, if_true]
            split_ifs <;> push_cast <;> ring
          · simp only [e1, if_false]
            split_ifs <;> simp

theorem mem_after {i n k : Nat} (hi : i < n) :
    k ∈ List.range' (i + 1) (n - (i + 1)) ↔ i < k ∧ k < n := by
  rw [List.mem_range'_1]
  omega

theorem countsRows_spec (s : State) (rest : List Nat) :
    ∀ (acc : Int × Int × List Int),
      (∀ i ∈ rest, i < s.ntypes ∧ strlen (tyrow s i) = s.length ∧
        (0 < i → ltlex (tyrow s (i - 1)) (tyrow s i) = true)) →
      rest.Nodup → s.ntypes ≤ acc.2.2.length →
      ∃ r, countsRows s rest acc = .ok r ∧
        r.1 = acc.1 + ((rest.map (fun i =>
          (List.range' (i + 1) (s.ntypes - (i + 1))).countP (fun j =>
            prec (tyrow s i) (tyrow s j)))).sum : Nat) ∧
        r.2.1 = acc.2.1 + ((rest.map (fun i =>
          (List.range' (i + 1) (s.ntypes - (i + 1))).countP (fun j =>
            !prec (tyrow s i) (tyrow s j) && perp (tyrow s i) (tyrow s j)))).sum : Nat) ∧
        r.2.2.length = acc.2.2.length ∧
        ∀ k, r.2.2.getD k 0 = acc.2.2.getD k 0
          + (if k ∈ rest then
              ((List.range' (k + 1) (s.ntypes - (k + 1))).countP (fun j => related s k j) : Nat)
             else 0)
          + (rest.countP (fun i => decide (i < k ∧ k < s.ntypes) && related s i k) : Nat) := by
  induction rest with
  | nil =>
    intro acc _ _ _
    exact ⟨acc, rfl, by simp, by simp, rfl, fun k => by simp⟩
  | cons i rest ih =>
    intro acc hyp hnd hlen
    have hnd' := List.nodup_cons.mp hnd
    obtain ⟨hi, hs, hl⟩ := hyp i (List.mem_cons_self _ _)
    obtain ⟨q1, q2, q3, q4⟩ := countsPair_spec s i (List.range' (i + 1) (s.ntypes - (i + 1)))
      acc (fun j hj => by
        have := (mem_after hi).mp hj
        omega) (List.nodup_range' _ _)
    obtain ⟨r, hr, r1, r2, r3, r4⟩ := ih
      ((List.range' (i + 1) (s.ntypes - (i + 1))).foldl (countsPair s i) acc)
      (fun x hx => hyp x (List.mem_cons_of_mem _ hx)) hnd'.2 (by rw [q3]; exact hlen)
    refine ⟨r, ?_, ?_, ?_, by rw [r3, q3], fun k => ?_⟩
    · unfold countsRows
      rw [if_neg (by rw [hs]; exact fun h => h rfl)]
      have : ¬ (0 < i ∧ ltlex (tyrow s (i - 1)) (tyrow s i) = false) := by
        rintro ⟨h1, h2⟩
        rw [hl h1] at h2
        exact absurd h2 (by decide)
      rw [if_neg this]
      exact hr
    · rw [r1, q1]
      simp only [List.map_cons, List.sum_cons]
      push_cast; ring
    · rw [r2, q2]
      simp only [List.map_cons, List.sum_cons]
      push_cast; ring
    · rw [r4 k, q4 k, List.countP_cons]
      have hmem : (k ∈ List.range' (i + 1) (s.ntypes - (i + 1)) ∧ related s i k = true) ↔
          ((decide (i < k ∧ k < s.ntypes) && related s i k) = true) := by
        rw [mem_after hi]
        simp
      rw [if_congr hmem rfl rfl]
      by_cases e1 : k = i
      · subst e1
        have h1 : k ∈ k :: rest := List.mem_cons_self _ _
        have h2 : k ∉ rest := hnd'.1
        simp only [h1, h2, if_true, if_false]
        push_cast; ring
      · by_cases e2 : k ∈ rest
        · have h1 : k ∈ i :: rest := List.mem_cons_of_mem _ e2
          simp only [h1, e1, e2, if_true, if_false]
          push_cast; ring
        · have h1 : k ∉ i :: rest := by
            intro h
            rcases List.mem_cons.mp h with h | h
            · exact e1 h
            · exact e2 h
          simp only [h1, e1, e2, if_false]
          push_cast; ring

theorem countP_range_lt (p : Nat → Bool) (k n : Nat) (hk : k ≤ n) :
    (List.range n).countP (fun i => decide (i < k) && p i) = (List.range k).countP p := by
  have e : List.range n = List.range k ++ List.range' k (n - k) := by
    rw [List.range_eq_range', List.range_eq_range']
    have := List.range'_append_1 0 k (n - k)
    rw [Nat.zero_add] at this
    rw [this]
    congr 1
    omega
  rw [e, List.countP_append]
  have h1 : (List.range k).countP (fun i => decide (i < k) && p i) = (List.range k).countP p := by
    apply countP_same
    intro y hy
    have := List.mem_range.mp hy
    simp [this]
  have h2 : (List.range' k (n - k)).countP (fun i => decide (i < k) && p i) = 0 := by
    rw [List.countP_eq_zero]
    intro y hy
    have := List.mem_range'_1.mp hy
    have h3 : ¬ y < k := by omega
    simp [h3]
  rw [h1, h2]
  rfl

/-- Under the invariant `counts` returns, with the number of prec pairs and
the number of perp pairs. -/
theorem counts_ok {cfg : Config} {s : State} (hI : Inv cfg s) :
    counts cfg s = .ok ((precTotal s : Int), (perpTotal s : Int)) := by
  obtain ⟨r, hr, r1, r2, _, r4⟩ := countsRows_spec s (List.range s.ntypes)
    (0, 0, List.replicate (MAXTYPES cfg) 0)
    (fun i hi => by
      have hi' := List.mem_range.mp hi
      refine ⟨hi', inv_strlen hI hi', fun h0 => ?_⟩
      have := hI.sorted (i - 1) (by omega)
      have e : i - 1 + 1 = i := by omega
      rwa [e] at this)
    (List.nodup_range _) (by simp; exact hI.nt_le)
  have hrel : (List.range s.ntypes).all
      (fun i => s.relations.getD i 0 == r.2.2.getD i 0) = true := by
    rw [List.all_eq_true]
    intro k hk
    have hk' := List.mem_range.mp hk
    rw [beq_iff_eq, r4 k, hI.rel_ok k hk', if_pos hk]
    have h0 : (List.replicate (MAXTYPES cfg) (0 : Int)).getD k 0 = 0 := by
      simp only [List.getD_eq_getElem?_getD, List.getElem?_replicate]
      split_ifs <;> rfl
    have h1 : (List.range s.ntypes).countP
        (fun i => decide (i < k ∧ k < s.ntypes) && related s i k) =
        (List.range k).countP (fun i => related s i k) := by
      rw [← countP_range_lt (fun i => related s i k) k s.ntypes (by omega)]
      apply countP_same
      intro y _
      simp [hk']
    show _ = (0, 0, List.replicate (MAXTYPES cfg) (0 : Int)).2.2.getD k 0 + _ + _
    rw [h1]
    show _ = (List.replicate (MAXTYPES cfg) (0 : Int)).getD k 0 + _ + _
    rw [h0]
    unfold relCount
    push_cast; ring
  have hc2 : (List.range s.ntypes).map (fun i =>
      (List.range' (i + 1) (s.ntypes - (i + 1))).countP (fun j =>
        !prec (tyrow s i) (tyrow s j) && perp (tyrow s i) (tyrow s j))) =
      (List.range s.ntypes).map (fun i =>
        (List.range' (i + 1) (s.ntypes - (i + 1))).countP (fun j =>
          perp (tyrow s i) (tyrow s j))) := by
    apply List.map_congr_left
    intro i hi
    have hi' := List.mem_range.mp hi
    apply countP_same
    intro j hj
    have hj' := (mem_after hi').mp hj
    have := hI.excl i j hj'.1 hj'.2
    cases hp : prec (tyrow s i) (tyrow s j) <;> cases hq : perp (tyrow s i) (tyrow s j) <;>
      simp_all
  unfold counts
  rw [hr]
  simp only [hrel, if_true]
  rw [r1, r2, hc2]
  simp [precTotal, perpTotal]

/-! ## Totals after a relation move -/

theorem pairTotal_flip (n i j : Nat) (f g : Nat → Nat → Bool) (hij : i < j) (hj : j < n)
    (h : ∀ a b, a < b → b < n → g a b = (f a b || decide (a = i ∧ b = j)))
    (hf : f i j = false) :
    ((List.range n).map (fun a => (List.range' (a + 1) (n - (a + 1))).countP (g a))).sum =
      ((List.range n).map (fun a => (List.range' (a + 1) (n - (a + 1))).countP (f a))).sum
        + 1 := by
  apply sum_map_flip _ i _ _ (List.nodup_range _) (List.mem_range.mpr (by omega))
  · intro a ha hai
    have ha' := List.mem_range.mp ha
    apply countP_same
    intro b hb
    have hb' := (mem_after ha').mp hb
    rw [h a b hb'.1 hb'.2, decide_eq_false (fun e => hai e.1), Bool.or_false]
  · apply countP_flip _ j _ _ (List.nodup_range' _ _) ((mem_after (by omega)).mpr ⟨hij, hj⟩)
    · intro b hb hbj
      have hb' := (mem_after (show i < n by omega)).mp hb
      rw [h i b hb'.1 hb'.2, decide_eq_false (fun e => hbj e.2), Bool.or_false]
    · exact hf
    · rw [h i j hij hj, decide_eq_true ⟨rfl, rfl⟩, Bool.or_true]

theorem pairTotal_same (n : Nat) (f g : Nat → Nat → Bool)
    (h : ∀ a b, a < b → b < n → g a b = f a b) :
    ((List.range n).map (fun a => (List.range' (a + 1) (n - (a + 1))).countP (g a))).sum =
      ((List.range n).map (fun a => (List.range' (a + 1) (n - (a + 1))).countP (f a))).sum := by
  congr 1
  apply List.map_congr_left
  intro a ha
  have ha' := List.mem_range.mp ha
  apply countP_same
  intro b hb
  have hb' := (mem_after ha').mp hb
  exact h a b hb'.1 hb'.2

/-! ## The symmetric form of the relation count -/

theorem range_split (x n : Nat) (hx : x < n) :
    List.range n = List.range x ++ x :: List.range' (x + 1) (n - (x + 1)) := by
  have h1 := List.range'_append_1 0 x (n - x)
  rw [Nat.zero_add] at h1
  have h2 : List.range' x (n - x) = x :: List.range' (x + 1) (n - (x + 1)) := by
    have : n - x = (n - (x + 1)) + 1 := by omega
    rw [this]
    rfl
  rw [List.range_eq_range', List.range_eq_range']
  have e : n - x + x = n := by omega
  rw [← h2, h1, e]

theorem symRel_self (s : State) (x : Nat) : symRel s x x = false := by
  simp [symRel]

theorem symRel_lt (s : State) {x y : Nat} (h : x < y) : symRel s x y = related s x y := by
  unfold symRel
  rw [decide_eq_true (by omega : x ≠ y), Nat.min_eq_left (by omega), Nat.max_eq_right (by omega)]
  rfl

theorem symRel_comm (s : State) (x y : Nat) : symRel s x y = symRel s y x := by
  unfold symRel
  rw [Nat.min_comm, Nat.max_comm]
  by_cases e : x = y
  · simp [e]
  · have e' : ¬ y = x := fun h => e h.symm
    simp [e, e']

theorem relCount_eq_sym (s : State) {x : Nat} (hx : x < s.ntypes) :
    relCount s x = (List.range s.ntypes).countP (symRel s x) := by
  rw [range_split x s.ntypes hx, List.countP_append,
    countP_cons_false _ _ _ (symRel_self s x)]
  unfold relCount
  congr 1
  · apply countP_same
    intro y hy
    have := List.mem_range.mp hy
    rw [symRel_comm, symRel_lt s this]
  · apply countP_same
    intro y hy
    have := (mem_after hx).mp hy
    rw [symRel_lt s this.1]

/-! ## Columns that keep the order of the letters -/

section MonoColumn

variable {cfg : Config} {s t : State} {src col : Nat → Nat}

theorem col_prec_mono (hI : Inv cfg s) (hL : s.length < MAXLENGTH cfg)
    (hC : Column s t src col) (hnoL : ∀ k, col k ≠ chL)
    {a b : Nat} (ha : a < t.ntypes) (hb : b < t.ntypes) (hab : src a < src b) :
    prec (tyrow t a) (tyrow t b) = prec (tyrow s (src a)) (tyrow s (src b)) := by
  rw [col_prec hI hL hC ha hb hab, decide_eq_false (fun e => hnoL a e.1), Bool.and_false,
    Bool.or_false]

theorem col_perp_mono (hI : Inv cfg s) (hL : s.length < MAXLENGTH cfg)
    (hC : Column s t src col) {a b : Nat} (ha : a < t.ntypes) (hb : b < t.ntypes)
    (hab : src a < src b) (hle : col a ≤ col b) :
    perp (tyrow t a) (tyrow t b) = perp (tyrow s (src a)) (tyrow s (src b)) := by
  rw [col_perp hI hL hC ha hb hab, decide_eq_false (by omega), Bool.or_false]

theorem col_related_mono (hI : Inv cfg s) (hL : s.length < MAXLENGTH cfg)
    (hC : Column s t src col) (hnoL : ∀ k, col k ≠ chL)
    {a b : Nat} (ha : a < t.ntypes) (hb : b < t.ntypes)
    (hab : src a < src b) (hle : col a ≤ col b) :
    related t a b = related s (src a) (src b) := by
  unfold related
  rw [col_prec_mono hI hL hC hnoL ha hb hab, col_perp_mono hI hL hC ha hb hab hle]

/-- When the source map keeps the order and the column never decreases, the
symmetric relation of the new state is that of the sources. -/
theorem col_symRel_mono (hI : Inv cfg s) (hL : s.length < MAXLENGTH cfg)
    (hC : Column s t src col) (hnoL : ∀ k, col k ≠ chL)
    (hmono : ∀ a b, a < b → b < t.ntypes → src a ≤ src b ∧ col a ≤ col b)
    (htwin : ∀ a b, a < b → b < t.ntypes → src a = src b → related t a b = false)
    {a b : Nat} (ha : a < t.ntypes) (hb : b < t.ntypes) :
    symRel t a b = symRel s (src a) (src b) := by
  have key : ∀ a b, a < b → b < t.ntypes → symRel t a b = symRel s (src a) (src b) := by
    intro a b hab hb
    rw [symRel_lt t hab]
    have hm := hmono a b hab hb
    by_cases e : src a = src b
    · rw [htwin a b hab hb e, e, symRel_self]
    · have hlt : src a < src b := by omega
      rw [symRel_lt s hlt]
      exact col_related_mono hI hL hC hnoL (by omega) hb hlt hm.2
  by_cases e1 : a < b
  · exact key a b e1 hb
  · by_cases e2 : a = b
    · rw [e2, symRel_self, symRel_self]
    · rw [symRel_comm t, symRel_comm s]
      exact key b a (by omega) ha

end MonoColumn

/-! ## The branch move -/

theorem putc_set_self (t : List (List Nat)) (j p c : Nat) (x : List Nat) :
    putc (t.set j x) j p c = t.set j (x.set p c) := by
  unfold putc
  by_cases h : j < t.length
  · rw [getD_set, if_pos ⟨rfl, h⟩, List.set_set]
  · have e : t.set j x = t := List.set_eq_of_length_le (by omega)
    rw [e, List.set_eq_of_length_le (by omega), List.set_eq_of_length_le (by omega)]

section Branch

variable {cfg : Config} {s : State} {i : Nat}

/-- The rows after the shifting loop of `dobranch` (lines 225-230). -/
theorem branchShift_types (hI : Inv cfg s) (hL : s.length < MAXLENGTH cfg)
    (hi : i < s.ntypes) (hn : s.ntypes < MAXTYPES cfg) :
    ((List.range' (i + 1) (s.ntypes - i)).reverse.foldl
      (fun t j => putc (t.set j (strcpy (t.getD j []) (t.getD (j - 1) []))) j s.length chR)
      s.types).length = s.types.length ∧
    ∀ m, ((List.range' (i + 1) (s.ntypes - i)).reverse.foldl
      (fun t j => putc (t.set j (strcpy (t.getD j []) (t.getD (j - 1) []))) j s.length chR)
      s.types).getD m [] =
      if i + 1 ≤ m ∧ m < s.ntypes + 1 then (tyrow s (m - 1)).set s.length chR
      else tyrow s m := by
  have hf : (fun (t : List (List Nat)) j =>
      putc (t.set j (strcpy (t.getD j []) (t.getD (j - 1) []))) j s.length chR) =
      (fun t j => t.set j ((strcpy (t.getD j []) (t.getD (j - 1) [])).set s.length chR)) := by
    funext t j
    exact putc_set_self t j s.length chR _
  rw [hf]
  obtain ⟨l1, f1⟩ := setLoopRev ([] : List Nat)
    (fun t j => (strcpy (t.getD j []) (t.getD (j - 1) [])).set s.length chR)
    (fun j => (tyrow s (j - 1)).set s.length chR) (s.ntypes - i) (i + 1) s.types (by
      intro k hk1 hk2 t _ hm
      show (strcpy (t.getD k []) (t.getD (k - 1) [])).set s.length chR = _
      rw [hm k (Or.inl (Nat.le_refl _)), hm (k - 1) (Or.inl (by omega))]
      have hk1' : k - 1 < s.ntypes := by omega
      have := strcpy_clean (tyrow s k) (tyrow s (k - 1)) s.length
        (by rw [hI.row_len k (by omega), inv_row_len hI hk1'])
        (by rw [inv_row_len hI hk1']; omega)
        (fun p hp => inv_row_ne hI hk1' hp)
        (fun p hp => hI.row_zero _ p hp) (fun p hp => hI.row_zero _ p hp)
      unfold tyrow at this ⊢
      rw [this])
  refine ⟨l1, fun m => ?_⟩
  rw [f1 m]
  have hlen : s.types.length = MAXTYPES cfg := hI.types_len
  by_cases c : i + 1 ≤ m ∧ m < s.ntypes + 1
  · rw [if_pos ⟨c.1, by omega, by omega⟩, if_pos c]
  · rw [if_neg (by omega), if_neg c]
    rfl

theorem branchShift_rels (hI : Inv cfg s) (hi : i < s.ntypes) (hn : s.ntypes < MAXTYPES cfg) :
    ((List.range' (i + 1) (s.ntypes - i)).reverse.foldl
      (fun (r : List Int) j => r.set j (r.getD (j - 1) 0)) s.relations).length
        = s.relations.length ∧
    ∀ m, ((List.range' (i + 1) (s.ntypes - i)).reverse.foldl
      (fun (r : List Int) j => r.set j (r.getD (j - 1) 0)) s.relations).getD m 0 =
      if i + 1 ≤ m ∧ m < s.ntypes + 1 then s.relations.getD (m - 1) 0
      else s.relations.getD m 0 := by
  obtain ⟨l1, f1⟩ := setLoopRev (0 : Int) (fun r j => r.getD (j - 1) 0)
    (fun j => s.relations.getD (j - 1) 0) (s.ntypes - i) (i + 1) s.relations (by
      intro k hk1 hk2 t _ hm
      show t.getD (k - 1) 0 = _
      rw [hm (k - 1) (Or.inl (by omega))])
  refine ⟨l1, fun m => ?_⟩
  rw [f1 m]
  have hlen : s.relations.length = MAXTYPES cfg := hI.rel_len
  by_cases c : i + 1 ≤ m ∧ m < s.ntypes + 1
  · rw [if_pos ⟨c.1, by omega, by omega⟩, if_pos c]
  · rw [if_neg (by omega), if_neg c]

theorem branchStep_types (hI : Inv cfg s) (hL : s.length < MAXLENGTH cfg)
    (hi : i < s.ntypes) (hn : s.ntypes < MAXTYPES cfg) :
    (branchStep s i).types.length = s.types.length ∧
    ∀ m, tyrow (branchStep s i) m =
      if m < s.ntypes + 1 then (tyrow s (branchSrc i m)).set s.length (branchCol i m)
      else tyrow s m := by
  obtain ⟨l1, f1⟩ := branchShift_types hI hL hi hn
  have e1 : ((List.range' (i + 1) (s.ntypes - i)).reverse.foldl
      (fun (tr : List (List Nat) × List Int) j =>
        (putc (tr.1.set j (strcpy (tr.1.getD j []) (tr.1.getD (j - 1) []))) j s.length chR,
          tr.2.set j (tr.2.getD (j - 1) 0)))
      (s.types, s.relations)).1 =
      (List.range' (i + 1) (s.ntypes - i)).reverse.foldl
        (fun t j => putc (t.set j (strcpy (t.getD j []) (t.getD (j - 1) []))) j s.length chR)
        s.types :=
    congrArg Prod.fst (foldl_pair
      (fun (t : List (List Nat)) j =>
        putc (t.set j (strcpy (t.getD j []) (t.getD (j - 1) []))) j s.length chR)
      (fun (r : List Int) j => r.set j (r.getD (j - 1) 0))
      (List.range' (i + 1) (s.ntypes - i)).reverse s.types s.relations)
  obtain ⟨l2, f2⟩ := putcLoop_const s.length chO (i + 1) 0
    ((List.range' (i + 1) (s.ntypes - i)).reverse.foldl
      (fun t j => putc (t.set j (strcpy (t.getD j []) (t.getD (j - 1) []))) j s.length chR)
      s.types)
  have e2 : (branchStep s i).types = (List.range' 0 (i + 1)).foldl
      (fun t k => putc t k s.length chO)
      ((List.range' (i + 1) (s.ntypes - i)).reverse.foldl
        (fun t j => putc (t.set j (strcpy (t.getD j []) (t.getD (j - 1) []))) j s.length chR)
        s.types) := by
    show (List.range' 0 (i + 1)).foldl (fun t k => putc t k s.length chO) _ = _
    rw [e1]
  have hlen : s.types.length = MAXTYPES cfg := hI.types_len
  refine ⟨by rw [e2, l2, l1], fun m => ?_⟩
  unfold tyrow
  rw [e2, f2 m, l1, f1 m]
  unfold branchSrc branchCol
  by_cases c1 : m ≤ i
  · have h1 : 0 ≤ m ∧ m < 0 + (i + 1) ∧ m < s.types.length := by omega
    have h2 : ¬ (i + 1 ≤ m ∧ m < s.ntypes + 1) := by omega
    have h3 : m < s.ntypes + 1 := by omega
    rw [if_pos h1, if_neg h2, if_pos h3, if_pos c1, if_pos c1]
    rfl
  · have h1 : ¬ (0 ≤ m ∧ m < 0 + (i + 1) ∧ m < s.types.length) := by omega
    by_cases c2 : m < s.ntypes + 1
    · have h2 : i + 1 ≤ m ∧ m < s.ntypes + 1 := by omega
      rw [if_neg h1, if_pos h2, if_pos c2, if_neg c1, if_neg c1]
      rfl
    · have h2 : ¬ (i + 1 ≤ m ∧ m < s.ntypes + 1) := by omega
      rw [if_neg h1, if_neg h2, if_neg c2]
      rfl

theorem branchStep_column (hI : Inv cfg s) (hL : s.length < MAXLENGTH cfg)
    (hi : i < s.ntypes) (hn : s.ntypes < MAXTYPES cfg) :
    Column s (branchStep s i) (branchSrc i) (branchCol i) := by
  obtain ⟨l, f⟩ := branchStep_types hI hL hi hn
  have hnt : (branchStep s i).ntypes = s.ntypes + 1 := rfl
  exact
    { length_eq := rfl
      types_len := l
      row_active := fun k hk => by rw [f k, if_pos (by rw [hnt] at hk; exact hk)]
      src_lt := fun k hk => by
        rw [hnt] at hk
        unfold branchSrc
        split_ifs <;> omega
      col_abc := fun k _ => by
        unfold branchCol
        split_ifs <;> simp
      row_stale := fun k hk => by rw [f k, if_neg (by rw [hnt] at hk; omega)] }

end Branch

/-! ## The relation counts after the branch move -/

theorem condIncrLoop (c : Nat → Bool) (n : Nat) : ∀ (a : Nat) (r0 : List Int),
    ((List.range' a n).foldl (fun r k => if c k = true then incr r k else r) r0).length
      = r0.length ∧
    ∀ m, ((List.range' a n).foldl (fun r k => if c k = true then incr r k else r) r0).getD m 0 =
      r0.getD m 0 + (if a ≤ m ∧ m < a + n ∧ m < r0.length ∧ c m = true then 1 else 0) := by
  induction n with
  | zero =>
    intro a r0
    refine ⟨rfl, fun m => ?_⟩
    rw [if_neg (by omega)]
    simp
  | succ n ih =>
    intro a r0
    have step : (List.range' a (n + 1)).foldl (fun r k => if c k = true then incr r k else r) r0
        = (List.range' (a + 1) n).foldl (fun r k => if c k = true then incr r k else r)
          (if c a = true then incr r0 a else r0) := by
      simp [List.range']
    rw [step]
    obtain ⟨l1, f1⟩ := ih (a + 1) (if c a = true then incr r0 a else r0)
    have hl : (if c a = true then incr r0 a else r0).length = r0.length := by
      split_ifs
      · exact incr_length _ _
      · rfl
    refine ⟨by rw [l1, hl], fun m => ?_⟩
    rw [f1 m, hl]
    by_cases hcm : c m = true
    · simp only [hcm, and_true]
      by_cases hc : c a = true
      · rw [if_pos hc, incr_getD_add]
        split_ifs <;> omega
      · rw [if_neg hc]
        have : m ≠ a := fun e => hc (e ▸ hcm)
        split_ifs <;> omega
    · have hcm' : c m = false := by simpa using hcm
      simp only [hcm', Bool.false_eq_true, and_false, if_false]
      by_cases hc : c a = true
      · rw [if_pos hc, incr_getD_add]
        have : m ≠ a := fun e => hcm (e ▸ hc)
        split_ifs <;> omega
      · rw [if_neg hc]

theorem countP_shift_down (p : Nat → Bool) (m : Nat) : ∀ a,
    (List.range' (a + 1) m).countP (fun b => p (b - 1)) = (List.range' a m).countP p := by
  induction m with
  | zero => intro a; rfl
  | succ m ih =>
    intro a
    simp only [List.range', List.countP_cons, ih (a + 1)]
    rfl

theorem countP_shift_up (p : Nat → Bool) (m : Nat) : ∀ a,
    (List.range' a m).countP (fun b => p (b + 1)) = (List.range' (a + 1) m).countP p := by
  induction m with
  | zero => intro a; rfl
  | succ m ih =>
    intro a
    simp only [List.range', List.countP_cons, ih (a + 1)]

theorem range_split_at (i n : Nat) (hi : i ≤ n) :
    List.range n = List.range i ++ List.range' i (n - i) := by
  have h1 := List.range'_append_1 0 i (n - i)
  rw [Nat.zero_add] at h1
  have e : n - i + i = n := by omega
  rw [List.range_eq_range', List.range_eq_range', h1, e]

/-- Counting over the list after a split, through the source map. -/
theorem countP_branchSrc (p : Nat → Bool) (i n : Nat) (hi : i < n) :
    (List.range (n + 1)).countP (fun b => p (branchSrc i b)) =
      (List.range n).countP p + (if p i = true then 1 else 0) := by
  rw [range_split_at (i + 1) (n + 1) (by omega), List.countP_append,
    range_split i n hi, List.countP_append, List.countP_cons]
  have e1 : (List.range (i + 1)).countP (fun b => p (branchSrc i b)) =
      (List.range (i + 1)).countP p := by
    apply countP_same
    intro y hy
    have := List.mem_range.mp hy
    unfold branchSrc
    rw [if_pos (by omega)]
  have e2 : (List.range' (i + 1) (n + 1 - (i + 1))).countP (fun b => p (branchSrc i b)) =
      (List.range' (i + 1) (n + 1 - (i + 1))).countP (fun b => p (b - 1)) := by
    apply countP_same
    intro y hy
    have := List.mem_range'_1.mp hy
    unfold branchSrc
    rw [if_neg (by omega)]
  have e3 : n + 1 - (i + 1) = (n - (i + 1)) + 1 := by omega
  rw [e1, e2, countP_shift_down, e3]
  have e4 : List.range' i (n - (i + 1) + 1) = i :: List.range' (i + 1) (n - (i + 1)) := rfl
  rw [e4, List.countP_cons, range_split_at i (i + 1) (by omega), List.countP_append]
  have e5 : i + 1 - i = 1 := by omega
  rw [e5]
  simp only [List.range', List.countP_cons, List.countP_nil]
  omega

/-- Counting over the list after a removal, through the source map. -/
theorem countP_leafSrc (p : Nat → Bool) (i n : Nat) (hi : i < n) :
    (List.range (n - 1)).countP (fun b => p (leafSrc i b)) + (if p i = true then 1 else 0) =
      (List.range n).countP p := by
  rw [range_split_at i (n - 1) (by omega), List.countP_append,
    range_split i n hi, List.countP_append, List.countP_cons]
  have e1 : (List.range i).countP (fun b => p (leafSrc i b)) = (List.range i).countP p := by
    apply countP_same
    intro y hy
    have := List.mem_range.mp hy
    unfold leafSrc
    rw [if_pos (by omega)]
  have e2 : (List.range' i (n - 1 - i)).countP (fun b => p (leafSrc i b)) =
      (List.range' i (n - 1 - i)).countP (fun b => p (b + 1)) := by
    apply countP_same
    intro y hy
    have := List.mem_range'_1.mp hy
    unfold leafSrc
    rw [if_neg (by omega)]
  have e3 : n - 1 - i = n - (i + 1) := by omega
  rw [e1, e2, countP_shift_up, e3]
  omega

section BranchInv

variable {cfg : Config} {s : State} {i : Nat}

theorem branchStep_rels_eq (s : State) (i : Nat) :
    (branchStep s i).relations =
      (List.range' (i + 2) (s.ntypes + 1 - (i + 2))).foldl
        (fun r k => if related (branchStep s i) i k = true then incr r k else r)
        ((List.range' 0 i).foldl
          (fun r k => if related (branchStep s i) k i = true then incr r k else r)
          ((List.range' (i + 1) (s.ntypes - i)).reverse.foldl
            (fun (r : List Int) j => r.set j (r.getD (j - 1) 0)) s.relations)) := by
  have e2 : ((List.range' (i + 1) (s.ntypes - i)).reverse.foldl
      (fun (tr : List (List Nat) × List Int) j =>
        (putc (tr.1.set j (strcpy (tr.1.getD j []) (tr.1.getD (j - 1) []))) j s.length chR,
          tr.2.set j (tr.2.getD (j - 1) 0)))
      (s.types, s.relations)).2 =
      (List.range' (i + 1) (s.ntypes - i)).reverse.foldl
        (fun (r : List Int) j => r.set j (r.getD (j - 1) 0)) s.relations :=
    congrArg Prod.snd (foldl_pair
      (fun (t : List (List Nat)) j =>
        putc (t.set j (strcpy (t.getD j []) (t.getD (j - 1) []))) j s.length chR)
      (fun (r : List Int) j => r.set j (r.getD (j - 1) 0))
      (List.range' (i + 1) (s.ntypes - i)).reverse s.types s.relations)
  rw [← e2]
  rfl

theorem branchStep_twin (hI : Inv cfg s) (hL : s.length < MAXLENGTH cfg)
    (hi : i < s.ntypes) (hn : s.ntypes < MAXTYPES cfg) :
    ltlex (tyrow (branchStep s i) i) (tyrow (branchStep s i) (i + 1)) = true ∧
    prec (tyrow (branchStep s i) i) (tyrow (branchStep s i) (i + 1)) = false ∧
    perp (tyrow (branchStep s i) i) (tyrow (branchStep s i) (i + 1)) = false := by
  have hC := branchStep_column hI hL hi hn
  have hnt : (branchStep s i).ntypes = s.ntypes + 1 := rfl
  have h1 : i < (branchStep s i).ntypes := by rw [hnt]; omega
  have h2 : i + 1 < (branchStep s i).ntypes := by rw [hnt]; omega
  have w1 : word (branchStep s i) i = word s i ++ [chO] := by
    rw [col_word hI hL hC h1]
    unfold branchSrc branchCol
    rw [if_pos (Nat.le_refl _), if_pos (Nat.le_refl _)]
  have w2 : word (branchStep s i) (i + 1) = word s i ++ [chR] := by
    rw [col_word hI hL hC h2]
    unfold branchSrc branchCol
    rw [if_neg (by omega), if_neg (by omega)]
    rfl
  have nw := inv_word_noNul hI hi
  have n1 : NoNul (word s i ++ [chO]) :=
    noNul_append.mpr ⟨nw, by intro c hc; simp at hc; rw [hc]; decide⟩
  have n2 : NoNul (word s i ++ [chR]) :=
    noNul_append.mpr ⟨nw, by intro c hc; simp at hc; rw [hc]; decide⟩
  refine ⟨?_, ?_, ?_⟩
  · rw [ltlex_cstr, col_cstr hI hL hC h1, col_cstr hI hL hC h2, w1, w2,
      ltlex_snoc_self _ _ _ nw (by decide) (by decide)]
    decide
  · rw [prec_cstr, col_cstr hI hL hC h1, col_cstr hI hL hC h2, w1, w2,
      prec_snoc _ _ _ _ nw nw rfl (by decide) (by decide), prec_self, hasLt_self]
    decide
  · rw [perp_cstr, col_cstr hI hL hC h1, col_cstr hI hL hC h2, w1, w2, perp_eq _ _ n1 n2,
      hasLt_snoc _ _ _ _ rfl, hasLt_snoc _ _ _ _ rfl, hasLt_self]
    decide

theorem branchSrc_mono (i : Nat) {a b : Nat} (hab : a < b) :
    branchSrc i a ≤ branchSrc i b ∧ branchCol i a ≤ branchCol i b := by
  unfold branchSrc branchCol
  have : chO ≤ chR := by decide
  split_ifs <;> omega

theorem branchSrc_eq (i : Nat) {a b : Nat} (hab : a < b)
    (h : branchSrc i a = branchSrc i b) : a = i ∧ b = i + 1 := by
  unfold branchSrc at h
  split_ifs at h <;> omega

theorem branchStep_symRel (hI : Inv cfg s) (hL : s.length < MAXLENGTH cfg)
    (hi : i < s.ntypes) (hn : s.ntypes < MAXTYPES cfg) {a b : Nat}
    (ha : a < s.ntypes + 1) (hb : b < s.ntypes + 1) :
    symRel (branchStep s i) a b = symRel s (branchSrc i a) (branchSrc i b) := by
  have hC := branchStep_column hI hL hi hn
  apply col_symRel_mono hI hL hC
  · intro k
    unfold branchCol
    split_ifs <;> decide
  · intro a b hab _
    exact branchSrc_mono i hab
  · intro a b hab _ he
    obtain ⟨rfl, rfl⟩ := branchSrc_eq i hab he
    obtain ⟨_, t2, t3⟩ := branchStep_twin hI hL hi hn
    unfold related
    rw [t2, t3]
    rfl
  · exact ha
  · exact hb

theorem branchStep_relCount (hI : Inv cfg s) (hL : s.length < MAXLENGTH cfg)
    (hi : i < s.ntypes) (hn : s.ntypes < MAXTYPES cfg) {k : Nat} (hk : k < s.ntypes + 1) :
    relCount (branchStep s i) k =
      relCount s (branchSrc i k) + (if symRel s (branchSrc i k) i = true then 1 else 0) := by
  have hnt : (branchStep s i).ntypes = s.ntypes + 1 := rfl
  have hsk : branchSrc i k < s.ntypes := by
    unfold branchSrc; split_ifs <;> omega
  rw [relCount_eq_sym _ (by rw [hnt]; exact hk), hnt, relCount_eq_sym s hsk,
    ← countP_branchSrc (symRel s (branchSrc i k)) i s.ntypes hi]
  apply countP_same
  intro b hb
  exact branchStep_symRel hI hL hi hn hk (List.mem_range.mp hb)

theorem branchStep_rels (hI : Inv cfg s) (hL : s.length < MAXLENGTH cfg)
    (hi : i < s.ntypes) (hn : s.ntypes < MAXTYPES cfg) :
    (branchStep s i).relations.length = s.relations.length ∧
    ∀ k, k < s.ntypes + 1 → (branchStep s i).relations.getD k 0 =
      s.relations.getD (branchSrc i k) 0
        + (if symRel s (branchSrc i k) i = true then 1 else 0) := by
  obtain ⟨l1, f1⟩ := branchShift_rels hI hi hn
  obtain ⟨l2, f2⟩ := condIncrLoop (fun k => related (branchStep s i) k i) i 0
    ((List.range' (i + 1) (s.ntypes - i)).reverse.foldl
      (fun (r : List Int) j => r.set j (r.getD (j - 1) 0)) s.relations)
  obtain ⟨l3, f3⟩ := condIncrLoop (fun k => related (branchStep s i) i k)
    (s.ntypes + 1 - (i + 2)) (i + 2)
    ((List.range' 0 i).foldl
      (fun r k => if related (branchStep s i) k i = true then incr r k else r)
      ((List.range' (i + 1) (s.ntypes - i)).reverse.foldl
        (fun (r : List Int) j => r.set j (r.getD (j - 1) 0)) s.relations))
  have hlen : s.relations.length = MAXTYPES cfg := hI.rel_len
  have hC := branchStep_column hI hL hi hn
  have hnt : (branchStep s i).ntypes = s.ntypes + 1 := rfl
  have hnoL : ∀ k, branchCol i k ≠ chL := by
    intro k; unfold branchCol; split_ifs <;> decide
  refine ⟨by rw [branchStep_rels_eq, l3, l2, l1], fun k hk => ?_⟩
  rw [branchStep_rels_eq, f3 k, l2, l1, f2 k, l1, f1 k]
  by_cases c1 : k < i
  · have hs : branchSrc i k = k := by unfold branchSrc; rw [if_pos (by omega)]
    have r1 : related (branchStep s i) k i = related s k i := by
      have := col_related_mono hI hL hC hnoL (a := k) (b := i) (by rw [hnt]; omega)
        (by rw [hnt]; omega)
        (by unfold branchSrc; rw [if_pos (by omega), if_pos (by omega)]; exact c1)
        (branchSrc_mono i c1).2
      rw [this]
      unfold branchSrc
      rw [if_pos (by omega), if_pos (by omega)]
    have h1 : ¬ (i + 1 ≤ k ∧ k < s.ntypes + 1) := by omega
    have h3 : ¬ (i + 2 ≤ k ∧ k < i + 2 + (s.ntypes + 1 - (i + 2)) ∧ k < s.relations.length ∧
        related (branchStep s i) i k = true) := by omega
    rw [hs, if_neg h1, if_neg h3, symRel_lt s c1, ← r1]
    by_cases hr : related (branchStep s i) k i = true
    · have h2 : 0 ≤ k ∧ k < 0 + i ∧ k < s.relations.length ∧
          related (branchStep s i) k i = true := ⟨by omega, by omega, by omega, hr⟩
      rw [if_pos h2, if_pos hr]; ring
    · have h2 : ¬ (0 ≤ k ∧ k < 0 + i ∧ k < s.relations.length ∧
          related (branchStep s i) k i = true) := fun h => hr h.2.2.2
      rw [if_neg h2, if_neg hr]; ring
  · have h2 : ¬ (0 ≤ k ∧ k < 0 + i ∧ k < s.relations.length ∧
        related (branchStep s i) k i = true) := by omega
    rw [if_neg h2]
    by_cases c2 : k = i
    · have hs : branchSrc i k = i := by unfold branchSrc; rw [if_pos (by omega)]; exact c2
      have h1 : ¬ (i + 1 ≤ k ∧ k < s.ntypes + 1) := by omega
      have h3 : ¬ (i + 2 ≤ k ∧ k < i + 2 + (s.ntypes + 1 - (i + 2)) ∧
          k < s.relations.length ∧ related (branchStep s i) i k = true) := by omega
      rw [hs, if_neg h1, if_neg h3, symRel_self, if_neg (by decide), c2]
      ring
    · by_cases c3 : k = i + 1
      · have hs : branchSrc i k = i := by unfold branchSrc; rw [if_neg (by omega)]; omega
        have h1 : i + 1 ≤ k ∧ k < s.ntypes + 1 := by omega
        have h3 : ¬ (i + 2 ≤ k ∧ k < i + 2 + (s.ntypes + 1 - (i + 2)) ∧
            k < s.relations.length ∧ related (branchStep s i) i k = true) := by omega
        have e : k - 1 = i := by omega
        rw [hs, if_pos h1, if_neg h3, symRel_self, if_neg (by decide), e]
        ring
      · have hk2 : i + 2 ≤ k := by omega
        have hs : branchSrc i k = k - 1 := by unfold branchSrc; rw [if_neg (by omega)]
        have r1 : related (branchStep s i) i k = related s i (k - 1) := by
          have := col_related_mono hI hL hC hnoL (a := i) (b := k) (by rw [hnt]; omega)
            (by rw [hnt]; omega)
            (by unfold branchSrc; rw [if_pos (by omega), if_neg (by omega)]; omega)
            (branchSrc_mono i (by omega)).2
          rw [this]
          unfold branchSrc
          rw [if_pos (by omega), if_neg (by omega)]
        have h1 : i + 1 ≤ k ∧ k < s.ntypes + 1 := by omega
        rw [hs, if_pos h1, symRel_comm, symRel_lt s (show i < k - 1 by omega), ← r1]
        by_cases hr : related (branchStep s i) i k = true
        · have h3 : i + 2 ≤ k ∧ k < i + 2 + (s.ntypes + 1 - (i + 2)) ∧
              k < s.relations.length ∧ related (branchStep s i) i k = true :=
            ⟨by omega, by omega, by omega, hr⟩
          rw [if_pos h3, if_pos hr]; ring
        · have h3 : ¬ (i + 2 ≤ k ∧ k < i + 2 + (s.ntypes + 1 - (i + 2)) ∧
              k < s.relations.length ∧ related (branchStep s i) i k = true) :=
            fun h => hr h.2.2.2
          rw [if_neg h3, if_neg hr]; ring

theorem inv_branchStep (hI : Inv cfg s) (hL : s.length < MAXLENGTH cfg)
    (hi : i < s.ntypes) (hn : s.ntypes < MAXTYPES cfg)
    (htot : s.ntypes + s.nleafs < cfg.MAXLEAFS) : Inv cfg (branchStep s i) := by
  have hC := branchStep_column hI hL hi hn
  have hnt : (branchStep s i).ntypes = s.ntypes + 1 := rfl
  have hlev : (branchStep s i).lev = s.lev.set s.length chb := rfl
  have hnl : (branchStep s i).nleafs = s.nleafs := rfl
  have hleafs : (branchStep s i).leafs = s.leafs := rfl
  have hlen := hC.length_eq
  obtain ⟨rl, rf⟩ := branchStep_rels hI hL hi hn
  obtain ⟨t1, t2, t3⟩ := branchStep_twin hI hL hi hn
  have hnoL : ∀ k, branchCol i k ≠ chL := by
    intro k; unfold branchCol; split_ifs <;> decide
  exact
    { lev_len := by rw [hlev, List.length_set]; exact hI.lev_len
      lev_zero := by
        intro p hp
        rw [hlev, getD_set, if_neg (by omega)]
        exact hI.lev_zero p (by omega)
      lev_tag := by
        intro p hp
        rw [hlev, getD_set]
        by_cases e : p = s.length
        · rw [if_pos ⟨e, by rw [hI.lev_len]; exact hL⟩]; exact Or.inl rfl
        · rw [if_neg (fun h => e h.1)]
          exact hI.lev_tag p (by omega)
      types_len := by rw [hC.types_len]; exact hI.types_len
      row_len := col_row_len hI hC
      row_zero := col_row_zero hI hC
      row_abc := col_row_abc hI hL hC
      rel_len := by rw [rl]; exact hI.rel_len
      leafs_len := by rw [hleafs]; exact hI.leafs_len
      nt_pos := by rw [hnt]; omega
      nt_le := by rw [hnt]; omega
      tot_le := by rw [hnt, hnl]; omega
      len_le := by omega
      sorted := by
        intro k hk
        rw [hnt] at hk
        by_cases e : k = i
        · rw [e]; exact t1
        · apply col_ltlex hI hL hC (by rw [hnt]; omega) (by rw [hnt]; exact hk)
          unfold branchSrc
          split_ifs <;> omega
      excl := by
        intro a b hab hb
        rw [hnt] at hb
        by_cases e : branchSrc i a = branchSrc i b
        · obtain ⟨rfl, rfl⟩ := branchSrc_eq i hab e
          rw [t2]
          simp
        · have hm := branchSrc_mono i hab
          have hlt : branchSrc i a < branchSrc i b := by omega
          rw [col_prec_mono hI hL hC hnoL (by rw [hnt]; omega) (by rw [hnt]; exact hb) hlt,
            col_perp_mono hI hL hC (by rw [hnt]; omega) (by rw [hnt]; exact hb) hlt hm.2]
          exact hI.excl _ _ hlt (hC.src_lt b (by rw [hnt]; exact hb))
      rel_ok := by
        intro k hk
        rw [hnt] at hk
        have hsk : branchSrc i k < s.ntypes := hC.src_lt k (by rw [hnt]; exact hk)
        rw [rf k hk, branchStep_relCount hI hL hi hn hk, hI.rel_ok _ hsk]
        split_ifs <;> simp
      leaf_len := by
        intro k hk
        rw [hnl] at hk
        have := hI.leaf_len k hk
        unfold leafrow at this ⊢
        rw [hleafs]
        omega }

end BranchInv

/-! ## The leaf move -/

theorem strlen_strcpy (dst src : List Nat) : strlen (strcpy dst src) = strlen src := by
  unfold strcpy
  rw [strlen_eq_length_cstr, cstr_append_nul _ _ (cstr_noNul src), ← strlen_eq_length_cstr]

theorem cstr_strcpy (dst src : List Nat) : cstr (strcpy dst src) = cstr src := by
  unfold strcpy
  rw [cstr_append_nul _ _ (cstr_noNul src)]

/-- The two loops of `doleaf` act on `types` and `relations` separately. -/
theorem leafShift_pair (s : State) (i : Nat) :
    ((List.range' i (s.ntypes - 1 - i)).foldl
      (fun (tr : List (List Nat) × List Int) k =>
        (putc (tr.1.set k (strcpy (tr.1.getD k []) (tr.1.getD (k + 1) []))) k s.length chO,
          tr.2.set k (tr.2.getD (k + 1) 0 - 1)))
      ((List.range' 0 i).foldl
        (fun (tr : List (List Nat) × List Int) k => (putc tr.1 k s.length chO, decr tr.2 k))
        (s.types, s.relations))) =
    ((List.range' i (s.ntypes - 1 - i)).foldl
        (fun t k => putc (t.set k (strcpy (t.getD k []) (t.getD (k + 1) []))) k s.length chO)
        ((List.range' 0 i).foldl (fun t k => putc t k s.length chO) s.types),
      (List.range' i (s.ntypes - 1 - i)).foldl
        (fun (r : List Int) k => r.set k (r.getD (k + 1) 0 - 1))
        ((List.range' 0 i).foldl (fun (r : List Int) k => r.set k (r.getD k 0 - 1))
          s.relations)) := by
  have e1 : (List.range' 0 i).foldl
      (fun (tr : List (List Nat) × List Int) k => (putc tr.1 k s.length chO, decr tr.2 k))
      (s.types, s.relations) =
      ((List.range' 0 i).foldl (fun t k => putc t k s.length chO) s.types,
        (List.range' 0 i).foldl (fun (r : List Int) k => r.set k (r.getD k 0 - 1))
          s.relations) :=
    foldl_pair (fun (t : List (List Nat)) k => putc t k s.length chO)
      (fun (r : List Int) k => decr r k) (List.range' 0 i) s.types s.relations
  rw [e1]
  exact foldl_pair
    (fun (t : List (List Nat)) k =>
      putc (t.set k (strcpy (t.getD k []) (t.getD (k + 1) []))) k s.length chO)
    (fun (r : List Int) k => r.set k (r.getD (k + 1) 0 - 1))
    (List.range' i (s.ntypes - 1 - i)) _ _

section Leaf

variable {cfg : Config} {s : State} {i : Nat}

theorem leafStep_types (hI : Inv cfg s) (hL : s.length < MAXLENGTH cfg) (hi : i < s.ntypes) :
    (leafStep s i).types.length = s.types.length ∧
    ∀ m, tyrow (leafStep s i) m =
      if m < s.ntypes - 1 then (tyrow s (leafSrc i m)).set s.length chO else tyrow s m := by
  have hlen : s.types.length = MAXTYPES cfg := hI.types_len
  have hnle := hI.nt_le
  obtain ⟨l1, f1⟩ := putcLoop_const s.length chO i 0 s.types
  have hf : (fun (t : List (List Nat)) k =>
      putc (t.set k (strcpy (t.getD k []) (t.getD (k + 1) []))) k s.length chO) =
      (fun t k => t.set k ((strcpy (t.getD k []) (t.getD (k + 1) [])).set s.length chO)) := by
    funext t k
    exact putc_set_self t k s.length chO _
  obtain ⟨l2, f2⟩ := setLoop ([] : List Nat)
    (fun t k => (strcpy (t.getD k []) (t.getD (k + 1) [])).set s.length chO)
    (fun k => (tyrow s (k + 1)).set s.length chO) (s.ntypes - 1 - i) i
    ((List.range' 0 i).foldl (fun t k => putc t k s.length chO) s.types) (by
      intro k hk1 hk2 t _ hm
      show (strcpy (t.getD k []) (t.getD (k + 1) [])).set s.length chO = _
      rw [hm k (Or.inr (Nat.le_refl _)), hm (k + 1) (Or.inr (by omega)), f1 k, f1 (k + 1),
        if_neg (by omega), if_neg (by omega)]
      have hk1' : k + 1 < s.ntypes := by omega
      have := strcpy_clean (tyrow s k) (tyrow s (k + 1)) s.length
        (by rw [inv_row_len hI (by omega), inv_row_len hI hk1'])
        (by rw [inv_row_len hI hk1']; omega)
        (fun p hp => inv_row_ne hI hk1' hp)
        (fun p hp => hI.row_zero _ p hp) (fun p hp => hI.row_zero _ p hp)
      unfold tyrow at this ⊢
      rw [this])
  have e : (leafStep s i).types =
      (List.range' i (s.ntypes - 1 - i)).foldl
        (fun t k => t.set k ((strcpy (t.getD k []) (t.getD (k + 1) [])).set s.length chO))
        ((List.range' 0 i).foldl (fun t k => putc t k s.length chO) s.types) := by
    rw [← hf]
    exact congrArg Prod.fst (leafShift_pair s i)
  refine ⟨by rw [e, l2, l1], fun m => ?_⟩
  unfold tyrow
  rw [e, f2 m, l1, f1 m]
  by_cases c1 : m < i
  · have h1 : ¬ (i ≤ m ∧ m < i + (s.ntypes - 1 - i) ∧ m < s.types.length) := by omega
    have h2 : 0 ≤ m ∧ m < 0 + i ∧ m < s.types.length := by omega
    have hs : leafSrc i m = m := by unfold leafSrc; rw [if_pos c1]
    rw [if_neg h1, if_pos h2, if_pos (show m < s.ntypes - 1 by omega), hs]
  · have h2 : ¬ (0 ≤ m ∧ m < 0 + i ∧ m < s.types.length) := by omega
    by_cases c2 : m < s.ntypes - 1
    · have h1 : i ≤ m ∧ m < i + (s.ntypes - 1 - i) ∧ m < s.types.length := by omega
      have hs : leafSrc i m = m + 1 := by unfold leafSrc; rw [if_neg c1]
      rw [if_pos h1, if_pos c2, hs]
      rfl
    · have h1 : ¬ (i ≤ m ∧ m < i + (s.ntypes - 1 - i) ∧ m < s.types.length) := by omega
      rw [if_neg h1, if_neg h2, if_neg c2]

theorem leafStep_rels (hI : Inv cfg s) (hi : i < s.ntypes) :
    (leafStep s i).relations.length = s.relations.length ∧
    ∀ m, m < s.ntypes - 1 →
      (leafStep s i).relations.getD m 0 = s.relations.getD (leafSrc i m) 0 - 1 := by
  have hlen : s.relations.length = MAXTYPES cfg := hI.rel_len
  have hnle := hI.nt_le
  obtain ⟨l1, f1⟩ := setLoop (0 : Int) (fun r k => r.getD k 0 - 1)
    (fun k => s.relations.getD k 0 - 1) i 0 s.relations (by
      intro k _ _ t _ hm
      show t.getD k 0 - 1 = _
      rw [hm k (Or.inr (Nat.le_refl _))])
  obtain ⟨l2, f2⟩ := setLoop (0 : Int) (fun r k => r.getD (k + 1) 0 - 1)
    (fun k => s.relations.getD (k + 1) 0 - 1) (s.ntypes - 1 - i) i
    ((List.range' 0 i).foldl (fun (r : List Int) k => r.set k (r.getD k 0 - 1)) s.relations)
    (by
      intro k hk1 hk2 t _ hm
      show t.getD (k + 1) 0 - 1 = _
      rw [hm (k + 1) (Or.inr (by omega)), f1 (k + 1), if_neg (by omega)])
  have e : (leafStep s i).relations =
      (List.range' i (s.ntypes - 1 - i)).foldl
        (fun (r : List Int) k => r.set k (r.getD (k + 1) 0 - 1))
        ((List.range' 0 i).foldl (fun (r : List Int) k => r.set k (r.getD k 0 - 1))
          s.relations) := by
    exact congrArg Prod.snd (leafShift_pair s i)
  refine ⟨by rw [e, l2, l1], fun m hm => ?_⟩
  rw [e, f2 m, l1, f1 m]
  by_cases c1 : m < i
  · have h1 : ¬ (i ≤ m ∧ m < i + (s.ntypes - 1 - i) ∧ m < s.relations.length) := by omega
    have h2 : 0 ≤ m ∧ m < 0 + i ∧ m < s.relations.length := by omega
    have hs : leafSrc i m = m := by unfold leafSrc; rw [if_pos c1]
    rw [if_neg h1, if_pos h2, hs]
  · have h1 : i ≤ m ∧ m < i + (s.ntypes - 1 - i) ∧ m < s.relations.length := by omega
    have hs : leafSrc i m = m + 1 := by unfold leafSrc; rw [if_neg c1]
    rw [if_pos h1, hs]

theorem leafStep_column (hI : Inv cfg s) (hL : s.length < MAXLENGTH cfg) (hi : i < s.ntypes) :
    Column s (leafStep s i) (leafSrc i) (fun _ => chO) := by
  obtain ⟨l, f⟩ := leafStep_types hI hL hi
  have hnt : (leafStep s i).ntypes = s.ntypes - 1 := rfl
  exact
    { length_eq := rfl
      types_len := l
      row_active := fun k hk => by rw [f k, if_pos (by rw [hnt] at hk; exact hk)]
      src_lt := fun k hk => by
        rw [hnt] at hk
        unfold leafSrc
        split_ifs <;> omega
      col_abc := fun _ _ => Or.inr (Or.inl rfl)
      row_stale := fun k hk => by rw [f k, if_neg (by rw [hnt] at hk; omega)] }

theorem leafSrc_lt (i : Nat) {a b : Nat} (hab : a < b) : leafSrc i a < leafSrc i b := by
  unfold leafSrc
  split_ifs <;> omega

theorem leafSrc_ne (i k : Nat) : leafSrc i k ≠ i := by
  unfold leafSrc
  split_ifs <;> omega

theorem countP_all_of_eq (p : Nat → Bool) (l : List Nat) (h : l.countP p = l.length) :
    ∀ x ∈ l, p x = true := by
  have := List.countP_eq_length.mp h
  exact this

/-- A type whose relation count is `ntypes - 1` is related to every other
active type. -/
theorem all_related (hI : Inv cfg s) (hi : i < s.ntypes)
    (hfull : s.relations.getD i 0 = (s.ntypes : Int) - 1) :
    ∀ x, x < s.ntypes → x ≠ i → symRel s x i = true := by
  have h1 : (relCount s i : Int) = (s.ntypes : Int) - 1 := by
    rw [← hI.rel_ok i hi]; exact hfull
  have h2 : relCount s i = s.ntypes - 1 := by omega
  unfold relCount at h2
  have b1 := List.countP_le_length (fun j => related s j i) (l := List.range i)
  have b2 := List.countP_le_length (fun j => related s i j)
    (l := List.range' (i + 1) (s.ntypes - (i + 1)))
  rw [List.length_range] at b1
  rw [List.length_range'] at b2
  have a1 := countP_all_of_eq (fun j => related s j i) (List.range i) (by
    rw [List.length_range]; omega)
  have a2 := countP_all_of_eq (fun j => related s i j)
    (List.range' (i + 1) (s.ntypes - (i + 1))) (by rw [List.length_range']; omega)
  intro x hx hxi
  by_cases c : x < i
  · rw [symRel_lt s c]
    exact a1 x (List.mem_range.mpr c)
  · rw [symRel_comm, symRel_lt s (show i < x by omega)]
    exact a2 x ((mem_after hi).mpr ⟨by omega, hx⟩)

theorem leafStep_relCount (hI : Inv cfg s) (hL : s.length < MAXLENGTH cfg)
    (hi : i < s.ntypes) (hfull : s.relations.getD i 0 = (s.ntypes : Int) - 1)
    {k : Nat} (hk : k < s.ntypes - 1) :
    relCount (leafStep s i) k + 1 = relCount s (leafSrc i k) := by
  have hC := leafStep_column hI hL hi
  have hnt : (leafStep s i).ntypes = s.ntypes - 1 := rfl
  have hsk : leafSrc i k < s.ntypes := hC.src_lt k (by rw [hnt]; exact hk)
  rw [relCount_eq_sym _ (by rw [hnt]; exact hk), hnt, relCount_eq_sym s hsk,
    ← countP_leafSrc (symRel s (leafSrc i k)) i s.ntypes hi,
    all_related hI hi hfull _ hsk (leafSrc_ne i k), if_pos rfl]
  congr 1
  apply countP_same
  intro b hb
  have hb' := List.mem_range.mp hb
  apply col_symRel_mono hI hL hC
  · intro _
    show chO ≠ chL
    decide
  · intro a b hab _
    exact ⟨Nat.le_of_lt (leafSrc_lt i hab), Nat.le_refl _⟩
  · intro a b hab _ he
    have := leafSrc_lt i hab
    omega
  · rw [hnt]; exact hk
  · rw [hnt]; exact hb'

theorem inv_leafStep (hI : Inv cfg s) (hL : s.length < MAXLENGTH cfg) (hi : i < s.ntypes)
    (hfull : s.relations.getD i 0 = (s.ntypes : Int) - 1) (hn1 : s.ntypes ≠ 1) :
    Inv cfg (leafStep s i) := by
  have hC := leafStep_column hI hL hi
  have hnt : (leafStep s i).ntypes = s.ntypes - 1 := rfl
  have hlev : (leafStep s i).lev = s.lev.set s.length chl := rfl
  have hnls : (leafStep s i).nleafs = s.nleafs + 1 := rfl
  have hleafs : (leafStep s i).leafs =
      s.leafs.set s.nleafs (strcpy (leafrow s s.nleafs) (tyrow s i)) := rfl
  have hlen := hC.length_eq
  have hpos := hI.nt_pos
  have htot := hI.tot_le
  obtain ⟨rl, rf⟩ := leafStep_rels hI hi
  have hnoL : ∀ k : Nat, (fun _ : Nat => chO) k ≠ chL := fun _ => by
    show chO ≠ chL
    decide
  exact
    { lev_len := by rw [hlev, List.length_set]; exact hI.lev_len
      lev_zero := by
        intro p hp
        rw [hlev, getD_set, if_neg (by omega)]
        exact hI.lev_zero p (by omega)
      lev_tag := by
        intro p hp
        rw [hlev, getD_set]
        by_cases e : p = s.length
        · rw [if_pos ⟨e, by rw [hI.lev_len]; exact hL⟩]; exact Or.inr (Or.inl rfl)
        · rw [if_neg (fun h => e h.1)]
          exact hI.lev_tag p (by omega)
      types_len := by rw [hC.types_len]; exact hI.types_len
      row_len := col_row_len hI hC
      row_zero := col_row_zero hI hC
      row_abc := col_row_abc hI hL hC
      rel_len := by rw [rl]; exact hI.rel_len
      leafs_len := by rw [hleafs, List.length_set]; exact hI.leafs_len
      nt_pos := by rw [hnt]; omega
      nt_le := by rw [hnt]; have := hI.nt_le; omega
      tot_le := by rw [hnt, hnls]; omega
      len_le := by omega
      sorted := by
        intro k hk
        rw [hnt] at hk
        exact col_ltlex hI hL hC (by rw [hnt]; omega) (by rw [hnt]; exact hk)
          (leafSrc_lt i (by omega))
      excl := by
        intro a b hab hb
        rw [hnt] at hb
        have hlt := leafSrc_lt i hab
        rw [col_prec_mono hI hL hC hnoL (by rw [hnt]; omega) (by rw [hnt]; exact hb) hlt,
          col_perp_mono hI hL hC (by rw [hnt]; omega) (by rw [hnt]; exact hb) hlt
            (Nat.le_refl _)]
        exact hI.excl _ _ hlt (hC.src_lt b (by rw [hnt]; exact hb))
      rel_ok := by
        intro k hk
        rw [hnt] at hk
        have hsk : leafSrc i k < s.ntypes := hC.src_lt k (by rw [hnt]; exact hk)
        have := leafStep_relCount hI hL hi hfull hk
        rw [rf k hk, hI.rel_ok _ hsk, ← this]
        push_cast; ring
      leaf_len := by
        intro k hk
        rw [hnls] at hk
        unfold leafrow
        rw [hleafs, getD_set]
        by_cases e : k = s.nleafs
        · rw [if_pos ⟨e, by rw [hI.leafs_len]; omega⟩, strlen_strcpy, inv_strlen hI hi]
          omega
        · rw [if_neg (fun h => e h.1)]
          have := hI.leaf_len k (by omega)
          unfold leafrow at this
          omega }

end Leaf

/-! ## The invariant holds in every reachable state -/

theorem same_eq {s t : State} (h : SameShared s t) : t = { s with leafs := t.leafs } := by
  obtain ⟨h1, h2, h3, h4, h5, h6, _, _⟩ := h
  cases t
  cases s
  simp only at h1 h2 h3 h4 h5 h6
  subst h1 h2 h3 h4 h5 h6
  rfl

theorem same_refl (s : State) : SameShared s s :=
  ⟨rfl, rfl, rfl, rfl, rfl, rfl, rfl, fun _ _ => rfl⟩

theorem same_trans {s t u : State} (h1 : SameShared s t) (h2 : SameShared t u) :
    SameShared s u := by
  obtain ⟨a1, a2, a3, a4, a5, a6, a7, a8⟩ := h1
  obtain ⟨b1, b2, b3, b4, b5, b6, b7, b8⟩ := h2
  exact ⟨b1.trans a1, b2.trans a2, b3.trans a3, b4.trans a4, b5.trans a5, b6.trans a6,
    b7.trans a7, fun k hk => (b8 k (by rw [a6]; exact hk)).trans (a8 k hk)⟩

theorem inv_same {cfg : Config} {s t : State} (hI : Inv cfg s) (h : SameShared s t) :
    Inv cfg t := by
  have e := same_eq h
  obtain ⟨_, _, _, _, _, h6, h7, h8⟩ := h
  have hty : ∀ k, tyrow t k = tyrow s k := by
    intro k; rw [e]; rfl
  have hrc : ∀ k, relCount t k = relCount s k := by
    intro k; rw [e]; rfl
  have hlev : t.lev = s.lev := by rw [e]
  have hlen : t.length = s.length := by rw [e]
  have hnt : t.ntypes = s.ntypes := by rw [e]
  have hrel : t.relations = s.relations := by rw [e]
  have htl : t.types.length = s.types.length := by rw [e]
  exact
    { lev_len := by rw [hlev]; exact hI.lev_len
      lev_zero := by rw [hlev, hlen]; exact hI.lev_zero
      lev_tag := by rw [hlev, hlen]; exact hI.lev_tag
      types_len := by rw [htl]; exact hI.types_len
      row_len := by intro k hk; rw [hty]; exact hI.row_len k hk
      row_zero := by intro k p hp; rw [hty]; rw [hlen] at hp; exact hI.row_zero k p hp
      row_abc := by
        intro k p hk hp
        rw [hty]; rw [hnt] at hk; rw [hlen] at hp
        exact hI.row_abc k p hk hp
      rel_len := by rw [hrel]; exact hI.rel_len
      leafs_len := by rw [h7]; exact hI.leafs_len
      nt_pos := by rw [hnt]; exact hI.nt_pos
      nt_le := by rw [hnt]; exact hI.nt_le
      tot_le := by rw [hnt, h6]; exact hI.tot_le
      len_le := by rw [hlen]; exact hI.len_le
      sorted := by
        intro k hk
        rw [hty, hty]; rw [hnt] at hk
        exact hI.sorted k hk
      excl := by
        intro a b hab hb
        rw [hty, hty]; rw [hnt] at hb
        exact hI.excl a b hab hb
      rel_ok := by
        intro k hk
        rw [hrel, hrc]; rw [hnt] at hk
        exact hI.rel_ok k hk
      leaf_len := by
        intro k hk
        rw [h6] at hk
        rw [h8 k hk, hlen]
        exact hI.leaf_len k hk }

theorem getD_replicate_zero (n p : Nat) : (List.replicate n (0 : Nat)).getD p 0 = 0 := by
  simp only [List.getD_eq_getElem?_getD, List.getElem?_replicate]
  split_ifs <;> rfl

theorem inv_seed (cfg : Config) (hM : 1 ≤ cfg.MAXLEAFS) : Inv cfg (seed cfg) := by
  have hty : ∀ k, tyrow (seed cfg) k =
      if k < MAXTYPES cfg then List.replicate (MAXLENGTH cfg + 1) 0 else [] := by
    intro k
    unfold tyrow seed
    simp only [List.getD_eq_getElem?_getD, List.getElem?_replicate]
    split_ifs <;> rfl
  exact
    { lev_len := by simp [seed]
      lev_zero := by
        intro p _
        exact getD_replicate_zero _ _
      lev_tag := by
        intro p hp
        exact absurd hp (Nat.not_lt_zero _)
      types_len := by simp [seed]
      row_len := by
        intro k hk
        rw [hty, if_pos hk, List.length_replicate]
      row_zero := by
        intro k p _
        rw [hty]
        split_ifs
        · exact getD_replicate_zero _ _
        · rfl
      row_abc := by
        intro k p _ hp
        exact absurd hp (Nat.not_lt_zero _)
      rel_len := by simp [seed]
      leafs_len := by simp [seed]
      nt_pos := Nat.le_refl _
      nt_le := hM
      tot_le := hM
      len_le := Nat.zero_le _
      sorted := by
        intro k hk
        exact absurd hk (by show ¬ k + 1 < 1; omega)
      excl := by
        intro a b hab hb
        exact absurd hb (by show ¬ b < 1; omega)
      rel_ok := by
        intro k hk
        have hk0 : k = 0 := by
          have : k < 1 := hk
          omega
        subst hk0
        have h1 : (seed cfg).relations.getD 0 0 = 0 := by
          unfold seed
          simp only [List.getD_eq_getElem?_getD, List.getElem?_replicate]
          split_ifs <;> rfl
        rw [h1]
        rfl
      leaf_len := by
        intro k hk
        exact absurd hk (Nat.not_lt_zero _) }

theorem branchGate_true {cfg : Config} {s : State} (h : branchGate cfg s = .ok true) :
    s.ntypes < MAXTYPES cfg ∧ s.ntypes + s.nleafs < cfg.MAXLEAFS := by
  unfold branchGate at h
  by_cases c : s.ntypes ≥ MAXTYPES cfg ∨ s.ntypes + s.nleafs ≥ cfg.MAXLEAFS
  · rw [if_pos c] at h
    exact absurd h (by simp)
  · omega

/-- Every reachable state satisfies the invariant. -/
theorem reach_inv {cfg : Config} (hM : 1 ≤ cfg.MAXLEAFS) {s : State}
    (h : Reachable cfg s) : Inv cfg s := by
  induction h with
  | seed => exact inv_seed cfg hM
  | leaf s i _ hL _ hi hfull hn1 ih => exact inv_leafStep ih hL hi hfull hn1
  | branch s i _ hL hg hi ih =>
    obtain ⟨h1, h2⟩ := branchGate_true hg
    exact inv_branchStep ih hL hi h1 h2
  | perp s i j _ hL hij hj hU hA ih => exact inv_perpStep ih hL hij hj hU hA
  | prec s i j _ hL hij hj hU hB1 hB2 ih => exact inv_precStep ih hL hij hj hU hB1 hB2
  | stale s t _ hs ih => exact inv_same ih hs

/-! ## The search driver -/

theorem forLoop_inv {σ : Type} (bound : σ → Nat) (body : Nat → σ → Except Fault σ)
    (P : σ → Prop) (lo n : Nat) (hbound : ∀ st, P st → bound st = n)
    (hbody : ∀ i st, P st → lo ≤ i → i < n → ∃ st1, body i st = .ok st1 ∧ P st1) :
    ∀ (f i : Nat) (st : σ), P st → lo ≤ i → n - i < f →
      ∃ st1, forLoop bound body f i st = .ok st1 ∧ P st1 := by
  intro f
  induction f with
  | zero => intro i st _ _ hf; exact absurd hf (Nat.not_lt_zero _)
  | succ f ih =>
    intro i st hP hlo hf
    unfold forLoop
    rw [hbound st hP]
    by_cases c : i < n
    · rw [if_pos c]
      obtain ⟨st1, h1, h2⟩ := hbody i st hP hlo c
      rw [h1]
      exact ih (i + 1) st1 h2 (by omega) (by omega)
    · rw [if_neg c]
      exact ⟨st, rfl, hP⟩

theorem set_set_restore (l : List Nat) (k c : Nat) (h : l.getD k 0 = 0) :
    (l.set k c).set k 0 = l := by
  rw [List.set_set, ← h, set_getD_self]

theorem checked_ok {cfg : Config} {s : State} (hI : Inv cfg s) :
    checked cfg s = .ok (if cfg.analcheck = true then ((precTotal s : Int), (perpTotal s : Int))
      else (0, 0)) := by
  unfold checked
  split_ifs
  · exact counts_ok hI
  · rfl

theorem precTotal_same {s t : State} (h : SameShared s t) : precTotal t = precTotal s := by
  rw [same_eq h]; rfl

theorem perpTotal_same {s t : State} (h : SameShared s t) : perpTotal t = perpTotal s := by
  rw [same_eq h]; rfl


section Driver

variable {cfg : Config}

theorem mem_append_emitted {a b : List Emission} (ha : ∀ e ∈ a, Emitted cfg e)
    (hb : ∀ e ∈ b, Emitted cfg e) : ∀ e ∈ a ++ b, Emitted cfg e := by
  intro e he
  rcases List.mem_append.mp he with h | h
  · exact ha e h
  · exact hb e h

theorem lev_restore {s : State} (hI : Inv cfg s) (c : Nat) :
    (s.lev.set s.length c).set s.length 0 = s.lev :=
  set_set_restore _ _ _ (hI.lev_zero _ (Nat.le_refl _))

theorem doleafBody_ok (hM : 1 ≤ cfg.MAXLEAFS) {s : State} (hR : Reachable cfg s)
    (hL : s.length < MAXLENGTH cfg) (hnl : s.nleafs ≠ cfg.MAXLEAFS)
    {rec : State → Except Fault Run} (hrec : RecOK cfg rec (s.length + 1))
    (i : Nat) (lp : Loop) (hP : LoopOK cfg s lp) (hi : i < s.ntypes) :
    ∃ lp1, doleafBody rec i lp = .ok lp1 ∧ LoopOK cfg s lp1 := by
  obtain ⟨hu, hout, hbk⟩ := hP
  have hRu : Reachable cfg lp.st := Reachable.stale s lp.st hR hu
  have hIu := reach_inv hM hRu
  have hIs := reach_inv hM hR
  obtain ⟨u1, u2, u3, u4, u5, u6, u7, u8⟩ := hu
  have hbt : (if lp.bckup = true then lp.bckuptypes else lp.st.types) = s.types := by
    split_ifs with hb
    · exact (hbk hb).1
    · exact u2
  have hbr : (if lp.bckup = true then lp.bckuprelations else lp.st.relations) =
      s.relations := by
    split_ifs with hb
    · exact (hbk hb).2
    · exact u3
  have hLu : lp.st.length < MAXLENGTH cfg := by rw [u4]; exact hL
  unfold doleafBody
  by_cases c : lp.st.relations.getD i 0 ≠ (lp.st.ntypes : Int) - 1
  · rw [if_pos c]
    exact ⟨lp, rfl, ⟨u1, u2, u3, u4, u5, u6, u7, u8⟩, hout, hbk⟩
  · rw [if_neg c]
    have hfull : lp.st.relations.getD i 0 = (lp.st.ntypes : Int) - 1 := by
      by_contra h; exact c h
    simp only [hbt, hbr]
    by_cases c1 : (leafMark lp.st i).ntypes = 1
    · rw [if_pos c1]
      have hn1 : lp.st.ntypes = 1 := c1
      have hi0 : i = 0 := by rw [← u5, hn1] at hi; omega
      refine ⟨_, rfl, ⟨?_, ?_, ?_, ?_, ?_, ?_, ?_, ?_⟩, ?_, ?_⟩
      · show ((lp.st.lev.set lp.st.length chl).set lp.st.length 0) = s.lev
        rw [lev_restore hIu, u1]
      · exact u2
      · exact u3
      · exact u4
      · exact u5
      · show lp.st.nleafs + 1 - 1 = s.nleafs
        rw [u6]; omega
      · show (lp.st.leafs.set lp.st.nleafs _).length = s.leafs.length
        rw [List.length_set, u7]
      · intro k hk
        show (lp.st.leafs.set lp.st.nleafs _).getD k [] = _
        rw [getD_set, if_neg (by rw [u6]; omega)]
        exact u8 k hk
      · apply mem_append_emitted hout
        intro e he
        have he' : e = print_type (leafMark lp.st i) := by simpa using he
        refine ⟨lp.st, hRu, hLu, hn1, by rw [u6]; exact hnl, ?_, by rw [he', hi0]⟩
        rw [← hi0, hfull, hn1]
        rfl
      · intro _
        exact ⟨rfl, rfl⟩
    · rw [if_neg c1]
      have hn1 : lp.st.ntypes ≠ 1 := c1
      have hR1 : Reachable cfg (leafStep lp.st i) :=
        Reachable.leaf lp.st i hRu hLu (by rw [u6]; exact hnl) (by rw [u5]; exact hi) hfull hn1
      obtain ⟨r, hr, hsame, hro⟩ := hrec (leafStep lp.st i) hR1 (by
        show lp.st.length + 1 = s.length + 1
        rw [u4])
      have hr' : rec (leafShift (leafMark lp.st i) i) = .ok r := hr
      rw [hr']
      obtain ⟨v1, v2, v3, v4, v5, v6, v7, v8⟩ := hsame
      have hpos := hIu.nt_pos
      refine ⟨_, rfl, ⟨?_, ?_, ?_, ?_, ?_, ?_, ?_, ?_⟩, ?_, ?_⟩
      · show (r.st.lev.set (r.st.length - 1) 0) = s.lev
        rw [v1, v4]
        show ((lp.st.lev.set lp.st.length chl).set (lp.st.length + 1 - 1) 0) = s.lev
        rw [Nat.add_sub_cancel, lev_restore hIu, u1]
      · rfl
      · rfl
      · show r.st.length - 1 = s.length
        rw [v4]
        show lp.st.length + 1 - 1 = s.length
        rw [u4]; omega
      · show r.st.ntypes + 1 = s.ntypes
        rw [v5]
        show lp.st.ntypes - 1 + 1 = s.ntypes
        rw [← u5]; omega
      · show r.st.nleafs - 1 = s.nleafs
        rw [v6]
        show lp.st.nleafs + 1 - 1 = s.nleafs
        rw [u6]; omega
      · show r.st.leafs.length = s.leafs.length
        rw [v7]
        show (lp.st.leafs.set lp.st.nleafs _).length = s.leafs.length
        rw [List.length_set, u7]
      · intro k hk
        show r.st.leafs.getD k [] = _
        have := v8 k (by show k < lp.st.nleafs + 1; rw [u6]; omega)
        unfold leafrow at this
        rw [this]
        show (lp.st.leafs.set lp.st.nleafs _).getD k [] = _
        rw [getD_set, if_neg (by rw [u6]; omega)]
        exact u8 k hk
      · exact mem_append_emitted hout hro
      · intro _
        exact ⟨rfl, rfl⟩

theorem doleaf_ok (hM : 1 ≤ cfg.MAXLEAFS) {s : State} (hR : Reachable cfg s)
    (hL : s.length < MAXLENGTH cfg)
    {rec : State → Except Fault Run} (hrec : RecOK cfg rec (s.length + 1)) :
    ∃ r, doleaf cfg rec s = .ok r ∧ SameShared s r.st ∧ ∀ e ∈ r.out, Emitted cfg e := by
  have hIs := reach_inv hM hR
  unfold doleaf
  by_cases c : s.nleafs = cfg.MAXLEAFS ∨ s.ntypes = 0
  · rw [if_pos c]
    exact ⟨_, rfl, same_refl s, fun e he => by cases he⟩
  · rw [if_neg c]
    obtain ⟨lp, h1, h2⟩ := forLoop_inv (fun lp : Loop => lp.st.ntypes) (doleafBody rec)
      (LoopOK cfg s) 0 s.ntypes (fun st hst => hst.1.2.2.2.2.1)
      (fun i st hst _ hi => doleafBody_ok hM hR hL (fun h => c (Or.inl h)) hrec i st hst hi)
      (MAXTYPES cfg + 1) 0
      { st := s, out := [], bckup := false, bckuptypes := [], bckuprelations := [] }
      ⟨same_refl s, fun e he => (by cases he), fun h => (by cases h)⟩ (Nat.le_refl _)
      (by have := hIs.nt_le; omega)
    rw [h1]
    exact ⟨_, rfl, h2.1, h2.2.1⟩

theorem branchGate_ok {s : State} (hI : Inv cfg s) : ∃ b, branchGate cfg s = .ok b := by
  unfold branchGate
  by_cases c : s.ntypes ≥ MAXTYPES cfg ∨ s.ntypes + s.nleafs ≥ cfg.MAXLEAFS
  · rw [if_pos c]
    exact ⟨false, rfl⟩
  · rw [if_neg c, counts_ok hI]
    show ∃ b, (if (s.length : Int) + ((s.ntypes : Int) * ((s.ntypes : Int) - 1))
      - (precTotal s : Int) - (perpTotal s : Int) ≥ (MAXLENGTH cfg : Int)
      then Except.ok false else Except.ok true) = Except.ok b
    split_ifs
    · exact ⟨false, rfl⟩
    · exact ⟨true, rfl⟩

theorem countsRows_congr {s t : State} (hty : ∀ k, tyrow t k = tyrow s k)
    (hlen : t.length = s.length) (hnt : t.ntypes = s.ntypes) (l : List Nat) :
    ∀ acc, countsRows t l acc = countsRows s l acc := by
  have hp : ∀ i, countsPair t i = countsPair s i := by
    intro i
    funext acc j
    unfold countsPair
    rw [hty, hty]
  induction l with
  | nil => intro acc; rfl
  | cons i l ih =>
    intro acc
    unfold countsRows
    rw [hty, hty, hlen, hnt, hp, ih]

theorem branchGate_same {s t : State} (h : SameShared s t) :
    branchGate cfg t = branchGate cfg s := by
  have e := same_eq h
  have hty : ∀ k, tyrow t k = tyrow s k := by
    intro k; rw [e]; rfl
  obtain ⟨_, _, h3, h4, h5, h6, _, _⟩ := h
  unfold branchGate counts
  rw [countsRows_congr hty h4 h5, h3, h4, h5, h6]

theorem dobranchBody_ok (hM : 1 ≤ cfg.MAXLEAFS) {s : State} (hR : Reachable cfg s)
    (hL : s.length < MAXLENGTH cfg) (hg : branchGate cfg s = .ok true)
    {rec : State → Except Fault Run} (hrec : RecOK cfg rec (s.length + 1))
    (i : Nat) (lp : Loop) (hP : LoopOK cfg s lp ∧ lp.bckup = true) (hi : i < s.ntypes) :
    ∃ lp1, dobranchBody rec i lp = .ok lp1 ∧ LoopOK cfg s lp1 ∧ lp1.bckup = true := by
  obtain ⟨⟨hu, hout, hbk⟩, hb⟩ := hP
  have hRu : Reachable cfg lp.st := Reachable.stale s lp.st hR hu
  have hIu := reach_inv hM hRu
  have hgu : branchGate cfg lp.st = .ok true := by
    rw [branchGate_same hu]; exact hg
  obtain ⟨u1, u2, u3, u4, u5, u6, u7, u8⟩ := hu
  have hLu : lp.st.length < MAXLENGTH cfg := by rw [u4]; exact hL
  have hR1 : Reachable cfg (branchStep lp.st i) :=
    Reachable.branch lp.st i hRu hLu hgu (by rw [u5]; exact hi)
  obtain ⟨r, hr, hsame, hro⟩ := hrec (branchStep lp.st i) hR1 (by
    show lp.st.length + 1 = s.length + 1
    rw [u4])
  unfold dobranchBody
  rw [hr]
  obtain ⟨v1, v2, v3, v4, v5, v6, v7, v8⟩ := hsame
  refine ⟨_, rfl, ⟨⟨?_, ?_, ?_, ?_, ?_, ?_, ?_, ?_⟩, ?_, ?_⟩, hb⟩
  · show (r.st.lev.set (r.st.length - 1) 0) = s.lev
    rw [v1, v4]
    show ((lp.st.lev.set lp.st.length chb).set (lp.st.length + 1 - 1) 0) = s.lev
    rw [Nat.add_sub_cancel, lev_restore hIu, u1]
  · exact (hbk hb).1
  · exact (hbk hb).2
  · show r.st.length - 1 = s.length
    rw [v4]
    show lp.st.length + 1 - 1 = s.length
    rw [u4]; omega
  · show r.st.ntypes - 1 = s.ntypes
    rw [v5]
    show lp.st.ntypes + 1 - 1 = s.ntypes
    rw [u5]; omega
  · show r.st.nleafs = s.nleafs
    rw [v6]
    exact u6
  · show r.st.leafs.length = s.leafs.length
    rw [v7]
    exact u7
  · intro k hk
    show r.st.leafs.getD k [] = _
    have := v8 k (by show k < lp.st.nleafs; rw [u6]; exact hk)
    unfold leafrow at this
    rw [this]
    exact u8 k hk
  · exact mem_append_emitted hout hro
  · intro _
    exact hbk hb

theorem dobranch_ok (hM : 1 ≤ cfg.MAXLEAFS) {s : State} (hR : Reachable cfg s)
    (hL : s.length < MAXLENGTH cfg)
    {rec : State → Except Fault Run} (hrec : RecOK cfg rec (s.length + 1)) :
    ∃ r, dobranch cfg rec s = .ok r ∧ SameShared s r.st ∧ ∀ e ∈ r.out, Emitted cfg e := by
  have hIs := reach_inv hM hR
  obtain ⟨b, hb⟩ := branchGate_ok hIs
  unfold dobranch
  rw [hb]
  cases b with
  | false => exact ⟨_, rfl, same_refl s, fun e he => by cases he⟩
  | true =>
    obtain ⟨lp, h1, h2⟩ := forLoop_inv (fun lp : Loop => lp.st.ntypes) (dobranchBody rec)
      (fun lp => LoopOK cfg s lp ∧ lp.bckup = true) 0 s.ntypes
      (fun st hst => hst.1.1.2.2.2.2.1)
      (fun i st hst _ hi => dobranchBody_ok hM hR hL hb hrec i st hst hi)
      (MAXTYPES cfg + 1) 0
      { st := s, out := [], bckup := true, bckuptypes := s.types,
        bckuprelations := s.relations }
      ⟨⟨same_refl s, fun e he => (by cases he), fun _ => ⟨rfl, rfl⟩⟩, rfl⟩ (Nat.le_refl _)
      (by have := hIs.nt_le; omega)
    simp only [h1]
    exact ⟨_, rfl, h2.1.1, h2.1.2.1⟩

end Driver

/-! ## The relation moves in the driver -/

section RelationDriver

variable {cfg : Config}

theorem perpStep_totals {s : State} {i j : Nat} (hI : Inv cfg s)
    (hL : s.length < MAXLENGTH cfg) (hij : i < j) (hj : j < s.ntypes)
    (hU : unrelated s i j = true) (hA : condA s i j = j) :
    precTotal (perpStep s i j) = precTotal s ∧
    perpTotal (perpStep s i j) = perpTotal s + 1 := by
  constructor
  · exact pairTotal_same s.ntypes (fun a b => prec (tyrow s a) (tyrow s b))
      (fun a b => prec (tyrow (perpStep s i j) a) (tyrow (perpStep s i j) b))
      (fun a b hab hb => perpStep_prec hI hL hij hj hab hb)
  · exact pairTotal_flip s.ntypes i j (fun a b => perp (tyrow s a) (tyrow s b))
      (fun a b => perp (tyrow (perpStep s i j) a) (tyrow (perpStep s i j) b)) hij hj
      (fun a b hab hb => perpStep_perp hI hL hij hj hA hab hb) (unrelated_spec hU).1

theorem precStep_totals {s : State} {i j : Nat} (hI : Inv cfg s)
    (hL : s.length < MAXLENGTH cfg) (hij : i < j) (hj : j < s.ntypes)
    (hU : unrelated s i j = true) (hB1 : condB1 s i j = i) (hB2 : condB2 s i j = s.ntypes) :
    precTotal (precStep s i j) = precTotal s + 1 ∧
    perpTotal (precStep s i j) = perpTotal s := by
  constructor
  · exact pairTotal_flip s.ntypes i j (fun a b => prec (tyrow s a) (tyrow s b))
      (fun a b => prec (tyrow (precStep s i j) a) (tyrow (precStep s i j) b)) hij hj
      (fun a b hab hb => precStep_prec hI hL hij hj hU hB1 hB2 hab hb) (unrelated_spec hU).2
  · exact pairTotal_same s.ntypes (fun a b => perp (tyrow s a) (tyrow s b))
      (fun a b => perp (tyrow (precStep s i j) a) (tyrow (precStep s i j) b))
      (fun a b hab hb => precStep_perp hI hL hij hj hab hb)

/-- The shared tail of `doperp` and `doprec`: started on the state `s1` that a
relation move made from the loop state, it returns and restores the state. -/
theorem relationTail_ok (hM : 1 ≤ cfg.MAXLEAFS) {s : State} (hR : Reachable cfg s)
    (hL : s.length < MAXLENGTH cfg)
    {rec : State → Except Fault Run} (hrec : RecOK cfg rec (s.length + 1))
    (isPerp : Bool) (c : Int × Int) (i j : Nat) (bt : List (List Nat)) (lp : Loop)
    (s1 : State) (tag : Nat) (hP : RelLoopOK cfg s lp) (hbt : bt = s.types)
    (hR1 : Reachable cfg s1)
    (h1len : s1.length = lp.st.length + 1)
    (h1lev : s1.lev = lp.st.lev.set lp.st.length tag)
    (h1rel : s1.relations = incr (incr lp.st.relations i) j)
    (h1nt : s1.ntypes = lp.st.ntypes) (h1nl : s1.nleafs = lp.st.nleafs)
    (h1leafs : s1.leafs = lp.st.leafs)
    (hc : cfg.analcheck = true → c = ((precTotal s : Int), (perpTotal s : Int)))
    (htot : precTotal s1 = precTotal lp.st + (if isPerp = true then 0 else 1) ∧
      perpTotal s1 = perpTotal lp.st + (if isPerp = true then 1 else 0)) :
    ∃ lp1, relationTail cfg rec isPerp c i j bt lp s1 = .ok lp1 ∧ RelLoopOK cfg s lp1 := by
  obtain ⟨hu, hout, hbk⟩ := hP
  have hRu : Reachable cfg lp.st := Reachable.stale s lp.st hR hu
  have hIu := reach_inv hM hRu
  have hI1 := reach_inv hM hR1
  have hpt := precTotal_same hu
  have hqt := perpTotal_same hu
  obtain ⟨u1, u2, u3, u4, u5, u6, u7, u8⟩ := hu
  have hLu : lp.st.length < MAXLENGTH cfg := by rw [u4]; exact hL
  obtain ⟨r, hr, hsame, hro⟩ := hrec s1 hR1 (by rw [h1len, u4])
  unfold relationTail
  rw [checked_ok hI1]
  have hk1 : ¬ (cfg.analcheck = true ∧ isPerp = true ∧
      ((if cfg.analcheck = true then ((precTotal s1 : Int), (perpTotal s1 : Int))
          else (0, 0)).1 ≠ c.1 ∨
        (if cfg.analcheck = true then ((precTotal s1 : Int), (perpTotal s1 : Int))
          else (0, 0)).2 ≠ c.2 + 1)) := by
    rintro ⟨ha, hp, hne⟩
    rw [if_pos ha, hc ha, htot.1, htot.2, if_pos hp, if_pos hp, hpt, hqt] at hne
    rcases hne with h | h
    · exact h (by simp)
    · exact h (by simp)
  have hk2 : ¬ (cfg.analcheck = true ∧ isPerp = false ∧
      ((if cfg.analcheck = true then ((precTotal s1 : Int), (perpTotal s1 : Int))
          else (0, 0)).1 ≠ c.1 + 1 ∨
        (if cfg.analcheck = true then ((precTotal s1 : Int), (perpTotal s1 : Int))
          else (0, 0)).2 ≠ c.2)) := by
    rintro ⟨ha, hp, hne⟩
    have hp' : ¬ isPerp = true := by rw [hp]; decide
    rw [if_pos ha, hc ha, htot.1, htot.2, if_neg hp', if_neg hp', hpt, hqt] at hne
    rcases hne with h | h
    · exact h (by simp)
    · exact h (by simp)
  simp only [hk1, hk2, if_false, hr]
  obtain ⟨v1, v2, v3, v4, v5, v6, v7, v8⟩ := hsame
  refine ⟨_, rfl, ⟨?_, ?_, ?_, ?_, ?_, ?_, ?_, ?_⟩, ?_, ?_⟩
  · show (r.st.lev.set (r.st.length - 1) 0) = s.lev
    rw [v1, v4, h1lev, h1len, Nat.add_sub_cancel, lev_restore hIu, u1]
  · exact hbt
  · show decr (decr r.st.relations i) j = s.relations
    rw [v3, h1rel, decr_decr_incr_incr, u3]
  · show r.st.length - 1 = s.length
    rw [v4, h1len, u4]; omega
  · show r.st.ntypes = s.ntypes
    rw [v5, h1nt, u5]
  · show r.st.nleafs = s.nleafs
    rw [v6, h1nl, u6]
  · show r.st.leafs.length = s.leafs.length
    rw [v7, h1leafs, u7]
  · intro k hk
    show r.st.leafs.getD k [] = _
    have := v8 k (by rw [h1nl, u6]; exact hk)
    unfold leafrow at this
    rw [this, h1leafs]
    exact u8 k hk
  · exact mem_append_emitted hout hro
  · intro _
    exact hbt

theorem doperpBody_ok (hM : 1 ≤ cfg.MAXLEAFS) {s : State} (hR : Reachable cfg s)
    (hL : s.length < MAXLENGTH cfg)
    {rec : State → Except Fault Run} (hrec : RecOK cfg rec (s.length + 1))
    (c : Int × Int)
    (hc : cfg.analcheck = true → c = ((precTotal s : Int), (perpTotal s : Int)))
    (i j : Nat) (lp : Loop) (hP : RelLoopOK cfg s lp) (hij : i < j) (hj : j < s.ntypes) :
    ∃ lp1, doperpBody cfg rec c i j lp = .ok lp1 ∧ RelLoopOK cfg s lp1 := by
  have hu := hP.1
  have hRu : Reachable cfg lp.st := Reachable.stale s lp.st hR hu
  have hIu := reach_inv hM hRu
  have hLu : lp.st.length < MAXLENGTH cfg := by rw [hu.2.2.2.1]; exact hL
  have hju : j < lp.st.ntypes := by rw [hu.2.2.2.2.1]; exact hj
  unfold doperpBody
  by_cases cU : unrelated lp.st i j = true
  · rw [if_pos cU]
    by_cases cA : j ≠ condA lp.st i j
    · rw [if_pos cA]
      exact ⟨lp, rfl, hP⟩
    · rw [if_neg cA]
      have hA : condA lp.st i j = j := by
        by_contra h; exact cA (fun e => h e.symm)
      have hbt : (if lp.bckup = true then lp.bckuptypes else lp.st.types) = s.types := by
        split_ifs with hb
        · exact hP.2.2 hb
        · exact hu.2.1
      have ht := perpStep_totals hIu hLu hij hju cU hA
      exact relationTail_ok hM hR hL hrec true c i j _ lp (perpStep lp.st i j) chp hP hbt
        (Reachable.perp lp.st i j hRu hLu hij hju cU hA) rfl rfl rfl rfl rfl rfl hc
        ⟨by rw [ht.1]; rfl, by rw [ht.2]; rfl⟩
  · rw [if_neg cU]
    exact ⟨lp, rfl, hP⟩

theorem doprecBody_ok (hM : 1 ≤ cfg.MAXLEAFS) {s : State} (hR : Reachable cfg s)
    (hL : s.length < MAXLENGTH cfg)
    {rec : State → Except Fault Run} (hrec : RecOK cfg rec (s.length + 1))
    (c : Int × Int)
    (hc : cfg.analcheck = true → c = ((precTotal s : Int), (perpTotal s : Int)))
    (i j : Nat) (lp : Loop) (hP : RelLoopOK cfg s lp) (hij : i < j) (hj : j < s.ntypes) :
    ∃ lp1, doprecBody cfg rec c i j lp = .ok lp1 ∧ RelLoopOK cfg s lp1 := by
  have hu := hP.1
  have hRu : Reachable cfg lp.st := Reachable.stale s lp.st hR hu
  have hIu := reach_inv hM hRu
  have hLu : lp.st.length < MAXLENGTH cfg := by rw [hu.2.2.2.1]; exact hL
  have hju : j < lp.st.ntypes := by rw [hu.2.2.2.2.1]; exact hj
  unfold doprecBody
  by_cases cU : unrelated lp.st i j = true
  · rw [if_pos cU]
    by_cases cB1 : condB1 lp.st i j ≠ i
    · rw [if_pos cB1]
      exact ⟨lp, rfl, hP⟩
    · rw [if_neg cB1]
      have hB1 : condB1 lp.st i j = i := by
        by_contra h; exact cB1 h
      by_cases cB2 : condB2 lp.st i j ≠ lp.st.ntypes
      · rw [if_pos cB2]
        exact ⟨lp, rfl, hP⟩
      · rw [if_neg cB2]
        have hB2 : condB2 lp.st i j = lp.st.ntypes := by
          by_contra h; exact cB2 h
        have hbt : (if lp.bckup = true then lp.bckuptypes else lp.st.types) = s.types := by
          split_ifs with hb
          · exact hP.2.2 hb
          · exact hu.2.1
        have ht := precStep_totals hIu hLu hij hju cU hB1 hB2
        exact relationTail_ok hM hR hL hrec false c i j _ lp (precStep lp.st i j) chlt hP hbt
          (Reachable.prec lp.st i j hRu hLu hij hju cU hB1 hB2) rfl rfl rfl rfl rfl rfl hc
          ⟨by rw [ht.1]; rfl, by rw [ht.2]; rfl⟩
  · rw [if_neg cU]
    exact ⟨lp, rfl, hP⟩

/-- The nested loops shared by `doperp` and `doprec`. -/
theorem pairLoop_ok {s : State} (hn : s.ntypes ≤ MAXTYPES cfg)
    (body : Nat → Nat → Loop → Except Fault Loop)
    (hbody : ∀ i j lp, RelLoopOK cfg s lp → i < j → j < s.ntypes →
      ∃ lp1, body i j lp = .ok lp1 ∧ RelLoopOK cfg s lp1) :
    ∃ lp, forLoop (fun lp : Loop => lp.st.ntypes)
        (fun i lp => forLoop (fun lp : Loop => lp.st.ntypes) (body i)
          (MAXTYPES cfg + 1) (i + 1) lp)
        (MAXTYPES cfg + 1) 0
        { st := s, out := [], bckup := false, bckuptypes := [], bckuprelations := [] }
        = .ok lp ∧ RelLoopOK cfg s lp := by
  apply forLoop_inv (fun lp : Loop => lp.st.ntypes) _ (RelLoopOK cfg s) 0 s.ntypes
    (fun st hst => hst.1.2.2.2.2.1)
  · intro i lp hP _ _
    exact forLoop_inv (fun lp : Loop => lp.st.ntypes) (body i) (RelLoopOK cfg s) (i + 1)
      s.ntypes (fun st hst => hst.1.2.2.2.2.1)
      (fun j st hst hlo hj => hbody i j st hst (by omega) hj)
      (MAXTYPES cfg + 1) (i + 1) lp hP (Nat.le_refl _) (by omega)
  · exact ⟨same_refl s, fun e he => (by cases he), fun h => (by cases h)⟩
  · exact Nat.le_refl _
  · omega

theorem doperp_ok (hM : 1 ≤ cfg.MAXLEAFS) {s : State} (hR : Reachable cfg s)
    (hL : s.length < MAXLENGTH cfg)
    {rec : State → Except Fault Run} (hrec : RecOK cfg rec (s.length + 1)) :
    ∃ r, doperp cfg rec s = .ok r ∧ SameShared s r.st ∧ ∀ e ∈ r.out, Emitted cfg e := by
  have hIs := reach_inv hM hR
  unfold doperp
  rw [checked_ok hIs]
  obtain ⟨lp, h1, h2⟩ := pairLoop_ok hIs.nt_le
    (doperpBody cfg rec (if cfg.analcheck = true then ((precTotal s : Int), (perpTotal s : Int))
      else (0, 0)))
    (fun i j lp hP hij hj => doperpBody_ok hM hR hL hrec _ (fun ha => by rw [if_pos ha])
      i j lp hP hij hj)
  simp only [h1]
  exact ⟨_, rfl, h2.1, h2.2.1⟩

theorem doprec_ok (hM : 1 ≤ cfg.MAXLEAFS) {s : State} (hR : Reachable cfg s)
    (hL : s.length < MAXLENGTH cfg)
    {rec : State → Except Fault Run} (hrec : RecOK cfg rec (s.length + 1)) :
    ∃ r, doprec cfg rec s = .ok r ∧ SameShared s r.st ∧ ∀ e ∈ r.out, Emitted cfg e := by
  have hIs := reach_inv hM hR
  unfold doprec
  rw [checked_ok hIs]
  obtain ⟨lp, h1, h2⟩ := pairLoop_ok hIs.nt_le
    (doprecBody cfg rec (if cfg.analcheck = true then ((precTotal s : Int), (perpTotal s : Int))
      else (0, 0)))
    (fun i j lp hP hij hj => doprecBody_ok hM hR hL hrec _ (fun ha => by rw [if_pos ha])
      i j lp hP hij hj)
  simp only [h1]
  exact ⟨_, rfl, h2.1, h2.2.1⟩

/-- One guarded move of `recurse`. -/
theorem attempt_ok (hM : 1 ≤ cfg.MAXLEAFS) {s : State} (hR : Reachable cfg s)
    (gen : State → Except Fault Run) (r : Run) (hs : SameShared s r.st)
    (ho : ∀ e ∈ r.out, Emitted cfg e)
    (hgen : ∀ u, Reachable cfg u → SameShared s u →
      ∃ r1, gen u = .ok r1 ∧ SameShared u r1.st ∧ ∀ e ∈ r1.out, Emitted cfg e) :
    ∃ r1, attempt cfg gen r = .ok r1 ∧ SameShared s r1.st ∧ ∀ e ∈ r1.out, Emitted cfg e := by
  have hRu : Reachable cfg r.st := Reachable.stale s r.st hR hs
  obtain ⟨r1, h1, h2, h3⟩ := hgen r.st hRu hs
  unfold attempt
  rw [checked_ok (reach_inv hM hRu)]
  simp only [h1]
  exact ⟨_, rfl, same_trans hs h2, mem_append_emitted ho h3⟩

/-- The search from a reachable state returns, leaves the shared state as it
was, and prints only objects of the search. -/
theorem recurse_ok (hM : 1 ≤ cfg.MAXLEAFS) : ∀ (fuel : Nat) (s : State),
    Reachable cfg s → MAXLENGTH cfg - s.length < fuel →
    ∃ r, recurse cfg fuel s = .ok r ∧ SameShared s r.st ∧ ∀ e ∈ r.out, Emitted cfg e := by
  intro fuel
  induction fuel with
  | zero => intro s _ hf; exact absurd hf (Nat.not_lt_zero _)
  | succ fuel ih =>
    intro s hR hf
    unfold recurse
    by_cases c : s.length ≥ MAXLENGTH cfg
    · rw [if_pos c]
      exact ⟨_, rfl, same_refl s, fun e he => by cases he⟩
    · rw [if_neg c]
      have hL : s.length < MAXLENGTH cfg := by omega
      have hrec : ∀ u, SameShared s u → RecOK cfg (recurse cfg fuel) (u.length + 1) := by
        intro u hu t hRt hlen
        exact ih t hRt (by rw [hlen, hu.2.2.2.1]; omega)
      obtain ⟨r1, e1, s1, o1⟩ := attempt_ok hM hR (doleaf cfg (recurse cfg fuel))
        { st := s, out := [] } (same_refl s) (fun e he => by cases he)
        (fun u hRu hu => doleaf_ok hM hRu (by rw [hu.2.2.2.1]; exact hL) (hrec u hu))
      obtain ⟨r2, e2, s2, o2⟩ := attempt_ok hM hR (dobranch cfg (recurse cfg fuel)) r1 s1 o1
        (fun u hRu hu => dobranch_ok hM hRu (by rw [hu.2.2.2.1]; exact hL) (hrec u hu))
      obtain ⟨r3, e3, s3, o3⟩ := attempt_ok hM hR (doperp cfg (recurse cfg fuel)) r2 s2 o2
        (fun u hRu hu => doperp_ok hM hRu (by rw [hu.2.2.2.1]; exact hL) (hrec u hu))
      obtain ⟨r4, e4, s4, o4⟩ := attempt_ok hM hR (doprec cfg (recurse cfg fuel)) r3 s3 o3
        (fun u hRu hu => doprec_ok hM hRu (by rw [hu.2.2.2.1]; exact hL) (hrec u hu))
      simp only [e1, e2, e3]
      exact ⟨r4, e4, s4, o4⟩

end RelationDriver

/-! ## The guards of the relation moves, in the words of the definition -/

theorem find_none_getD (l : List Nat) (p : Nat → Bool) (d : Nat)
    (h : ∀ x ∈ l, p x = false) : (l.find? p).getD d = d := by
  have : l.find? p = none := by
    rw [List.find?_eq_none]
    intro x hx
    rw [h x hx]
    decide
  rw [this]
  rfl

theorem condA_of {s : State} {i j : Nat}
    (h : ∀ k, i < k → k < j →
      perp (tyrow s i) (tyrow s k) = true ∨ perp (tyrow s k) (tyrow s j) = true) :
    condA s i j = j := by
  apply find_none_getD
  intro k hk
  have hk' := List.mem_range'_1.mp hk
  rcases h k (by omega) (by omega) with e | e <;> simp [e]

theorem condB1_of {s : State} {i j : Nat}
    (h : ∀ k, k < i →
      perp (tyrow s k) (tyrow s i) = true ∨ prec (tyrow s k) (tyrow s j) = true) :
    condB1 s i j = i := by
  apply find_none_getD
  intro k hk
  have hk' := List.mem_range'_1.mp hk
  rcases h k (by omega) with e | e <;> simp [e]

theorem condB2_of {s : State} {i j : Nat}
    (h : ∀ k, j < k → k < s.ntypes →
      perp (tyrow s j) (tyrow s k) = true ∨ prec (tyrow s i) (tyrow s k) = true) :
    condB2 s i j = s.ntypes := by
  apply find_none_getD
  intro k hk
  have hk' := List.mem_range'_1.mp hk
  rcases h k (by omega) (by omega) with e | e <;> simp [e]

theorem unrelated_of {s : State} {i j : Nat} (h1 : perp (tyrow s i) (tyrow s j) = false)
    (h2 : prec (tyrow s i) (tyrow s j) = false) : unrelated s i j = true := by
  unfold unrelated
  rw [h1, h2]
  rfl

theorem inv_perp_comm {cfg : Config} {s : State} (h : Inv cfg s) {a b : Nat}
    (ha : a < s.ntypes) (hb : b < s.ntypes) :
    perp (tyrow s a) (tyrow s b) = perp (tyrow s b) (tyrow s a) := by
  rw [inv_perp h ha hb, inv_perp h hb ha]
  exact perp_comm _ _ (inv_word_noNul h ha) (inv_word_noNul h hb)

/-- A relation move changes no pair but its own, read in either order. -/
theorem relation_frame {cfg : Config} {s t : State} {i j : Nat} (hI : Inv cfg s)
    (hIt : Inv cfg t) (hnt : t.ntypes = s.ntypes)
    (hprec : ∀ a b, a < b → b < s.ntypes → ¬ (a = i ∧ b = j) →
      prec (tyrow t a) (tyrow t b) = prec (tyrow s a) (tyrow s b))
    (hperp : ∀ a b, a < b → b < s.ntypes → ¬ (a = i ∧ b = j) →
      perp (tyrow t a) (tyrow t b) = perp (tyrow s a) (tyrow s b))
    (a b : Nat) (ha : a < s.ntypes) (hb : b < s.ntypes) (hab : a ≠ b)
    (h1 : ¬ (a = i ∧ b = j)) (h2 : ¬ (a = j ∧ b = i)) :
    prec (tyrow t a) (tyrow t b) = prec (tyrow s a) (tyrow s b) ∧
    perp (tyrow t a) (tyrow t b) = perp (tyrow s a) (tyrow s b) := by
  by_cases c : a < b
  · exact ⟨hprec a b c hb h1, hperp a b c hb h1⟩
  · have c' : b < a := by omega
    constructor
    · rw [inv_prec_rev hIt c' (by rw [hnt]; exact ha), inv_prec_rev hI c' ha]
    · rw [inv_perp_comm hIt (by rw [hnt]; exact ha) (by rw [hnt]; exact hb),
        inv_perp_comm hI ha hb]
      exact hperp b a c' ha (fun e => h2 ⟨e.2, e.1⟩)

theorem countsRows_nrel {cfg : Config} {s : State} (hI : Inv cfg s) :
    ∃ acc, countsRows s (List.range s.ntypes) (0, 0, List.replicate (MAXTYPES cfg) 0)
        = .ok acc ∧
      ∀ k, k < s.ntypes → acc.2.2.getD k 0 = (relCount s k : Int) := by
  obtain ⟨r, hr, _, _, _, r4⟩ := countsRows_spec s (List.range s.ntypes)
    (0, 0, List.replicate (MAXTYPES cfg) 0)
    (fun i hi => by
      have hi' := List.mem_range.mp hi
      refine ⟨hi', inv_strlen hI hi', fun h0 => ?_⟩
      have := hI.sorted (i - 1) (by omega)
      have e : i - 1 + 1 = i := by omega
      rwa [e] at this)
    (List.nodup_range _) (by simp; exact hI.nt_le)
  refine ⟨r, hr, fun k hk' => ?_⟩
  rw [r4 k, if_pos (List.mem_range.mpr hk')]
  have h0 : (List.replicate (MAXTYPES cfg) (0 : Int)).getD k 0 = 0 := by
    simp only [List.getD_eq_getElem?_getD, List.getElem?_replicate]
    split_ifs <;> rfl
  have h1 : (List.range s.ntypes).countP
      (fun i => decide (i < k ∧ k < s.ntypes) && related s i k) =
      (List.range k).countP (fun i => related s i k) := by
    rw [← countP_range_lt (fun i => related s i k) k s.ntypes (by omega)]
    apply countP_same
    intro y _
    simp [hk']
  show (List.replicate (MAXTYPES cfg) (0 : Int)).getD k 0 + _ + _ = _
  rw [h0, h1]
  unfold relCount
  push_cast; ring

theorem mem_ok_of_map {cfg : Config} {l : List Emission}
    (h : (main cfg).map (fun r => r.out) = .ok l) : ∃ r, main cfg = .ok r ∧ r.out = l := by
  cases hm : main cfg with
  | error e => rw [hm] at h; cases h
  | ok r =>
    rw [hm] at h
    refine ⟨r, rfl, ?_⟩
    have : Except.ok r.out = Except.ok (ε := Fault) l := h
    exact Except.ok.inj this

theorem print_type_leaves (s : State) :
    (print_type s).vertices.length = s.nleafs := by
  simp [print_type]

/-! ## The claims -/

theorem twoTypes_reachable : Reachable cfg3 twoTypes :=
  Reachable.branch (seed cfg3) 0 Reachable.seed (by decide) (by decide) (by decide)

theorem inv_ascending {cfg : Config} {s : State} (h : Inv cfg s) : Ascending s := by
  intro i h0 hi
  have := h.sorted (i - 1) (by omega)
  have e : i - 1 + 1 = i := by omega
  rwa [e] at this

theorem relation_rels {cfg : Config} {s : State} (hI : Inv cfg s) {i j : Nat}
    (hj : j < s.ntypes) (hij : i < j) (k : Nat) :
    (incr (incr s.relations i) j).getD k 0 =
      s.relations.getD k 0 + (if k = i ∨ k = j then 1 else 0) := by
  have hl : s.relations.length = MAXTYPES cfg := hI.rel_len
  have hn := hI.nt_le
  rw [incr_getD_add, incr_getD_add, incr_length]
  split_ifs <;> omega

/-- C1: in every state reachable from the seed (one active type with the
empty word and relation count 0, no leaves, depth 0), the cached
`relations[i]` of every active type is the number of other active types
related to it by `prec` or `perp`, which is the value `counts` recomputes in
`nrelations`; so `counts` returns without `abort` (and without `exit`). -/
theorem C1_relations_cached (cfg : Config) (hM : 1 ≤ cfg.MAXLEAFS) (s : State)
    (hR : Reachable cfg s) :
    ((seed cfg).ntypes = 1 ∧ cstr (tyrow (seed cfg) 0) = [] ∧
      (seed cfg).relations.getD 0 0 = 0 ∧ (seed cfg).nleafs = 0 ∧ (seed cfg).length = 0) ∧
    (∀ i, i < s.ntypes → s.relations.getD i 0 = (relCount s i : Int)) ∧
    (∃ acc, countsRows s (List.range s.ntypes) (0, 0, List.replicate (MAXTYPES cfg) 0)
        = .ok acc ∧
      ∀ i, i < s.ntypes → acc.2.2.getD i 0 = s.relations.getD i 0) ∧
    counts cfg s = .ok ((precTotal s : Int), (perpTotal s : Int)) := by
  have hI := reach_inv hM hR
  have hS := inv_seed cfg hM
  refine ⟨⟨rfl, ?_, ?_, rfl, rfl⟩, hI.rel_ok, ?_, counts_ok hI⟩
  · rw [inv_cstr hS (show 0 < (seed cfg).ntypes from Nat.lt_succ_self 0)]
    rfl
  · have := hS.rel_ok 0 (Nat.lt_succ_self 0)
    rw [this]
    rfl
  · obtain ⟨acc, h1, h2⟩ := countsRows_nrel hI
    exact ⟨acc, h1, fun i hi => by rw [h2 i hi, hI.rel_ok i hi]⟩

/-- The witness of C1: the state with the two types `O` and `R`. -/
theorem C1_witness :
    (1 ≤ cfg3.MAXLEAFS ∧ Reachable cfg3 twoTypes) ∧
    twoTypes.relations.getD 1 0 = (relCount twoTypes 1 : Int) ∧
    counts cfg3 twoTypes = .ok ((precTotal twoTypes : Int), (perpTotal twoTypes : Int)) :=
  ⟨⟨by decide, twoTypes_reachable⟩,
    (C1_relations_cached cfg3 (by decide) twoTypes twoTypes_reachable).2.1 1 (by decide),
    (C1_relations_cached cfg3 (by decide) twoTypes twoTypes_reachable).2.2.2⟩

/-- C2: in a reachable state on which `recurse` runs `doperp`, for a pair
`i < j` of active types that `doperp` selects (neither `perp` nor `prec`
holds for it and every type strictly between is perp with `i` or with `j`),
the guard of the code holds and after the new column is written `perp` holds
for the pair and `prec` does not, every other pair of active types keeps its
`prec` and `perp` values, the recomputed perp count rises by one while the
prec count stays, and `relations[i]`, `relations[j]` rise by one while the
other relation counts stay. -/
theorem C2_perp_move (cfg : Config) (hM : 1 ≤ cfg.MAXLEAFS) (s : State)
    (hR : Reachable cfg s) (hL : s.length < MAXLENGTH cfg) (i j : Nat) (hij : i < j)
    (hj : j < s.ntypes) (hperp : perp (tyrow s i) (tyrow s j) = false)
    (hprec : prec (tyrow s i) (tyrow s j) = false)
    (hA : ∀ k, i < k → k < j →
      perp (tyrow s i) (tyrow s k) = true ∨ perp (tyrow s k) (tyrow s j) = true) :
    (unrelated s i j = true ∧ condA s i j = j) ∧
    perp (tyrow (perpStep s i j) i) (tyrow (perpStep s i j) j) = true ∧
    prec (tyrow (perpStep s i j) i) (tyrow (perpStep s i j) j) = false ∧
    (∀ a b, a < s.ntypes → b < s.ntypes → a ≠ b → ¬ (a = i ∧ b = j) → ¬ (a = j ∧ b = i) →
      prec (tyrow (perpStep s i j) a) (tyrow (perpStep s i j) b) =
        prec (tyrow s a) (tyrow s b) ∧
      perp (tyrow (perpStep s i j) a) (tyrow (perpStep s i j) b) =
        perp (tyrow s a) (tyrow s b)) ∧
    (∃ c1 c2, counts cfg s = .ok (c1, c2) ∧
      counts cfg (perpStep s i j) = .ok (c1, c2 + 1)) ∧
    (∀ k, k < s.ntypes → (perpStep s i j).relations.getD k 0 =
      s.relations.getD k 0 + (if k = i ∨ k = j then 1 else 0)) := by
  have hI := reach_inv hM hR
  have hU := unrelated_of hperp hprec
  have hA' := condA_of hA
  have hIt := inv_perpStep hI hL hij hj hU hA'
  have ht := perpStep_totals hI hL hij hj hU hA'
  refine ⟨⟨hU, hA'⟩, ?_, ?_, ?_, ?_, ?_⟩
  · rw [perpStep_perp hI hL hij hj hA' hij hj, decide_eq_true ⟨rfl, rfl⟩, Bool.or_true]
  · rw [perpStep_prec hI hL hij hj hij hj, hprec]
  · intro a b ha hb hab h1 h2
    exact relation_frame hI hIt rfl
      (fun a b hab hb _ => perpStep_prec hI hL hij hj hab hb)
      (fun a b hab hb hne => by
        rw [perpStep_perp hI hL hij hj hA' hab hb, decide_eq_false hne, Bool.or_false])
      a b ha hb hab h1 h2
  · refine ⟨(precTotal s : Int), (perpTotal s : Int), counts_ok hI, ?_⟩
    rw [counts_ok hIt, ht.1, ht.2]
    rfl
  · intro k _
    exact relation_rels hI hj hij k

/-- The witness of C2: the pair `(0, 1)` of the types `O` and `R`. -/
theorem C2_witness :
    perp (tyrow (perpStep twoTypes 0 1) 0) (tyrow (perpStep twoTypes 0 1) 1) = true ∧
    prec (tyrow (perpStep twoTypes 0 1) 0) (tyrow (perpStep twoTypes 0 1) 1) = false :=
  ⟨(C2_perp_move cfg3 (by decide) twoTypes twoTypes_reachable (by decide) 0 1 (by decide)
      (by decide) (by decide) (by decide) (fun k h1 h2 => by omega)).2.1,
    (C2_perp_move cfg3 (by decide) twoTypes twoTypes_reachable (by decide) 0 1 (by decide)
      (by decide) (by decide) (by decide) (fun k h1 h2 => by omega)).2.2.1⟩

/-- C3: in a reachable state on which `recurse` runs `doprec`, for a pair
`i < j` of active types that `doprec` selects (neither `perp` nor `prec`
holds for it, every type before `i` is perp with `i` or prec `j`, every type
after `j` is perp with `j` or has `i` prec it), the guard of the code holds
and after the new column is written `prec` holds for the pair and `perp`
does not, every other pair of active types keeps its `prec` and `perp`
values, the recomputed prec count rises by one while the perp count stays,
and `relations[i]`, `relations[j]` rise by one while the other relation
counts stay. -/
theorem C3_prec_move (cfg : Config) (hM : 1 ≤ cfg.MAXLEAFS) (s : State)
    (hR : Reachable cfg s) (hL : s.length < MAXLENGTH cfg) (i j : Nat) (hij : i < j)
    (hj : j < s.ntypes) (hperp : perp (tyrow s i) (tyrow s j) = false)
    (hprec : prec (tyrow s i) (tyrow s j) = false)
    (hB1 : ∀ k, k < i →
      perp (tyrow s k) (tyrow s i) = true ∨ prec (tyrow s k) (tyrow s j) = true)
    (hB2 : ∀ k, j < k → k < s.ntypes →
      perp (tyrow s j) (tyrow s k) = true ∨ prec (tyrow s i) (tyrow s k) = true) :
    (unrelated s i j = true ∧ condB1 s i j = i ∧ condB2 s i j = s.ntypes) ∧
    prec (tyrow (precStep s i j) i) (tyrow (precStep s i j) j) = true ∧
    perp (tyrow (precStep s i j) i) (tyrow (precStep s i j) j) = false ∧
    (∀ a b, a < s.ntypes → b < s.ntypes → a ≠ b → ¬ (a = i ∧ b = j) → ¬ (a = j ∧ b = i) →
      prec (tyrow (precStep s i j) a) (tyrow (precStep s i j) b) =
        prec (tyrow s a) (tyrow s b) ∧
      perp (tyrow (precStep s i j) a) (tyrow (precStep s i j) b) =
        perp (tyrow s a) (tyrow s b)) ∧
    (∃ c1 c2, counts cfg s = .ok (c1, c2) ∧
      counts cfg (precStep s i j) = .ok (c1 + 1, c2)) ∧
    (∀ k, k < s.ntypes → (precStep s i j).relations.getD k 0 =
      s.relations.getD k 0 + (if k = i ∨ k = j then 1 else 0)) := by
  have hI := reach_inv hM hR
  have hU := unrelated_of hperp hprec
  have h1' := condB1_of hB1
  have h2' := condB2_of hB2
  have hIt := inv_precStep hI hL hij hj hU h1' h2'
  have ht := precStep_totals hI hL hij hj hU h1' h2'
  refine ⟨⟨hU, h1', h2'⟩, ?_, ?_, ?_, ?_, ?_⟩
  · rw [precStep_prec hI hL hij hj hU h1' h2' hij hj, decide_eq_true ⟨rfl, rfl⟩,
      Bool.or_true]
  · rw [precStep_perp hI hL hij hj hij hj, hperp]
  · intro a b ha hb hab h1 h2
    exact relation_frame hI hIt rfl
      (fun a b hab hb hne => by
        rw [precStep_prec hI hL hij hj hU h1' h2' hab hb, decide_eq_false hne,
          Bool.or_false])
      (fun a b hab hb _ => precStep_perp hI hL hij hj hab hb)
      a b ha hb hab h1 h2
  · refine ⟨(precTotal s : Int), (perpTotal s : Int), counts_ok hI, ?_⟩
    rw [counts_ok hIt, ht.1, ht.2]
    rfl
  · intro k _
    exact relation_rels hI hj hij k

/-- The witness of C3: the pair `(0, 1)` of the types `O` and `R`. -/
theorem C3_witness :
    prec (tyrow (precStep twoTypes 0 1) 0) (tyrow (precStep twoTypes 0 1) 1) = true ∧
    perp (tyrow (precStep twoTypes 0 1) 0) (tyrow (precStep twoTypes 0 1) 1) = false :=
  ⟨(C3_prec_move cfg3 (by decide) twoTypes twoTypes_reachable (by decide) 0 1 (by decide)
      (by decide) (by decide) (by decide) (fun k h1 => by omega)
      (fun k h1 h2 => by
        have : twoTypes.ntypes = 2 := rfl
        omega)).2.1,
    (C3_prec_move cfg3 (by decide) twoTypes twoTypes_reachable (by decide) 0 1 (by decide)
      (by decide) (by decide) (by decide) (fun k h1 => by omega)
      (fun k h1 h2 => by
        have : twoTypes.ntypes = 2 := rfl
        omega)).2.2.1⟩

/-- C4: in every reachable state, for two distinct active types `a` and `b`
at most one of `prec (a, b)`, `prec (b, a)`, `perp (a, b)` holds. -/
theorem C4_exclusive (cfg : Config) (hM : 1 ≤ cfg.MAXLEAFS) (s : State)
    (hR : Reachable cfg s) (a b : Nat) (ha : a < s.ntypes) (hb : b < s.ntypes)
    (hab : a ≠ b) :
    ¬ (prec (tyrow s a) (tyrow s b) = true ∧ prec (tyrow s b) (tyrow s a) = true) ∧
    ¬ (prec (tyrow s a) (tyrow s b) = true ∧ perp (tyrow s a) (tyrow s b) = true) ∧
    ¬ (prec (tyrow s b) (tyrow s a) = true ∧ perp (tyrow s a) (tyrow s b) = true) := by
  have hI := reach_inv hM hR
  by_cases c : a < b
  · have hrev := inv_prec_rev hI c hb
    refine ⟨?_, hI.excl a b c hb, ?_⟩
    · rintro ⟨_, h⟩; rw [hrev] at h; exact absurd h (by decide)
    · rintro ⟨h, _⟩; rw [hrev] at h; exact absurd h (by decide)
  · have c' : b < a := by omega
    have hrev := inv_prec_rev hI c' ha
    refine ⟨?_, ?_, ?_⟩
    · rintro ⟨h, _⟩; rw [hrev] at h; exact absurd h (by decide)
    · rintro ⟨h, _⟩; rw [hrev] at h; exact absurd h (by decide)
    · rw [inv_perp_comm hI ha hb]
      exact hI.excl b a c' ha

/-- The witness of C4: the two types `O` and `R`. -/
theorem C4_witness :
    ¬ (prec (tyrow twoTypes 0) (tyrow twoTypes 1) = true ∧
      perp (tyrow twoTypes 0) (tyrow twoTypes 1) = true) :=
  (C4_exclusive cfg3 (by decide) twoTypes twoTypes_reachable 0 1 (by decide) (by decide)
    (by decide)).2.1

/-- C5: in every reachable state the active list is strictly ascending
under `ltlex`, and each of the four moves that `recurse` can make from it
(branch, perp, prec, leaf) hands on a state whose list is ascending again. -/
theorem C5_ascending (cfg : Config) (hM : 1 ≤ cfg.MAXLEAFS) (s : State)
    (hR : Reachable cfg s) :
    Ascending s ∧
    (s.length < MAXLENGTH cfg →
      (∀ i, branchGate cfg s = .ok true → i < s.ntypes → Ascending (branchStep s i)) ∧
      (∀ i j, i < j → j < s.ntypes → unrelated s i j = true → condA s i j = j →
        Ascending (perpStep s i j)) ∧
      (∀ i j, i < j → j < s.ntypes → unrelated s i j = true → condB1 s i j = i →
        condB2 s i j = s.ntypes → Ascending (precStep s i j)) ∧
      (∀ i, s.nleafs ≠ cfg.MAXLEAFS → i < s.ntypes →
        s.relations.getD i 0 = (s.ntypes : Int) - 1 → s.ntypes ≠ 1 →
        Ascending (leafStep s i))) := by
  refine ⟨inv_ascending (reach_inv hM hR), fun hL => ⟨?_, ?_, ?_, ?_⟩⟩
  · intro i hg hi
    exact inv_ascending (reach_inv hM (Reachable.branch s i hR hL hg hi))
  · intro i j hij hj hU hA
    exact inv_ascending (reach_inv hM (Reachable.perp s i j hR hL hij hj hU hA))
  · intro i j hij hj hU h1 h2
    exact inv_ascending (reach_inv hM (Reachable.prec s i j hR hL hij hj hU h1 h2))
  · intro i hnl hi hfull hn1
    exact inv_ascending (reach_inv hM (Reachable.leaf s i hR hL hnl hi hfull hn1))

/-- The witness of C5: the list `O`, `R`. -/
theorem C5_witness : Ascending twoTypes :=
  (C5_ascending cfg3 (by decide) twoTypes twoTypes_reachable).1

/-- C6: from a reachable state `recurse` returns with the shared state as it
found it, and so does each of `doleaf`, `dobranch`, `doperp` and `doprec`
when `recurse` runs it (depth below `MAXLENGTH`): the same `lev`, `types`
and `relations`, the same `length`, `ntypes` and `nleafs`, and the same leaf
rows below `nleafs`. -/
theorem C6_restore (cfg : Config) (hM : 1 ≤ cfg.MAXLEAFS) (s : State)
    (hR : Reachable cfg s) (fuel : Nat) (hf : MAXLENGTH cfg - s.length ≤ fuel) :
    (∃ r, recurse cfg (fuel + 1) s = .ok r ∧ SameShared s r.st) ∧
    (s.length < MAXLENGTH cfg →
      (∃ r, doleaf cfg (recurse cfg fuel) s = .ok r ∧ SameShared s r.st) ∧
      (∃ r, dobranch cfg (recurse cfg fuel) s = .ok r ∧ SameShared s r.st) ∧
      (∃ r, doperp cfg (recurse cfg fuel) s = .ok r ∧ SameShared s r.st) ∧
      (∃ r, doprec cfg (recurse cfg fuel) s = .ok r ∧ SameShared s r.st)) := by
  constructor
  · obtain ⟨r, h1, h2, _⟩ := recurse_ok hM (fuel + 1) s hR (by omega)
    exact ⟨r, h1, h2⟩
  · intro hL
    have hrec : RecOK cfg (recurse cfg fuel) (s.length + 1) :=
      fun t hRt hlen => recurse_ok hM fuel t hRt (by omega)
    obtain ⟨r1, a1, b1, _⟩ := doleaf_ok hM hR hL hrec
    obtain ⟨r2, a2, b2, _⟩ := dobranch_ok hM hR hL hrec
    obtain ⟨r3, a3, b3, _⟩ := doperp_ok hM hR hL hrec
    obtain ⟨r4, a4, b4, _⟩ := doprec_ok hM hR hL hrec
    exact ⟨⟨r1, a1, b1⟩, ⟨r2, a2, b2⟩, ⟨r3, a3, b3⟩, ⟨r4, a4, b4⟩⟩

/-- The witness of C6: the search started on the two types `O` and `R`. -/
theorem C6_witness :
    ∃ r, recurse cfg3 (MAXLENGTH cfg3 + 1) twoTypes = .ok r ∧ SameShared twoTypes r.st :=
  (C6_restore cfg3 (by decide) twoTypes twoTypes_reachable (MAXLENGTH cfg3)
    (Nat.sub_le _ _)).1

set_option maxRecDepth 100000 in
set_option maxHeartbeats 4000000 in
theorem main2_out :
    (main cfg2).map (fun r => r.out) = .ok
      [print_type (leafMark (seed cfg2) 0),
        print_type (leafMark (leafStep (perpStep (branchStep (seed cfg2) 0) 0 1) 0) 0),
        print_type (leafMark (leafStep (perpStep (branchStep (seed cfg2) 0) 0 1) 1) 0),
        print_type (leafMark (leafStep (precStep (branchStep (seed cfg2) 0) 0 1) 0) 0),
        print_type (leafMark (leafStep (precStep (branchStep (seed cfg2) 0) 0 1) 1) 0)] := by
  decide

/-- C7, as the code has it: with `MAXLEAFS` 2 the search prints five
objects, in this order: the seed type made a leaf at once (one leaf, the
empty word, level types `l`), and the four objects made by the branch move,
then one relation move (perp or prec) on the pair, then the first leaf move
on either type and the final leaf move; these four have two leaves and the
level types `bpll` or `b<ll`. -/
theorem C7_maxleafs_two :
    (main cfg2).map (fun r => r.out) = .ok
      [print_type (leafMark (seed cfg2) 0),
        print_type (leafMark (leafStep (perpStep (branchStep (seed cfg2) 0) 0 1) 0) 0),
        print_type (leafMark (leafStep (perpStep (branchStep (seed cfg2) 0) 0 1) 1) 0),
        print_type (leafMark (leafStep (precStep (branchStep (seed cfg2) 0) 0 1) 0) 0),
        print_type (leafMark (leafStep (precStep (branchStep (seed cfg2) 0) 0 1) 1) 0)] ∧
    (main cfg2).map (fun r => r.out.map (fun e => (e.lev, e.vertices.map Prod.fst))) = .ok
      [([chl], [[]]),
        ([chb, chp, chl, chl], [[chO, chR], [chR, chO, chO]]),
        ([chb, chp, chl, chl], [[chR, chO], [chO, chR, chO]]),
        ([chb, chlt, chl, chl], [[chO, chL], [chR, chR, chO]]),
        ([chb, chlt, chl, chl], [[chR, chR], [chO, chL, chO]])] := by
  constructor
  · exact main2_out
  · decide

/-- C7 as stated fails: with `MAXLEAFS` 2 not every printed object has two
leaves and the level types `b`, then `p` or `<`, then `l`, `l`. -/
theorem C7_counterexample :
    ¬ (∀ r, main cfg2 = .ok r → ∀ e ∈ r.out, e.vertices.length = 2 ∧
      (e.lev = [chb, chp, chl, chl] ∨ e.lev = [chb, chlt, chl, chl])) := by
  intro h
  obtain ⟨r, hr, ho⟩ := mem_ok_of_map main2_out
  have := (h r hr (print_type (leafMark (seed cfg2) 0)) (by rw [ho]; exact List.mem_cons_self _ _)).1
  exact absurd this (by decide)

theorem main1_out :
    (main cfg1).map (fun r => r.out) =
      .ok [{ adj := [], lev := [chl], vertices := [([], 0)] }] := by
  decide

/-- C8, as the code has it: with `MAXLEAFS` 1 the search returns and prints
exactly one object; its only leaf is the seed type, the empty word, and its
level types string is `l`, the tag of the leaf level that printed it. -/
theorem C8_maxleafs_one :
    (main cfg1).map (fun r => r.out) =
      .ok [{ adj := [], lev := [chl], vertices := [([], 0)] }] ∧
    (seed cfg1).ntypes = 1 ∧ cstr (tyrow (seed cfg1) 0) = [] := by
  refine ⟨main1_out, rfl, ?_⟩
  decide

/-- C8 as stated fails: with `MAXLEAFS` 1 the one printed object does not
have an empty level types string. -/
theorem C8_counterexample :
    ¬ (∃ r, main cfg1 = .ok r ∧ ∃ e, r.out = [e] ∧ e.vertices.map Prod.fst = [[]] ∧
      e.lev = []) := by
  rintro ⟨r, hr, e, he, _, hl⟩
  obtain ⟨r1, hr1, ho⟩ := mem_ok_of_map main1_out
  rw [hr] at hr1
  have e1 : r = r1 := Except.ok.inj hr1
  rw [← e1, he] at ho
  have e2 : e = { adj := [], lev := [chl], vertices := [([], 0)] } := by
    simpa using ho
  rw [e2] at hl
  exact absurd hl (by decide)

/-- C9: in every reachable state `ntypes + nleafs ≤ MAXLEAFS` and
`ntypes ≤ MAXTYPES`; the search from the seed returns, and every object it
prints has at least one and at most `MAXLEAFS` leaves. -/
theorem C9_bounds (cfg : Config) (hM : 1 ≤ cfg.MAXLEAFS) :
    (∀ s, Reachable cfg s →
      s.ntypes + s.nleafs ≤ cfg.MAXLEAFS ∧ s.ntypes ≤ MAXTYPES cfg) ∧
    ∃ r, main cfg = .ok r ∧
      ∀ e ∈ r.out, 1 ≤ e.vertices.length ∧ e.vertices.length ≤ cfg.MAXLEAFS := by
  constructor
  · intro s hR
    have hI := reach_inv hM hR
    exact ⟨hI.tot_le, hI.nt_le⟩
  · obtain ⟨r, h1, _, h3⟩ := recurse_ok hM (MAXLENGTH cfg + 1) (seed cfg) Reachable.seed
      (by have : (seed cfg).length = 0 := rfl
          omega)
    refine ⟨r, h1, fun e he => ?_⟩
    obtain ⟨s, hRs, _, hn, _, _, rfl⟩ := h3 e he
    have hI := reach_inv hM hRs
    have ht := hI.tot_le
    rw [print_type_leaves]
    have : (leafMark s 0).nleafs = s.nleafs + 1 := rfl
    rw [this]
    omega

/-- The witness of C9: the program as configured, `MAXLEAFS` 3. -/
theorem C9_witness :
    ∃ r, main cfg3 = .ok r ∧
      ∀ e ∈ r.out, 1 ≤ e.vertices.length ∧ e.vertices.length ≤ cfg3.MAXLEAFS :=
  (C9_bounds cfg3 (by decide)).2

/-- C10: in every reachable state the word of every active type has length
`length`, the word of every leaf has length at most `length`, and none of
the four moves changes a row of `leafs` below `nleafs`. -/
theorem C10_lengths (cfg : Config) (hM : 1 ≤ cfg.MAXLEAFS) (s : State)
    (hR : Reachable cfg s) :
    (∀ k, k < s.ntypes → strlen (tyrow s k) = s.length) ∧
    (∀ k, k < s.nleafs → strlen (leafrow s k) ≤ s.length) ∧
    (∀ k, k < s.nleafs → ∀ i j,
      leafrow (leafStep s i) k = leafrow s k ∧ leafrow (branchStep s i) k = leafrow s k ∧
      leafrow (perpStep s i j) k = leafrow s k ∧ leafrow (precStep s i j) k = leafrow s k) := by
  have hI := reach_inv hM hR
  refine ⟨fun k hk => inv_strlen hI hk, hI.leaf_len, fun k hk i j => ⟨?_, rfl, rfl, rfl⟩⟩
  show (s.leafs.set s.nleafs _).getD k [] = _
  rw [getD_set, if_neg (by omega)]
  rfl

/-- The witness of C10: the two types `O` and `R` have words of length 1. -/
theorem C10_witness :
    strlen (tyrow twoTypes 0) = twoTypes.length ∧
    strlen (tyrow twoTypes 1) = twoTypes.length :=
  ⟨(C10_lengths cfg3 (by decide) twoTypes twoTypes_reachable).1 0 (by decide),
    (C10_lengths cfg3 (by decide) twoTypes twoTypes_reachable).1 1 (by decide)⟩

/-! ## Further facts about the relation predicates -/

theorem prec_ltlex (a b : List Nat) : prec a b = true → ltlex a b = true := by
  induction a generalizing b with
  | nil => intro h; simp [prec] at h
  | cons x a ih =>
    cases b with
    | nil => intro h; simp [prec] at h
    | cons y b =>
      intro h
      unfold prec at h
      unfold ltlex
      split_ifs at h with h0 h1 h2
      · rw [if_neg h0, if_pos (show x < y by rw [h2.1, h2.2]; decide)]
      · rw [if_neg h0]
        by_cases hxy : x < y
        · rw [if_pos hxy]
        · rw [if_neg hxy, if_neg h1]
          exact ih b h

theorem ltlex_prec_false (a b : List Nat) : ltlex a b = true → prec b a = false := by
  induction a generalizing b with
  | nil => intro h; simp [ltlex] at h
  | cons x a ih =>
    cases b with
    | nil => intro h; simp [ltlex] at h
    | cons y b =>
      intro h
      unfold ltlex at h
      unfold prec
      split_ifs at h with h0 h1 h2
      · rw [if_neg (show ¬ (y = 0 ∨ x = 0) by tauto), if_pos (show y > x from h1)]
      · have hxy : x = y := by omega
        rw [if_neg (show ¬ (y = 0 ∨ x = 0) by tauto), if_neg (show ¬ y > x by omega),
          if_neg (show ¬ (y = chL ∧ x = chR) by
            rintro ⟨e1, e2⟩
            rw [e1, e2] at hxy
            exact absurd hxy (by decide))]
        exact ih b h

theorem perpFrom_swap (f1 f2 : Bool) (a b : List Nat) :
    perpFrom f1 f2 a b = perpFrom f2 f1 b a := by
  induction a generalizing b f1 f2 with
  | nil => cases b <;> simp [perpFrom]
  | cons x a ih =>
    cases b with
    | nil => simp [perpFrom]
    | cons y b =>
      unfold perpFrom
      by_cases h0 : x = 0 ∨ y = 0
      · rw [if_pos h0, if_pos (show y = 0 ∨ x = 0 by tauto)]
      · rw [if_neg h0, if_neg (show ¬ (y = 0 ∨ x = 0) by tauto)]
        simp only []
        rw [ih]
        by_cases c : ((if x < y then true else f1) = true ∧ (if x > y then true else f2) = true)
        · rw [if_pos c, if_pos (show (if y < x then true else f2) = true ∧
            (if y > x then true else f1) = true from ⟨c.2, c.1⟩)]
        · rw [if_neg c, if_neg (show ¬ ((if y < x then true else f2) = true ∧
            (if y > x then true else f1) = true) from fun h => c ⟨h.2, h.1⟩)]

theorem perp_swap (a b : List Nat) : perp a b = perp b a :=
  perpFrom_swap false false a b

theorem prec_iff_pos (a b : List Nat) (ha : NoNul a) (hb : NoNul b) :
    prec a b = true ↔
      ∃ p, p < a.length ∧ p < b.length ∧ a.getD p 0 = chL ∧ b.getD p 0 = chR ∧
        ∀ q, q < p → ¬ (a.getD q 0 > b.getD q 0) := by
  induction a generalizing b with
  | nil =>
    constructor
    · intro h; simp [prec] at h
    · rintro ⟨p, hp, _⟩; exact absurd hp (Nat.not_lt_zero _)
  | cons x a ih =>
    cases b with
    | nil =>
      constructor
      · intro h; simp [prec] at h
      · rintro ⟨p, _, hp, _⟩; exact absurd hp (Nat.not_lt_zero _)
    | cons y b =>
      have hx := (noNul_cons.1 ha).1
      have hy := (noNul_cons.1 hb).1
      have IH := ih b (noNul_cons.1 ha).2 (noNul_cons.1 hb).2
      rw [prec_cons x y a b hx hy]
      constructor
      · intro h
        rw [Bool.and_eq_true, Bool.or_eq_true] at h
        obtain ⟨h1, h2⟩ := h
        have hle : ¬ y < x := by simpa using h1
        rcases h2 with h2 | h2
        · have h2' : x = chL ∧ y = chR := of_decide_eq_true h2
          exact ⟨0, Nat.succ_pos _, Nat.succ_pos _, h2'.1, h2'.2,
            fun q hq => absurd hq (Nat.not_lt_zero _)⟩
        · obtain ⟨p, hp1, hp2, hp3, hp4, hp5⟩ := IH.1 h2
          refine ⟨p + 1, Nat.succ_lt_succ hp1, Nat.succ_lt_succ hp2, hp3, hp4, ?_⟩
          intro q hq
          cases q with
          | zero => exact hle
          | succ q => exact hp5 q (by omega)
      · rintro ⟨p, hp1, hp2, hp3, hp4, hp5⟩
        rw [Bool.and_eq_true, Bool.or_eq_true]
        cases p with
        | zero =>
          have e1 : x = chL := hp3
          have e2 : y = chR := hp4
          refine ⟨?_, Or.inl (decide_eq_true ⟨e1, e2⟩)⟩
          rw [e1, e2]
          decide
        | succ p =>
          have h0 : ¬ (x > y) := hp5 0 (Nat.succ_pos _)
          refine ⟨by simpa using h0, Or.inr ?_⟩
          exact IH.2 ⟨p, by simpa using hp1, by simpa using hp2, hp3, hp4,
            fun q hq => hp5 (q + 1) (by omega)⟩

theorem abc_noNul {w : List Nat} (h : ∀ c ∈ w, c = chL ∨ c = chO ∨ c = chR) : NoNul w := by
  intro c hc
  rcases h c hc with e | e | e <;> rw [e] <;> decide

/-- C15: for all words `a` and `b` over `L`, `O`, `R` (stored in buffers with
any content after the terminator), `prec (a, b)` returns true exactly when
some position `p` below both lengths has `a[p] = 'L'` and `b[p] = 'R'` and no
position `q < p` has `a[q] > b[q]`. -/
theorem C15_prec_characterised (a b : List Nat)
    (ha : ∀ c ∈ a, c = chL ∨ c = chO ∨ c = chR)
    (hb : ∀ c ∈ b, c = chL ∨ c = chO ∨ c = chR) :
    (∀ x y, prec (a ++ 0 :: x) (b ++ 0 :: y) = prec a b) ∧
    (prec a b = true ↔
      ∃ p, p < a.length ∧ p < b.length ∧ a.getD p 0 = chL ∧ b.getD p 0 = chR ∧
        ∀ q, q < p → ¬ (a.getD q 0 > b.getD q 0)) := by
  refine ⟨fun x y => ?_, prec_iff_pos a b (abc_noNul ha) (abc_noNul hb)⟩
  rw [prec_cstr, cstr_append_nul a x (abc_noNul ha), cstr_append_nul b y (abc_noNul hb)]

/-- The witness of C15: the words `OL` and `RR`. -/
theorem C15_witness :
    ∃ p, p < [chO, chL].length ∧ p < [chR, chR].length ∧ [chO, chL].getD p 0 = chL ∧
      [chR, chR].getD p 0 = chR ∧ ∀ q, q < p → ¬ ([chO, chL].getD q 0 > [chR, chR].getD q 0) :=
  (C15_prec_characterised [chO, chL] [chR, chR] (by decide) (by decide)).2.1 (by decide)

/-- C20: for all words `a` and `b`, `prec (a, b)` implies `ltlex (a, b)`; hence
`ltlex (a, b)` makes `prec (b, a)` false, and then the test
`!perp (a, b) && !prec (a, b)` holds exactly when the pair is unrelated in
both directions.  In a reachable state the list is sorted by `ltlex`, so for
`i < j` the test of `doperp`, `doprec` and `counts` decides exactly that. -/
theorem C20_prec_implies_ltlex (a b : List Nat) :
    (prec a b = true → ltlex a b = true) ∧
    (ltlex a b = true → prec b a = false) ∧
    (ltlex a b = true →
      ((!perp a b && !prec a b) = true ↔
        (prec a b = false ∧ prec b a = false ∧ perp a b = false ∧ perp b a = false))) ∧
    (∀ (cfg : Config) (s : State), 1 ≤ cfg.MAXLEAFS → Reachable cfg s →
      ∀ i j, i < j → j < s.ntypes →
        ltlex (tyrow s i) (tyrow s j) = true ∧
        (unrelated s i j = true ↔
          (prec (tyrow s i) (tyrow s j) = false ∧ prec (tyrow s j) (tyrow s i) = false ∧
            perp (tyrow s i) (tyrow s j) = false ∧ perp (tyrow s j) (tyrow s i) = false))) := by
  have key : ∀ a b : List Nat, ltlex a b = true →
      ((!perp a b && !prec a b) = true ↔
        (prec a b = false ∧ prec b a = false ∧ perp a b = false ∧ perp b a = false)) := by
    intro a b h
    have h1 := ltlex_prec_false a b h
    rw [perp_swap b a, Bool.and_eq_true, Bool.not_eq_true', Bool.not_eq_true']
    tauto
  refine ⟨prec_ltlex a b, ltlex_prec_false a b, key a b, ?_⟩
  intro cfg s hM hR i j hij hj
  have hlt := inv_lt (reach_inv hM hR) hij hj
  exact ⟨hlt, key _ _ hlt⟩

/-- The witness of C20: the words `OL` and `RR`. -/
theorem C20_witness : ltlex [chO, chL] [chR, chR] = true ∧ prec [chR, chR] [chO, chL] = false :=
  ⟨(C20_prec_implies_ltlex [chO, chL] [chR, chR]).1 (by decide),
    (C20_prec_implies_ltlex [chO, chL] [chR, chR]).2.1 (by decide)⟩

theorem perpPair_reachable : Reachable cfg3 perpPair :=
  Reachable.perp twoTypes 0 1 twoTypes_reachable (by decide) (by decide) (by decide)
    (by decide) (by decide)

/-- C13, as the code has it: in a reachable state in which the branch move
applies, when the type `i` is split the split type keeps its relation count
and the new right copy at `i + 1` starts with that same count; every other
active type keeps its count when it is not related (`prec` or `perp`) to the
split type, and its count rises by one when it is, the right copy being a
further type it is related to. -/
theorem C13_branch_relations (cfg : Config) (hM : 1 ≤ cfg.MAXLEAFS) (s : State)
    (hR : Reachable cfg s) (hL : s.length < MAXLENGTH cfg)
    (hg : branchGate cfg s = .ok true) (i : Nat) (hi : i < s.ntypes) :
    (branchStep s i).relations.getD i 0 = s.relations.getD i 0 ∧
    (branchStep s i).relations.getD (i + 1) 0 = s.relations.getD i 0 ∧
    (∀ k, k < i → (branchStep s i).relations.getD k 0 =
      s.relations.getD k 0 + (if related s k i = true then 1 else 0)) ∧
    (∀ k, i < k → k < s.ntypes → (branchStep s i).relations.getD (k + 1) 0 =
      s.relations.getD k 0 + (if related s i k = true then 1 else 0)) := by
  have hI := reach_inv hM hR
  have hn := (branchGate_true hg).1
  have h := (branchStep_rels hI hL hi hn).2
  refine ⟨?_, ?_, ?_, ?_⟩
  · have := h i (by omega)
    rw [this]
    have e : branchSrc i i = i := if_pos (Nat.le_refl i)
    rw [e, symRel_self]
    simp
  · have := h (i + 1) (by omega)
    rw [this]
    have e : branchSrc i (i + 1) = i := by
      unfold branchSrc
      rw [if_neg (by omega)]
      rfl
    rw [e, symRel_self]
    simp
  · intro k hk
    have := h k (by omega)
    rw [this]
    have e : branchSrc i k = k := if_pos (by omega)
    rw [e, symRel_lt s hk]
  · intro k hik hk
    have := h (k + 1) (by omega)
    rw [this]
    have e : branchSrc i (k + 1) = k := by
      unfold branchSrc
      rw [if_neg (by omega)]
      rfl
    rw [e, symRel_comm, symRel_lt s hik]

/-- The witness of C13: the first of the two types `O`, `R` is split. -/
theorem C13_witness :
    (branchStep twoTypes 0).relations.getD 0 0 = twoTypes.relations.getD 0 0 ∧
    (branchStep twoTypes 0).relations.getD 1 0 = twoTypes.relations.getD 0 0 :=
  ⟨(C13_branch_relations cfg3 (by decide) twoTypes twoTypes_reachable (by decide)
      (by decide) 0 (by decide)).1,
    (C13_branch_relations cfg3 (by decide) twoTypes twoTypes_reachable (by decide)
      (by decide) 0 (by decide)).2.1⟩

/-- C13 as stated fails: in the reachable state with the two incomparable
types `OR` and `RO` the branch move applies, and when `OR` is split the
relation count of the existing type `RO` rises from 1 to 2. -/
theorem C13_counterexample :
    Reachable cfg3 perpPair ∧ perpPair.length < MAXLENGTH cfg3 ∧
    branchGate cfg3 perpPair = .ok true ∧
    cstr (tyrow perpPair 1) = [chR, chO] ∧ perpPair.relations.getD 1 0 = 1 ∧
    cstr (tyrow (branchStep perpPair 0) 2) = [chR, chO, chR] ∧
    (branchStep perpPair 0).relations.getD 2 0 = 2 :=
  ⟨perpPair_reachable, by decide, by decide, by decide, by decide, by decide, by decide⟩

/-! ## Termination from every state -/

section Halting

variable {cfg : Config}

theorem countsRows_error (s : State) (l : List Nat) :
    ∀ (acc : Int × Int × List Int) (e : Fault), countsRows s l acc = .error e →
      e = .exitLength ∨ e = .exitOrder := by
  induction l with
  | nil => intro acc e h; simp [countsRows] at h
  | cons i rest ih =>
    intro acc e h
    unfold countsRows at h
    split_ifs at h with h1 h2
    · left; injection h with h; exact h.symm
    · right; injection h with h; exact h.symm
    · exact ih _ e h

theorem counts_error {s : State} {e : Fault} (h : counts cfg s = .error e) :
    e = .exitLength ∨ e = .exitOrder ∨ e = .abortRelations := by
  unfold counts at h
  cases hc : countsRows s (List.range s.ntypes) (0, 0, List.replicate (MAXTYPES cfg) 0) with
  | error e1 =>
    rw [hc] at h
    have e2 : e1 = e := by injection h
    rcases countsRows_error s _ _ e1 hc with h1 | h1
    · left; rw [← e2, h1]
    · right; left; rw [← e2, h1]
  | ok acc =>
    rw [hc] at h
    obtain ⟨c1, c2, nrel⟩ := acc
    simp only [] at h
    split_ifs at h
    right; right
    injection h with h
    exact h.symm

theorem counts_stops {s : State} {e : Fault} (h : counts cfg s = .error e) : Stops cfg e := by
  rcases counts_error h with h1 | h1 | h1 <;> rw [h1] <;>
    exact ⟨by decide, fun _ => ⟨by decide, by decide⟩⟩

theorem checked_stops {s : State} {e : Fault} (h : checked cfg s = .error e) :
    Stops cfg e := by
  unfold checked at h
  split_ifs at h
  exact counts_stops h

theorem branchGate_stops {s : State} {e : Fault} (h : branchGate cfg s = .error e) :
    Stops cfg e := by
  unfold branchGate at h
  split_ifs at h
  cases hc : counts cfg s with
  | error e1 =>
    rw [hc] at h
    have e2 : e1 = e := by injection h
    rw [← e2]
    exact counts_stops hc
  | ok c =>
    rw [hc] at h
    obtain ⟨c1, c2⟩ := c
    simp only [] at h
    split_ifs at h

theorem forLoop_halts {σ : Type} (bound : σ → Nat) (body : Nat → σ → Except Fault σ)
    (P : σ → Prop) (n : Nat) (hbound : ∀ st, P st → bound st = n)
    (hbody : ∀ i st, P st → i < n →
      (∃ st1, body i st = .ok st1 ∧ P st1) ∨ (∃ e, body i st = .error e ∧ Stops cfg e)) :
    ∀ (f i : Nat) (st : σ), P st → n - i < f →
      (∃ st1, forLoop bound body f i st = .ok st1 ∧ P st1) ∨
        (∃ e, forLoop bound body f i st = .error e ∧ Stops cfg e) := by
  intro f
  induction f with
  | zero => intro i st _ hf; exact absurd hf (Nat.not_lt_zero _)
  | succ f ih =>
    intro i st hP hf
    unfold forLoop
    rw [hbound st hP]
    by_cases c : i < n
    · rw [if_pos c]
      rcases hbody i st hP c with ⟨st1, h1, h2⟩ | ⟨e, h1, h2⟩
      · rw [h1]
        exact ih (i + 1) st1 h2 (by omega)
      · rw [h1]
        exact Or.inr ⟨e, rfl, h2⟩
    · rw [if_neg c]
      exact Or.inl ⟨st, rfl, hP⟩

theorem doleafBody_halts {s : State} {rec : State → Except Fault Run}
    (hrec : RecHalts cfg rec (s.length + 1)) (hn : s.ntypes ≤ MAXTYPES cfg)
    (hn0 : s.ntypes ≠ 0) (i : Nat) (lp : Loop)
    (hP : lp.st.length = s.length ∧ lp.st.ntypes = s.ntypes) :
    (∃ lp1, doleafBody rec i lp = .ok lp1 ∧
      (lp1.st.length = s.length ∧ lp1.st.ntypes = s.ntypes)) ∨
    (∃ e, doleafBody rec i lp = .error e ∧ Stops cfg e) := by
  obtain ⟨p1, p2⟩ := hP
  unfold doleafBody
  by_cases c : lp.st.relations.getD i 0 ≠ (lp.st.ntypes : Int) - 1
  · rw [if_pos c]
    exact Or.inl ⟨lp, rfl, p1, p2⟩
  · rw [if_neg c]
    simp only []
    by_cases c1 : (leafMark lp.st i).ntypes = 1
    · rw [if_pos c1]
      exact Or.inl ⟨_, rfl, p1, p2⟩
    · rw [if_neg c1]
      have hlen : (leafShift (leafMark lp.st i) i).length = s.length + 1 := by
        show lp.st.length + 1 = s.length + 1
        rw [p1]
      have hnt : (leafShift (leafMark lp.st i) i).ntypes ≤ MAXTYPES cfg := by
        show lp.st.ntypes - 1 ≤ MAXTYPES cfg
        rw [p2]; omega
      rcases hrec _ hlen hnt with ⟨r, hr, q1, q2⟩ | ⟨e, hr, hs⟩
      · rw [hr]
        refine Or.inl ⟨_, rfl, ?_, ?_⟩
        · show r.st.length - 1 = s.length
          rw [q1, hlen]; omega
        · show r.st.ntypes + 1 = s.ntypes
          rw [q2]
          show lp.st.ntypes - 1 + 1 = s.ntypes
          rw [p2]; omega
      · rw [hr]
        exact Or.inr ⟨e, rfl, hs⟩

theorem doleaf_halts {s : State} {rec : State → Except Fault Run}
    (hrec : RecHalts cfg rec (s.length + 1)) (hn : s.ntypes ≤ MAXTYPES cfg) :
    Halts cfg s (doleaf cfg rec s) := by
  unfold doleaf
  by_cases c : s.nleafs = cfg.MAXLEAFS ∨ s.ntypes = 0
  · rw [if_pos c]
    exact Or.inl ⟨_, rfl, rfl, rfl⟩
  · rw [if_neg c]
    have hn0 : s.ntypes ≠ 0 := fun h => c (Or.inr h)
    rcases forLoop_halts (fun lp : Loop => lp.st.ntypes) (doleafBody rec)
      (fun lp => lp.st.length = s.length ∧ lp.st.ntypes = s.ntypes) s.ntypes
      (fun st h => h.2) (fun i st hP _ => doleafBody_halts hrec hn hn0 i st hP)
      (MAXTYPES cfg + 1) 0
      { st := s, out := [], bckup := false, bckuptypes := [], bckuprelations := [] }
      ⟨rfl, rfl⟩ (by omega) with ⟨lp, h1, h2⟩ | ⟨e, h1, h2⟩
    · rw [h1]
      exact Or.inl ⟨_, rfl, h2.1, h2.2⟩
    · rw [h1]
      exact Or.inr ⟨e, rfl, h2⟩

theorem dobranchBody_halts {s : State} {rec : State → Except Fault Run}
    (hrec : RecHalts cfg rec (s.length + 1)) (hn : s.ntypes < MAXTYPES cfg)
    (i : Nat) (lp : Loop) (hP : lp.st.length = s.length ∧ lp.st.ntypes = s.ntypes) :
    (∃ lp1, dobranchBody rec i lp = .ok lp1 ∧
      (lp1.st.length = s.length ∧ lp1.st.ntypes = s.ntypes)) ∨
    (∃ e, dobranchBody rec i lp = .error e ∧ Stops cfg e) := by
  obtain ⟨p1, p2⟩ := hP
  unfold dobranchBody
  have hlen : (branchStep lp.st i).length = s.length + 1 := by
    show lp.st.length + 1 = s.length + 1
    rw [p1]
  have hnt : (branchStep lp.st i).ntypes ≤ MAXTYPES cfg := by
    show lp.st.ntypes + 1 ≤ MAXTYPES cfg
    rw [p2]; omega
  rcases hrec _ hlen hnt with ⟨r, hr, q1, q2⟩ | ⟨e, hr, hs⟩
  · rw [hr]
    refine Or.inl ⟨_, rfl, ?_, ?_⟩
    · show r.st.length - 1 = s.length
      rw [q1, hlen]; omega
    · show r.st.ntypes - 1 = s.ntypes
      rw [q2]
      show lp.st.ntypes + 1 - 1 = s.ntypes
      rw [p2]; omega
  · rw [hr]
    exact Or.inr ⟨e, rfl, hs⟩

theorem dobranch_halts {s : State} {rec : State → Except Fault Run}
    (hrec : RecHalts cfg rec (s.length + 1)) : Halts cfg s (dobranch cfg rec s) := by
  unfold dobranch
  cases hg : branchGate cfg s with
  | error e => exact Or.inr ⟨e, rfl, branchGate_stops hg⟩
  | ok b =>
    cases b with
    | false => exact Or.inl ⟨_, rfl, rfl, rfl⟩
    | true =>
      have hlt := (branchGate_true hg).1
      simp only []
      rcases forLoop_halts (fun lp : Loop => lp.st.ntypes) (dobranchBody rec)
        (fun lp => lp.st.length = s.length ∧ lp.st.ntypes = s.ntypes) s.ntypes
        (fun st h => h.2) (fun i st hP _ => dobranchBody_halts hrec hlt i st hP)
        (MAXTYPES cfg + 1) 0
        { st := s, out := [], bckup := true, bckuptypes := s.types,
          bckuprelations := s.relations }
        ⟨rfl, rfl⟩ (by omega) with ⟨lp, h1, h2⟩ | ⟨e, h1, h2⟩
      · rw [h1]
        exact Or.inl ⟨_, rfl, h2.1, h2.2⟩
      · rw [h1]
        exact Or.inr ⟨e, rfl, h2⟩

end Halting

section HaltingRelations

variable {cfg : Config}

theorem relationTail_halts {s : State} {rec : State → Except Fault Run}
    (hrec : RecHalts cfg rec (s.length + 1)) (hn : s.ntypes ≤ MAXTYPES cfg)
    (isPerp : Bool) (c : Int × Int) (i j : Nat) (bt : List (List Nat)) (lp : Loop)
    (s1 : State) (hP : lp.st.length = s.length ∧ lp.st.ntypes = s.ntypes)
    (h1 : s1.length = lp.st.length + 1) (h2 : s1.ntypes = lp.st.ntypes) :
    (∃ lp1, relationTail cfg rec isPerp c i j bt lp s1 = .ok lp1 ∧
      (lp1.st.length = s.length ∧ lp1.st.ntypes = s.ntypes)) ∨
    (∃ e, relationTail cfg rec isPerp c i j bt lp s1 = .error e ∧ Stops cfg e) := by
  obtain ⟨p1, p2⟩ := hP
  unfold relationTail
  cases hc : checked cfg s1 with
  | error e => exact Or.inr ⟨e, rfl, checked_stops hc⟩
  | ok cc =>
    simp only []
    by_cases c1 : cfg.analcheck = true ∧ isPerp = true ∧ (cc.1 ≠ c.1 ∨ cc.2 ≠ c.2 + 1)
    · rw [if_pos c1]
      refine Or.inr ⟨_, rfl, by decide, fun h => ?_⟩
      rw [c1.1] at h
      exact absurd h (by decide)
    · rw [if_neg c1]
      by_cases c2 : cfg.analcheck = true ∧ isPerp = false ∧ (cc.1 ≠ c.1 + 1 ∨ cc.2 ≠ c.2)
      · rw [if_pos c2]
        refine Or.inr ⟨_, rfl, by decide, fun h => ?_⟩
        rw [c2.1] at h
        exact absurd h (by decide)
      · rw [if_neg c2]
        rcases hrec s1 (by rw [h1, p1]) (by rw [h2, p2]; exact hn) with
          ⟨r, hr, q1, q2⟩ | ⟨e, hr, hs⟩
        · rw [hr]
          refine Or.inl ⟨_, rfl, ?_, ?_⟩
          · show r.st.length - 1 = s.length
            rw [q1, h1, p1]; omega
          · show r.st.ntypes = s.ntypes
            rw [q2, h2, p2]
        · rw [hr]
          exact Or.inr ⟨e, rfl, hs⟩

theorem doperpBody_halts {s : State} {rec : State → Except Fault Run}
    (hrec : RecHalts cfg rec (s.length + 1)) (hn : s.ntypes ≤ MAXTYPES cfg)
    (c : Int × Int) (i j : Nat) (lp : Loop)
    (hP : lp.st.length = s.length ∧ lp.st.ntypes = s.ntypes) :
    (∃ lp1, doperpBody cfg rec c i j lp = .ok lp1 ∧
      (lp1.st.length = s.length ∧ lp1.st.ntypes = s.ntypes)) ∨
    (∃ e, doperpBody cfg rec c i j lp = .error e ∧ Stops cfg e) := by
  unfold doperpBody
  by_cases c1 : unrelated lp.st i j = true
  · rw [if_pos c1]
    by_cases c2 : j ≠ condA lp.st i j
    · rw [if_pos c2]
      exact Or.inl ⟨lp, rfl, hP⟩
    · rw [if_neg c2]
      exact relationTail_halts hrec hn true c i j _ lp _ hP rfl rfl
  · rw [if_neg c1]
    exact Or.inl ⟨lp, rfl, hP⟩

theorem doprecBody_halts {s : State} {rec : State → Except Fault Run}
    (hrec : RecHalts cfg rec (s.length + 1)) (hn : s.ntypes ≤ MAXTYPES cfg)
    (c : Int × Int) (i j : Nat) (lp : Loop)
    (hP : lp.st.length = s.length ∧ lp.st.ntypes = s.ntypes) :
    (∃ lp1, doprecBody cfg rec c i j lp = .ok lp1 ∧
      (lp1.st.length = s.length ∧ lp1.st.ntypes = s.ntypes)) ∨
    (∃ e, doprecBody cfg rec c i j lp = .error e ∧ Stops cfg e) := by
  unfold doprecBody
  by_cases c1 : unrelated lp.st i j = true
  · rw [if_pos c1]
    by_cases c2 : condB1 lp.st i j ≠ i
    · rw [if_pos c2]
      exact Or.inl ⟨lp, rfl, hP⟩
    · rw [if_neg c2]
      by_cases c3 : condB2 lp.st i j ≠ lp.st.ntypes
      · rw [if_pos c3]
        exact Or.inl ⟨lp, rfl, hP⟩
      · rw [if_neg c3]
        exact relationTail_halts hrec hn false c i j _ lp _ hP rfl rfl
  · rw [if_neg c1]
    exact Or.inl ⟨lp, rfl, hP⟩

theorem pairLoop_halts {s : State} (hn : s.ntypes ≤ MAXTYPES cfg)
    (body : Nat → Nat → Loop → Except Fault Loop)
    (hbody : ∀ i j lp, (lp.st.length = s.length ∧ lp.st.ntypes = s.ntypes) →
      (∃ lp1, body i j lp = .ok lp1 ∧ (lp1.st.length = s.length ∧ lp1.st.ntypes = s.ntypes)) ∨
      (∃ e, body i j lp = .error e ∧ Stops cfg e)) (lp0 : Loop)
    (h0 : lp0.st.length = s.length ∧ lp0.st.ntypes = s.ntypes) :
    (∃ lp, forLoop (fun lp : Loop => lp.st.ntypes)
        (fun i lp => forLoop (fun lp : Loop => lp.st.ntypes) (body i)
          (MAXTYPES cfg + 1) (i + 1) lp)
        (MAXTYPES cfg + 1) 0 lp0 = .ok lp ∧
      (lp.st.length = s.length ∧ lp.st.ntypes = s.ntypes)) ∨
    (∃ e, forLoop (fun lp : Loop => lp.st.ntypes)
        (fun i lp => forLoop (fun lp : Loop => lp.st.ntypes) (body i)
          (MAXTYPES cfg + 1) (i + 1) lp)
        (MAXTYPES cfg + 1) 0 lp0 = .error e ∧ Stops cfg e) := by
  apply forLoop_halts (fun lp : Loop => lp.st.ntypes) _
    (fun lp => lp.st.length = s.length ∧ lp.st.ntypes = s.ntypes) s.ntypes
    (fun st h => h.2) _ (MAXTYPES cfg + 1) 0 lp0 h0 (by omega)
  intro i st hP _
  exact forLoop_halts (fun lp : Loop => lp.st.ntypes) (body i)
    (fun lp => lp.st.length = s.length ∧ lp.st.ntypes = s.ntypes) s.ntypes
    (fun st h => h.2) (fun j st hP _ => hbody i j st hP) (MAXTYPES cfg + 1) (i + 1) st hP
    (by omega)

theorem doperp_halts {s : State} {rec : State → Except Fault Run}
    (hrec : RecHalts cfg rec (s.length + 1)) (hn : s.ntypes ≤ MAXTYPES cfg) :
    Halts cfg s (doperp cfg rec s) := by
  unfold doperp
  cases hc : checked cfg s with
  | error e => exact Or.inr ⟨e, rfl, checked_stops hc⟩
  | ok c =>
    simp only []
    rcases pairLoop_halts hn (doperpBody cfg rec c)
      (fun i j lp hP => doperpBody_halts hrec hn c i j lp hP)
      { st := s, out := [], bckup := false, bckuptypes := [], bckuprelations := [] }
      ⟨rfl, rfl⟩ with ⟨lp, h1, h2⟩ | ⟨e, h1, h2⟩
    · rw [h1]
      exact Or.inl ⟨_, rfl, h2.1, h2.2⟩
    · rw [h1]
      exact Or.inr ⟨e, rfl, h2⟩

theorem doprec_halts {s : State} {rec : State → Except Fault Run}
    (hrec : RecHalts cfg rec (s.length + 1)) (hn : s.ntypes ≤ MAXTYPES cfg) :
    Halts cfg s (doprec cfg rec s) := by
  unfold doprec
  cases hc : checked cfg s with
  | error e => exact Or.inr ⟨e, rfl, checked_stops hc⟩
  | ok c =>
    simp only []
    rcases pairLoop_halts hn (doprecBody cfg rec c)
      (fun i j lp hP => doprecBody_halts hrec hn c i j lp hP)
      { st := s, out := [], bckup := false, bckuptypes := [], bckuprelations := [] }
      ⟨rfl, rfl⟩ with ⟨lp, h1, h2⟩ | ⟨e, h1, h2⟩
    · rw [h1]
      exact Or.inl ⟨_, rfl, h2.1, h2.2⟩
    · rw [h1]
      exact Or.inr ⟨e, rfl, h2⟩

theorem attempt_halts {s : State} (gen : State → Except Fault Run) (r : Run)
    (hs : r.st.length = s.length ∧ r.st.ntypes = s.ntypes)
    (hgen : Halts cfg r.st (gen r.st)) :
    (∃ r1, attempt cfg gen r = .ok r1 ∧ (r1.st.length = s.length ∧ r1.st.ntypes = s.ntypes)) ∨
    (∃ e, attempt cfg gen r = .error e ∧ Stops cfg e) := by
  unfold attempt
  cases hc : checked cfg r.st with
  | error e => exact Or.inr ⟨e, rfl, checked_stops hc⟩
  | ok c =>
    simp only []
    rcases hgen with ⟨r1, h1, q1, q2⟩ | ⟨e, h1, h2⟩
    · rw [h1]
      exact Or.inl ⟨_, rfl, by rw [← hs.1]; exact q1, by rw [← hs.2]; exact q2⟩
    · rw [h1]
      exact Or.inr ⟨e, rfl, h2⟩

theorem recurse_halts : ∀ (fuel : Nat) (s : State), s.ntypes ≤ MAXTYPES cfg →
    MAXLENGTH cfg - s.length < fuel → Halts cfg s (recurse cfg fuel s) := by
  intro fuel
  induction fuel with
  | zero => intro s _ hf; exact absurd hf (Nat.not_lt_zero _)
  | succ fuel ih =>
    intro s hn hf
    unfold recurse
    by_cases c : s.length ≥ MAXLENGTH cfg
    · rw [if_pos c]
      exact Or.inl ⟨_, rfl, rfl, rfl⟩
    · rw [if_neg c]
      have hrec : ∀ u : State, u.length = s.length →
          RecHalts cfg (recurse cfg fuel) (u.length + 1) :=
        fun u hu t ht hnt => ih t hnt (by omega)
      rcases attempt_halts (s := s) (doleaf cfg (recurse cfg fuel)) { st := s, out := [] }
        ⟨rfl, rfl⟩ (doleaf_halts (hrec s rfl) hn) with ⟨r1, h1, q1⟩ | ⟨e, h1, h2⟩
      · rw [h1]
        simp only []
        rcases attempt_halts (s := s) (dobranch cfg (recurse cfg fuel)) r1 q1
          (dobranch_halts (hrec r1.st q1.1)) with ⟨r2, h2, q2⟩ | ⟨e, h2, h3⟩
        · rw [h2]
          simp only []
          rcases attempt_halts (s := s) (doperp cfg (recurse cfg fuel)) r2 q2
            (doperp_halts (hrec r2.st q2.1) (by rw [q2.2]; exact hn)) with
            ⟨r3, h3, q3⟩ | ⟨e, h3, h4⟩
          · rw [h3]
            simp only []
            rcases attempt_halts (s := s) (doprec cfg (recurse cfg fuel)) r3 q3
              (doprec_halts (hrec r3.st q3.1) (by rw [q3.2]; exact hn)) with
              ⟨r4, h4, q4⟩ | ⟨e, h4, h5⟩
            · exact Or.inl ⟨r4, h4, q4.1, q4.2⟩
            · exact Or.inr ⟨e, h4, h5⟩
          · rw [h3]
            exact Or.inr ⟨e, rfl, h4⟩
        · rw [h2]
          exact Or.inr ⟨e, rfl, h3⟩
      · rw [h1]
        exact Or.inr ⟨e, rfl, h2⟩

end HaltingRelations

/-- C11: the search driver terminates from every state whose `ntypes` is
within the bound `MAXTYPES` of the arrays: `recurse` makes no move and
changes nothing when `length >= MAXLENGTH`, every move hands a state one
deeper to `recurse`, and so `MAXLENGTH - length + 1` levels of recursion are
enough for `recurse`, and for each of `doleaf`, `dobranch`, `doperp` and
`doprec`, to return with the depth it was given or to stop the program. -/
theorem C11_terminates (cfg : Config) (s : State) (hn : s.ntypes ≤ MAXTYPES cfg) :
    recurse cfg (MAXLENGTH cfg - s.length + 1) s ≠ .error .outOfFuel ∧
    (∀ fuel, MAXLENGTH cfg - s.length < fuel → Halts cfg s (recurse cfg fuel s)) ∧
    (∀ fuel, MAXLENGTH cfg ≤ s.length →
      recurse cfg (fuel + 1) s = .ok { st := s, out := [] }) ∧
    (∀ i j, (leafStep s i).length = s.length + 1 ∧ (branchStep s i).length = s.length + 1 ∧
      (perpStep s i j).length = s.length + 1 ∧ (precStep s i j).length = s.length + 1) ∧
    (∀ fuel, MAXLENGTH cfg - (s.length + 1) < fuel →
      Halts cfg s (doleaf cfg (recurse cfg fuel) s) ∧
      Halts cfg s (dobranch cfg (recurse cfg fuel) s) ∧
      Halts cfg s (doperp cfg (recurse cfg fuel) s) ∧
      Halts cfg s (doprec cfg (recurse cfg fuel) s)) := by
  refine ⟨?_, fun fuel hf => recurse_halts fuel s hn hf, ?_, fun i j => ⟨rfl, rfl, rfl, rfl⟩, ?_⟩
  · intro h
    rcases recurse_halts (MAXLENGTH cfg - s.length + 1) s hn (Nat.lt_succ_self _) with
      ⟨r, hr, _⟩ | ⟨e, hr, hs⟩
    · rw [hr] at h
      exact absurd h (by simp)
    · rw [hr] at h
      injection h with h
      exact hs.1 h
  · intro fuel hL
    unfold recurse
    rw [if_pos hL]
  · intro fuel hf
    have hrec : RecHalts cfg (recurse cfg fuel) (s.length + 1) :=
      fun t ht hnt => recurse_halts fuel t hnt (by rw [ht]; exact hf)
    exact ⟨doleaf_halts hrec hn, dobranch_halts hrec, doperp_halts hrec hn,
      doprec_halts hrec hn⟩

/-- The witness of C11: two types at depth 8, a state the search never
reaches. -/
theorem C11_witness :
    recurse cfg3 (MAXLENGTH cfg3 - deepPair.length + 1) deepPair ≠ .error .outOfFuel :=
  (C11_terminates cfg3 deepPair (by decide)).1

/-- C12, as the code has it: with `analcheck` off the guarded calls of the
checker (in `recurse`, `doperp` and `doprec`) are skipped, but `dobranch`
runs `counts` whenever `ntypes < MAXTYPES` and `ntypes + nleafs < MAXLEAFS`,
whatever `analcheck` is, and a violation found there stops the program.
With `analcheck` off the search from any state (with `ntypes` within the
array bound) returns or stops at one of the three violations of `counts`
(word length, order, relation count), never at the perp or prec count check;
from a reachable state it returns with no violation in either mode. -/
theorem C12_checker_in_dobranch (cfg : Config) (s : State) :
    (cfg.analcheck = false → checked cfg s = .ok (0, 0)) ∧
    (∀ (rec : State → Except Fault Run) (e : Fault), s.ntypes < MAXTYPES cfg →
      s.ntypes + s.nleafs < cfg.MAXLEAFS → counts cfg s = .error e →
      dobranch cfg rec s = .error e) ∧
    (cfg.analcheck = false → s.ntypes ≤ MAXTYPES cfg →
      ∀ fuel, MAXLENGTH cfg - s.length < fuel →
        (∃ r, recurse cfg fuel s = .ok r) ∨
        recurse cfg fuel s = .error .exitLength ∨ recurse cfg fuel s = .error .exitOrder ∨
        recurse cfg fuel s = .error .abortRelations) ∧
    (1 ≤ cfg.MAXLEAFS → Reachable cfg s →
      ∀ fuel, MAXLENGTH cfg - s.length < fuel → ∃ r, recurse cfg fuel s = .ok r) := by
  refine ⟨?_, ?_, ?_, ?_⟩
  · intro h
    unfold checked
    rw [h]
    rfl
  · intro rec e h1 h2 hc
    unfold dobranch branchGate
    rw [if_neg (by omega), hc]
  · intro ha hn fuel hf
    rcases recurse_halts fuel s hn hf with ⟨r, hr, _⟩ | ⟨e, hr, h1, h2⟩
    · exact Or.inl ⟨r, hr⟩
    · right
      have h3 := h2 ha
      rw [hr]
      cases e with
      | exitLength => exact Or.inl rfl
      | exitOrder => exact Or.inr (Or.inl rfl)
      | abortRelations => exact Or.inr (Or.inr rfl)
      | exitPerp => exact absurd rfl h3.1
      | exitPrec => exact absurd rfl h3.2
      | outOfFuel => exact absurd rfl h1
  · intro hM hR fuel hf
    obtain ⟨r, hr, _⟩ := recurse_ok hM fuel s hR hf
    exact ⟨r, hr⟩

/-- The witness of C12: the search from the seed of the program as
distributed returns. -/
theorem C12_witness : ∃ r, recurse cfg3 (MAXLENGTH cfg3 + 1) (seed cfg3) = .ok r :=
  (C12_checker_in_dobranch cfg3 (seed cfg3)).2.2.2 (by decide) Reachable.seed
    (MAXLENGTH cfg3 + 1) (by decide)

/-- C12 as stated fails: with `analcheck` off, on the seed with the depth
counter set to 1 `dobranch` runs the checker, which finds the word length
violated and stops the program; so does `recurse`. -/
theorem C12_counterexample :
    cfg3.analcheck = false ∧
    counts cfg3 offDepth = .error .exitLength ∧
    dobranch cfg3 (recurse cfg3 (MAXLENGTH cfg3)) offDepth = .error .exitLength ∧
    recurse cfg3 (MAXLENGTH cfg3 + 1) offDepth = .error .exitLength :=
  ⟨rfl, by decide, by decide, by decide⟩

/-! ## The feasibility test of `dobranch` -/

theorem countP_three (p q r : Nat → Bool) (l : List Nat)
    (h : ∀ x ∈ l, (if p x = true then 1 else 0) + (if q x = true then 1 else 0) +
      (if r x = true then 1 else 0) = 1) :
    l.countP p + l.countP q + l.countP r = l.length := by
  induction l with
  | nil => rfl
  | cons x l ih =>
    have hx := h x (List.mem_cons_self _ _)
    have hl := ih (fun y hy => h y (List.mem_cons_of_mem _ hy))
    rw [List.countP_cons, List.countP_cons, List.countP_cons, List.length_cons]
    omega

theorem sum_map_add3 (f g h : Nat → Nat) (l : List Nat) :
    (l.map (fun i => f i + g i + h i)).sum = (l.map f).sum + (l.map g).sum + (l.map h).sum := by
  induction l with
  | nil => rfl
  | cons x l ih =>
    simp only [List.map_cons, List.sum_cons, ih]
    omega

theorem sum_map_congr (f g : Nat → Nat) (l : List Nat) (h : ∀ x ∈ l, f x = g x) :
    (l.map f).sum = (l.map g).sum := by
  induction l with
  | nil => rfl
  | cons x l ih =>
    simp only [List.map_cons, List.sum_cons]
    rw [h x (List.mem_cons_self _ _), ih (fun y hy => h y (List.mem_cons_of_mem _ hy))]

theorem sum_below (n : Nat) :
    2 * ((List.range n).map (fun i => n - (i + 1))).sum = n * (n - 1) := by
  induction n with
  | zero => rfl
  | succ n ih =>
    rw [List.range_succ_eq_map, List.map_cons, List.sum_cons, List.map_map]
    have e : (List.range n).map ((fun i => n + 1 - (i + 1)) ∘ Nat.succ) =
        (List.range n).map (fun i => n - (i + 1)) := by
      apply List.map_congr_left
      intro i _
      show n + 1 - (i + 1 + 1) = n - (i + 1)
      omega
    rw [e, Nat.mul_add, ih]
    show 2 * (n + 1 - (0 + 1)) + n * (n - 1) = (n + 1) * (n + 1 - 1)
    cases n with
    | zero => rfl
    | succ m =>
      have e1 : m + 1 + 1 - (0 + 1) = m + 1 := by omega
      have e2 : m + 1 - 1 = m := by omega
      rw [e1, e2]
      ring

theorem pair_totals {cfg : Config} {s : State} (hI : Inv cfg s) :
    precTotal s + perpTotal s + unrelTotal s = s.ntypes * (s.ntypes - 1) / 2 := by
  have h1 : precTotal s + perpTotal s + unrelTotal s =
      ((List.range s.ntypes).map (fun i => s.ntypes - (i + 1))).sum := by
    unfold precTotal perpTotal unrelTotal
    rw [← sum_map_add3]
    apply sum_map_congr
    intro i hi
    have hi' : i < s.ntypes := List.mem_range.1 hi
    have := countP_three (fun j => prec (tyrow s i) (tyrow s j))
      (fun j => perp (tyrow s i) (tyrow s j)) (fun j => unrelated s i j)
      (List.range' (i + 1) (s.ntypes - (i + 1))) (by
        intro j hj
        rw [List.mem_range'_1] at hj
        have hex := hI.excl i j (by omega) (by omega)
        show (if prec (tyrow s i) (tyrow s j) = true then 1 else 0) +
          (if perp (tyrow s i) (tyrow s j) = true then 1 else 0) +
          (if unrelated s i j = true then 1 else 0) = 1
        unfold unrelated
        cases h1 : prec (tyrow s i) (tyrow s j) <;>
          cases h2 : perp (tyrow s i) (tyrow s j) <;> simp_all)
    rw [this, List.length_range']
  have h2 := sum_below s.ntypes
  rw [h1]
  omega

theorem branchGate_eq {cfg : Config} {s : State} (hI : Inv cfg s) :
    branchGate cfg s = .ok (decide (s.ntypes < MAXTYPES cfg ∧
      s.ntypes + s.nleafs < cfg.MAXLEAFS ∧
      s.length + unrelTotal s + s.ntypes * (s.ntypes - 1) / 2 < MAXLENGTH cfg)) := by
  have ht := pair_totals hI
  have h2 := sum_below s.ntypes
  have hpos := hI.nt_pos
  have hdiv : 2 * (s.ntypes * (s.ntypes - 1) / 2) = s.ntypes * (s.ntypes - 1) := by
    have := Nat.even_mul_pred_self s.ntypes
    obtain ⟨m, hm⟩ := this
    omega
  have hcast : ((s.ntypes : Int) * ((s.ntypes : Int) - 1)) =
      ((s.ntypes * (s.ntypes - 1) : Nat) : Int) := by
    rw [Nat.cast_mul, Nat.cast_sub hpos]
    rfl
  unfold branchGate
  by_cases c : s.ntypes ≥ MAXTYPES cfg ∨ s.ntypes + s.nleafs ≥ cfg.MAXLEAFS
  · rw [if_pos c]
    congr 1
    symm
    apply decide_eq_false
    rintro ⟨a, b, _⟩
    omega
  · rw [if_neg c, counts_ok hI]
    simp only []
    rw [hcast]
    by_cases c2 : (s.length : Int) + ((s.ntypes * (s.ntypes - 1) : Nat) : Int) -
        (precTotal s : Int) - (perpTotal s : Int) ≥ (MAXLENGTH cfg : Int)
    · rw [if_pos c2]
      congr 1
      symm
      apply decide_eq_false
      rintro ⟨_, _, h⟩
      omega
    · rw [if_neg c2]
      congr 1
      symm
      apply decide_eq_true
      refine ⟨by omega, by omega, ?_⟩
      omega

theorem splits_reachable : Reachable cfg8 (splits 6) :=
  Reachable.branch (splits 5) 0
    (Reachable.branch (splits 4) 0
      (Reachable.branch (splits 3) 0
        (Reachable.branch (splits 2) 0
          (Reachable.branch (splits 1) 0
            (Reachable.branch (splits 0) 0 Reachable.seed (by decide) (by decide) (by decide))
            (by decide) (by decide) (by decide))
          (by decide) (by decide) (by decide))
        (by decide) (by decide) (by decide))
      (by decide) (by decide) (by decide))
    (by decide) (by decide) (by decide)

/-- C14, as the code has it: `dobranch` attempts its splits if and only if
`ntypes < MAXTYPES`, `ntypes + nleafs < MAXLEAFS` and
`length + ntypes * (ntypes - 1) - c1 - c2 < MAXLENGTH`, where `c1` and `c2`
are the numbers of pairs that `counts` finds related by `prec` and by `perp`.
In a reachable state `counts` returns these numbers, and the quantity added
to the depth is `U + ntypes * (ntypes - 1) / 2`: the number `U` of unrelated
pairs plus the number of all pairs.  When the test fails `dobranch` makes no
move and prints nothing; when it holds the first split is handed to
`recurse`. -/
theorem C14_branch_gate (cfg : Config) (s : State) :
    (∀ c1 c2, counts cfg s = .ok (c1, c2) →
      branchGate cfg s = .ok (decide (s.ntypes < MAXTYPES cfg ∧
        s.ntypes + s.nleafs < cfg.MAXLEAFS ∧
        (s.length : Int) + ((s.ntypes : Int) * ((s.ntypes : Int) - 1)) - c1 - c2
          < (MAXLENGTH cfg : Int)))) ∧
    (1 ≤ cfg.MAXLEAFS → Reachable cfg s →
      counts cfg s = .ok ((precTotal s : Int), (perpTotal s : Int)) ∧
      precTotal s + perpTotal s + unrelTotal s = s.ntypes * (s.ntypes - 1) / 2 ∧
      branchGate cfg s = .ok (decide (s.ntypes < MAXTYPES cfg ∧
        s.ntypes + s.nleafs < cfg.MAXLEAFS ∧
        s.length + unrelTotal s + s.ntypes * (s.ntypes - 1) / 2 < MAXLENGTH cfg))) ∧
    (∀ rec : State → Except Fault Run, branchGate cfg s = .ok false →
      dobranch cfg rec s = .ok { st := s, out := [] }) ∧
    (∀ (rec : State → Except Fault Run) (e : Fault), 0 < s.ntypes →
      branchGate cfg s = .ok true →
      rec (branchStep s 0) = .error e → dobranch cfg rec s = .error e) := by
  refine ⟨?_, ?_, ?_, ?_⟩
  · intro c1 c2 hc
    unfold branchGate
    by_cases c : s.ntypes ≥ MAXTYPES cfg ∨ s.ntypes + s.nleafs ≥ cfg.MAXLEAFS
    · rw [if_pos c]
      congr 1
      symm
      apply decide_eq_false
      rintro ⟨a, b, _⟩
      omega
    · rw [if_neg c, hc]
      simp only []
      by_cases c2 : (s.length : Int) + ((s.ntypes : Int) * ((s.ntypes : Int) - 1)) - c1 - c2
          ≥ (MAXLENGTH cfg : Int)
      · rw [if_pos c2]
        congr 1
        symm
        apply decide_eq_false
        rintro ⟨_, _, h⟩
        omega
      · rw [if_neg c2]
        congr 1
        symm
        apply decide_eq_true
        exact ⟨by omega, by omega, by omega⟩
  · intro hM hR
    have hI := reach_inv hM hR
    exact ⟨counts_ok hI, pair_totals hI, branchGate_eq hI⟩
  · intro rec hg
    unfold dobranch
    rw [hg]
  · intro rec e hpos hg hr
    unfold dobranch
    rw [hg]
    simp only []
    unfold forLoop
    rw [if_pos (show 0 < s.ntypes from hpos)]
    unfold dobranchBody
    simp only []
    rw [hr]

/-- The witness of C14: at the seed of the program as distributed the
branch move is attempted. -/
theorem C14_witness :
    branchGate cfg3 (seed cfg3) = .ok (decide ((seed cfg3).ntypes < MAXTYPES cfg3 ∧
      (seed cfg3).ntypes + (seed cfg3).nleafs < cfg3.MAXLEAFS ∧
      (seed cfg3).length + unrelTotal (seed cfg3) +
        (seed cfg3).ntypes * ((seed cfg3).ntypes - 1) / 2 < MAXLENGTH cfg3)) :=
  ((C14_branch_gate cfg3 (seed cfg3)).2.1 (by decide) Reachable.seed).2.2

/-- C14 as stated fails.  With `MAXLEAFS` 8 the state reached by six branch
moves has 7 types, no leaves, depth 6 and 21 unrelated pairs, so
`ntypes < MAXTYPES`, `ntypes + nleafs < MAXLEAFS` and
`depth + U = 27 < 45 = MAXLENGTH`, but `dobranch` makes no move, because
`6 + 7 * 6 - 0 - 0 = 48 >= 45`.  With `MAXLEAFS` 3 the same happens on the
two unrelated types `OOOOOOOO` and `ROOOOOOO` at depth 8, which pass the
checker: `8 + 1 < 10` but `8 + 2 * 1 - 0 - 0 >= 10`. -/
theorem C14_counterexample :
    (Reachable cfg8 (splits 6) ∧
      (splits 6).ntypes = 7 ∧ (splits 6).nleafs = 0 ∧ (splits 6).length = 6 ∧
      unrelTotal (splits 6) = 21 ∧ MAXTYPES cfg8 = 8 ∧ MAXLENGTH cfg8 = 45 ∧
      counts cfg8 (splits 6) = .ok (0, 0) ∧ branchGate cfg8 (splits 6) = .ok false ∧
      dobranch cfg8 (recurse cfg8 (MAXLENGTH cfg8)) (splits 6) =
        .ok { st := splits 6, out := [] }) ∧
    (deepPair.ntypes = 2 ∧ deepPair.nleafs = 0 ∧ deepPair.length = 8 ∧
      unrelTotal deepPair = 1 ∧ MAXTYPES cfg3 = 3 ∧ MAXLENGTH cfg3 = 10 ∧
      counts cfg3 deepPair = .ok (0, 0) ∧ branchGate cfg3 deepPair = .ok false ∧
      dobranch cfg3 (recurse cfg3 (MAXLENGTH cfg3)) deepPair =
        .ok { st := deepPair, out := [] }) :=
  ⟨⟨splits_reachable, by decide, by decide, by decide, by decide, by decide, by decide,
      by decide, by decide, by decide⟩,
    ⟨by decide, by decide, by decide, by decide, by decide, by decide, by decide, by decide,
      by decide⟩⟩

/-! ## The depth budget -/

theorem sumI_congr (f g : Nat → Int) (l : List Nat) (h : ∀ x ∈ l, f x = g x) :
    (l.map f).sum = (l.map g).sum := by
  rw [List.map_congr_left h]

theorem sumI_le (f g : Nat → Int) (l : List Nat) (h : ∀ x ∈ l, f x ≤ g x) :
    (l.map f).sum ≤ (l.map g).sum := by
  induction l with
  | nil => exact le_refl _
  | cons x l ih =>
    simp only [List.map_cons, List.sum_cons]
    have h1 := h x (List.mem_cons_self _ _)
    have h2 := ih (fun y hy => h y (List.mem_cons_of_mem _ hy))
    omega

theorem sumI_sub_one (f : Nat → Int) (l : List Nat) :
    (l.map (fun b => f b - 1)).sum = (l.map f).sum - (l.length : Int) := by
  induction l with
  | nil => rfl
  | cons x l ih =>
    simp only [List.map_cons, List.sum_cons, List.length_cons, ih]
    push_cast
    omega

theorem sumI_const (c : Int) (l : List Nat) :
    (l.map (fun _ => c)).sum = (l.length : Int) * c := by
  induction l with
  | nil => simp
  | cons x l ih =>
    simp only [List.map_cons, List.sum_cons, List.length_cons, ih]
    push_cast
    ring

theorem sumI_shift_down (f : Nat → Int) (m : Nat) : ∀ a,
    ((List.range' (a + 1) m).map (fun b => f (b - 1))).sum = ((List.range' a m).map f).sum := by
  induction m with
  | zero => intro a; rfl
  | succ m ih =>
    intro a
    simp only [List.range', List.map_cons, List.sum_cons, ih (a + 1)]
    rfl

theorem sumI_shift_up (f : Nat → Int) (m : Nat) : ∀ a,
    ((List.range' a m).map (fun b => f (b + 1))).sum = ((List.range' (a + 1) m).map f).sum := by
  induction m with
  | zero => intro a; rfl
  | succ m ih =>
    intro a
    simp only [List.range', List.map_cons, List.sum_cons, ih (a + 1)]

theorem sumI_branchSrc (f : Nat → Int) (i n : Nat) (hi : i < n) :
    ((List.range (n + 1)).map (fun b => f (branchSrc i b))).sum =
      ((List.range n).map f).sum + f i := by
  rw [range_split_at (i + 1) (n + 1) (by omega), List.map_append, List.sum_append,
    range_split i n hi, List.map_append, List.sum_append, List.map_cons, List.sum_cons]
  have e1 : ((List.range (i + 1)).map (fun b => f (branchSrc i b))).sum =
      ((List.range (i + 1)).map f).sum := by
    apply sumI_congr
    intro y hy
    have := List.mem_range.mp hy
    unfold branchSrc
    rw [if_pos (by omega)]
  have e2 : ((List.range' (i + 1) (n + 1 - (i + 1))).map (fun b => f (branchSrc i b))).sum =
      ((List.range' (i + 1) (n + 1 - (i + 1))).map (fun b => f (b - 1))).sum := by
    apply sumI_congr
    intro y hy
    have := List.mem_range'_1.mp hy
    unfold branchSrc
    rw [if_neg (by omega)]
  have e3 : n + 1 - (i + 1) = (n - (i + 1)) + 1 := by omega
  rw [e1, e2, sumI_shift_down, e3]
  have e4 : List.range' i (n - (i + 1) + 1) = i :: List.range' (i + 1) (n - (i + 1)) := rfl
  rw [e4, List.map_cons, List.sum_cons, range_split_at i (i + 1) (by omega), List.map_append,
    List.sum_append]
  have e5 : i + 1 - i = 1 := by omega
  rw [e5]
  simp only [List.range', List.map_cons, List.sum_cons, List.map_nil, List.sum_nil]
  omega

theorem sumI_leafSrc (f : Nat → Int) (i n : Nat) (hi : i < n) :
    ((List.range (n - 1)).map (fun b => f (leafSrc i b))).sum + f i =
      ((List.range n).map f).sum := by
  rw [range_split_at i (n - 1) (by omega), List.map_append, List.sum_append,
    range_split i n hi, List.map_append, List.sum_append, List.map_cons, List.sum_cons]
  have e1 : ((List.range i).map (fun b => f (leafSrc i b))).sum = ((List.range i).map f).sum := by
    apply sumI_congr
    intro y hy
    have := List.mem_range.mp hy
    unfold leafSrc
    rw [if_pos (by omega)]
  have e2 : ((List.range' i (n - 1 - i)).map (fun b => f (leafSrc i b))).sum =
      ((List.range' i (n - 1 - i)).map (fun b => f (b + 1))).sum := by
    apply sumI_congr
    intro y hy
    have := List.mem_range'_1.mp hy
    unfold leafSrc
    rw [if_neg (by omega)]
  have e3 : n - 1 - i = n - (i + 1) := by omega
  rw [e1, e2, sumI_shift_up, e3]
  omega

theorem sumI_bump (f g : Nat → Int) (i : Nat) : ∀ (n : Nat), i < n →
    (∀ k, k < n → g k = f k + (if k = i then 1 else 0)) →
    ((List.range n).map g).sum = ((List.range n).map f).sum + 1 := by
  intro n
  induction n with
  | zero => intro h; exact absurd h (Nat.not_lt_zero _)
  | succ n ih =>
    intro hi h
    rw [List.range_succ, List.map_append, List.sum_append, List.map_append, List.sum_append]
    simp only [List.map_cons, List.map_nil, List.sum_cons, List.sum_nil, add_zero]
    by_cases c : i = n
    · have e : ((List.range n).map g).sum = ((List.range n).map f).sum := by
        apply sumI_congr
        intro y hy
        have := List.mem_range.mp hy
        rw [h y (by omega), if_neg (by omega), add_zero]
      rw [e, h n (by omega), if_pos c.symm]
      omega
    · rw [ih (by omega) (fun k hk => h k (by omega)), h n (by omega), if_neg (fun e => c e.symm)]
      omega

section BudgetFacts

variable {cfg : Config} {s : State}

theorem relCount_le (s : State) {k : Nat} (hk : k < s.ntypes) : relCount s k ≤ s.ntypes - 1 := by
  unfold relCount
  have h1 := List.countP_le_length (fun j => related s j k) (l := List.range k)
  have h2 := List.countP_le_length (fun j => related s k j)
    (l := List.range' (k + 1) (s.ntypes - (k + 1)))
  rw [List.length_range] at h1
  rw [List.length_range'] at h2
  omega

theorem relSum_le (hI : Inv cfg s) :
    relSum s ≤ (s.ntypes : Int) * ((s.ntypes : Int) - 1) := by
  unfold relSum
  have h := sumI_le (fun k => s.relations.getD k 0) (fun _ => (s.ntypes : Int) - 1)
    (List.range s.ntypes) (by
      intro k hk
      have hk' := List.mem_range.mp hk
      show s.relations.getD k 0 ≤ (s.ntypes : Int) - 1
      rw [hI.rel_ok k hk']
      have := relCount_le s hk'
      omega)
  rw [sumI_const, List.length_range] at h
  exact h

theorem relSum_nonneg (hI : Inv cfg s) {k : Nat} (hk : k < s.ntypes) :
    0 ≤ s.relations.getD k 0 := by
  rw [hI.rel_ok k hk]
  exact Int.natCast_nonneg _

theorem relSum_relation (hI : Inv cfg s) {t : State} {i j : Nat} (hij : i < j)
    (hj : j < s.ntypes) (hn : t.ntypes = s.ntypes)
    (hr : t.relations = incr (incr s.relations i) j) : relSum t = relSum s + 2 := by
  unfold relSum
  rw [hn, hr]
  have h1 := sumI_bump (fun k => s.relations.getD k 0)
    (fun k => s.relations.getD k 0 + (if k = i then 1 else 0)) i s.ntypes (by omega)
    (fun k _ => rfl)
  have h2 := sumI_bump (fun k => s.relations.getD k 0 + (if k = i then 1 else 0))
    (fun k => (incr (incr s.relations i) j).getD k 0) j s.ntypes hj (by
      intro k _
      show (incr (incr s.relations i) j).getD k 0 =
        s.relations.getD k 0 + (if k = i then 1 else 0) + (if k = j then 1 else 0)
      rw [relation_rels hI hj hij k]
      split_ifs <;> omega)
  rw [h2, h1]
  omega

theorem relSum_branch (hI : Inv cfg s) (hL : s.length < MAXLENGTH cfg) {i : Nat}
    (hi : i < s.ntypes) (hn : s.ntypes < MAXTYPES cfg) :
    relSum s ≤ relSum (branchStep s i) := by
  unfold relSum
  have hnt : (branchStep s i).ntypes = s.ntypes + 1 := rfl
  rw [hnt]
  have h := (branchStep_rels hI hL hi hn).2
  have h1 := sumI_le (fun k => s.relations.getD (branchSrc i k) 0)
    (fun k => (branchStep s i).relations.getD k 0) (List.range (s.ntypes + 1)) (by
      intro k hk
      have hk' := List.mem_range.mp hk
      show s.relations.getD (branchSrc i k) 0 ≤ (branchStep s i).relations.getD k 0
      rw [h k hk']
      split_ifs <;> omega)
  have h2 := sumI_branchSrc (fun k => s.relations.getD k 0) i s.ntypes hi
  have h3 := relSum_nonneg hI hi
  have h2' : ((List.range (s.ntypes + 1)).map (fun k => s.relations.getD (branchSrc i k) 0)).sum
      = ((List.range s.ntypes).map (fun k => s.relations.getD k 0)).sum
        + s.relations.getD i 0 := h2
  omega

theorem relSum_leaf (hI : Inv cfg s) {i : Nat} (hi : i < s.ntypes)
    (hfull : s.relations.getD i 0 = (s.ntypes : Int) - 1) :
    relSum (leafStep s i) = relSum s - 2 * ((s.ntypes : Int) - 1) := by
  unfold relSum
  have hnt : (leafStep s i).ntypes = s.ntypes - 1 := rfl
  rw [hnt]
  have h := (leafStep_rels hI hi).2
  have h1 : ((List.range (s.ntypes - 1)).map (fun k => (leafStep s i).relations.getD k 0)).sum
      = ((List.range (s.ntypes - 1)).map
          (fun k => s.relations.getD (leafSrc i k) 0 - 1)).sum := by
    apply sumI_congr
    intro k hk
    exact h k (List.mem_range.mp hk)
  have h2 := sumI_sub_one (fun k => s.relations.getD (leafSrc i k) 0)
    (List.range (s.ntypes - 1))
  have h3 : ((List.range (s.ntypes - 1)).map (fun k => s.relations.getD (leafSrc i k) 0)).sum
      + s.relations.getD i 0 = ((List.range s.ntypes).map (fun k => s.relations.getD k 0)).sum :=
    sumI_leafSrc (fun k => s.relations.getD k 0) i s.ntypes hi
  rw [h1, h2, List.length_range]
  have h4 : ((s.ntypes - 1 : Nat) : Int) = (s.ntypes : Int) - 1 := by omega
  rw [h4]
  omega

theorem relSum_same {t : State} (h : SameShared s t) : relSum t = relSum s := by
  obtain ⟨_, _, h3, _, h5, _⟩ := h
  unfold relSum
  rw [h3, h5]

theorem reach_budget (hM : 1 ≤ cfg.MAXLEAFS) (h : Reachable cfg s) : Budget s := by
  induction h with
  | seed =>
    unfold Budget relSum
    have e1 : (seed cfg).length = 0 := rfl
    have e2 : (seed cfg).ntypes = 1 := rfl
    have e3 : (seed cfg).nleafs = 0 := rfl
    have e4 : (seed cfg).relations.getD 0 0 = 0 := by
      have := (inv_seed cfg hM).rel_ok 0 (Nat.lt_succ_self 0)
      rw [this]
      rfl
    have e5 : List.range 1 = [0] := rfl
    rw [e1, e2, e3, e5]
    simp only [List.map_cons, List.map_nil, List.sum_cons, List.sum_nil, e4]
    decide
  | leaf s i hR hL hnl hi hfull hn1 ih =>
    have hI := reach_inv hM hR
    have hpos := hI.nt_pos
    have hr := relSum_leaf hI hi hfull
    unfold Budget at ih ⊢
    have e1 : (leafStep s i).length = s.length + 1 := rfl
    have e2 : (leafStep s i).ntypes = s.ntypes - 1 := rfl
    have e3 : (leafStep s i).nleafs = s.nleafs + 1 := rfl
    have e4 : ((s.ntypes - 1 : Nat) : Int) = (s.ntypes : Int) - 1 := by omega
    rw [e1, e2, e3, hr, e4]
    push_cast
    nlinarith
  | branch s i hR hL hg hi ih =>
    have hI := reach_inv hM hR
    have hr := relSum_branch hI hL hi (branchGate_true hg).1
    unfold Budget at ih ⊢
    have e1 : (branchStep s i).length = s.length + 1 := rfl
    have e2 : (branchStep s i).ntypes = s.ntypes + 1 := rfl
    have e3 : (branchStep s i).nleafs = s.nleafs := rfl
    rw [e1, e2, e3]
    push_cast
    have hl : (0 : Int) ≤ (s.nleafs : Int) := Int.natCast_nonneg _
    nlinarith
  | perp s i j hR hL hij hj hU hA ih =>
    have hI := reach_inv hM hR
    have hr := relSum_relation hI (t := perpStep s i j) hij hj rfl rfl
    unfold Budget at ih ⊢
    have e1 : (perpStep s i j).length = s.length + 1 := rfl
    have e2 : (perpStep s i j).ntypes = s.ntypes := rfl
    have e3 : (perpStep s i j).nleafs = s.nleafs := rfl
    rw [e1, e2, e3, hr]
    push_cast
    linarith
  | prec s i j hR hL hij hj hU h1 h2 ih =>
    have hI := reach_inv hM hR
    have hr := relSum_relation hI (t := precStep s i j) hij hj rfl rfl
    unfold Budget at ih ⊢
    have e1 : (precStep s i j).length = s.length + 1 := rfl
    have e2 : (precStep s i j).ntypes = s.ntypes := rfl
    have e3 : (precStep s i j).nleafs = s.nleafs := rfl
    rw [e1, e2, e3, hr]
    push_cast
    linarith
  | stale s t hR hs ih =>
    have hr := relSum_same hs
    obtain ⟨_, _, _, h4, h5, h6, _⟩ := hs
    unfold Budget at ih ⊢
    rw [h4, h5, h6, hr]
    exact ih

theorem reach_depth (hM : 1 ≤ cfg.MAXLEAFS) (h : Reachable cfg s) :
    s.length + 3 ≤ MAXLENGTH cfg := by
  have hB := reach_budget hM h
  have hI := reach_inv hM h
  have hR := relSum_le hI
  have hpos := hI.nt_pos
  have htot := hI.tot_le
  unfold Budget at hB
  have hdiv : 2 * (cfg.MAXLEAFS * (cfg.MAXLEAFS - 1) / 2) = cfg.MAXLEAFS * (cfg.MAXLEAFS - 1) := by
    obtain ⟨m, hm⟩ := Nat.even_mul_pred_self cfg.MAXLEAFS
    omega
  have hT : ((s.ntypes : Int) + (s.nleafs : Int)) ≤ (cfg.MAXLEAFS : Int) := by
    exact_mod_cast htot
  have hn1 : (1 : Int) ≤ (s.ntypes : Int) := by exact_mod_cast hpos
  have hl0 : (0 : Int) ≤ (s.nleafs : Int) := Int.natCast_nonneg _
  have hMM : ((cfg.MAXLEAFS * (cfg.MAXLEAFS - 1) : Nat) : Int) =
      (cfg.MAXLEAFS : Int) * ((cfg.MAXLEAFS : Int) - 1) := by
    rw [Nat.cast_mul, Nat.cast_sub hM]
    rfl
  have key : 2 * (s.length : Int) ≤
      4 * ((cfg.MAXLEAFS : Int) - 1) + (cfg.MAXLEAFS : Int) * ((cfg.MAXLEAFS : Int) - 1) := by
    nlinarith
  unfold MAXLENGTH
  have key2 : 2 * s.length ≤ 4 * (cfg.MAXLEAFS - 1) + cfg.MAXLEAFS * (cfg.MAXLEAFS - 1) := by
    have : ((2 * s.length : Nat) : Int) ≤
        ((4 * (cfg.MAXLEAFS - 1) + cfg.MAXLEAFS * (cfg.MAXLEAFS - 1) : Nat) : Int) := by
      rw [Nat.cast_add, hMM]
      push_cast [Nat.cast_sub hM]
      linarith
    exact_mod_cast this
  omega

end BudgetFacts

theorem emitted_lev_length {cfg : Config} {s : State} (hI : Inv cfg s)
    (hL : s.length < MAXLENGTH cfg) (i : Nat) :
    (print_type (leafMark s i)).lev.length = s.length + 1 := by
  show (cstr (s.lev.set s.length chl)).length = s.length + 1
  have hlen := hI.lev_len
  rw [cstr_eq_take (s.lev.set s.length chl) (s.length + 1)]
  · rw [List.length_take, List.length_set, hlen]
    omega
  · intro p hp
    rw [getD_set]
    by_cases c : p = s.length
    · rw [if_pos ⟨c, by omega⟩]
      decide
    · rw [if_neg (fun h => c h.1)]
      rcases hI.lev_tag p (by omega) with h | h | h | h <;> rw [h] <;> decide
  · rw [getD_set, if_neg (by omega)]
    exact hI.lev_zero _ (by omega)

/-- C19: with `MAXLEAFS` 3 (so `MAXLENGTH` 10) every reachable state has depth
at most 7; so on a reachable state the depth cutoff of `recurse` does not
apply and the feasibility test of `dobranch` does not reject (branching is
attempted whenever `ntypes < MAXTYPES` and `ntypes + nleafs < MAXLEAFS`), and
every level types string printed has at most 8 entries. -/
theorem C19_depth_bound (cfg : Config) (hM3 : cfg.MAXLEAFS = 3) :
    MAXLENGTH cfg = 10 ∧
    (∀ s, Reachable cfg s →
      s.length ≤ 7 ∧ s.length < MAXLENGTH cfg ∧
      (s.ntypes < MAXTYPES cfg → s.ntypes + s.nleafs < cfg.MAXLEAFS →
        branchGate cfg s = .ok true)) ∧
    (∃ r, main cfg = .ok r ∧ ∀ e ∈ r.out, e.lev.length ≤ 8) := by
  have hM : 1 ≤ cfg.MAXLEAFS := by omega
  have h10 : MAXLENGTH cfg = 10 := by
    unfold MAXLENGTH
    rw [hM3]
  have hdepth : ∀ s, Reachable cfg s → s.length ≤ 7 := by
    intro s hR
    have := reach_depth hM hR
    omega
  refine ⟨h10, ?_, ?_⟩
  · intro s hR
    have hd := hdepth s hR
    refine ⟨hd, by omega, ?_⟩
    intro h1 h2
    have hI := reach_inv hM hR
    have ht := pair_totals hI
    have hpos := hI.nt_pos
    rw [branchGate_eq hI]
    congr 1
    apply decide_eq_true
    refine ⟨h1, h2, ?_⟩
    have h3 : s.ntypes < 3 := by
      have : MAXTYPES cfg = 3 := hM3
      omega
    have h4 : s.ntypes * (s.ntypes - 1) / 2 ≤ 1 := by
      interval_cases s.ntypes <;> decide
    omega
  · obtain ⟨r, h1, _, h3⟩ := recurse_ok hM (MAXLENGTH cfg + 1) (seed cfg) Reachable.seed
      (by have : (seed cfg).length = 0 := rfl
          omega)
    refine ⟨r, h1, fun e he => ?_⟩
    obtain ⟨s, hRs, hL, _, _, _, rfl⟩ := h3 e he
    rw [emitted_lev_length (reach_inv hM hRs) hL 0]
    have := hdepth s hRs
    omega

/-- The witness of C19: the program as distributed. -/
theorem C19_witness :
    MAXLENGTH cfg3 = 10 ∧ ∃ r, main cfg3 = .ok r ∧ ∀ e ∈ r.out, e.lev.length ≤ 8 :=
  ⟨(C19_depth_bound cfg3 rfl).1, (C19_depth_bound cfg3 rfl).2.2⟩

/-! ## No object is printed twice -/

theorem distinctNat_nodup (l : List Nat) (h : distinctNat l = true) : l.Nodup := by
  induction l with
  | nil => exact List.nodup_nil
  | cons x xs ih =>
    unfold distinctNat at h
    rw [Bool.and_eq_true, List.all_eq_true] at h
    refine List.nodup_cons.2 ⟨?_, ih h.2⟩
    intro hx
    have := h.1 x hx
    rw [Bool.not_eq_true', Nat.beq_refl] at this
    exact absurd this (by decide)

theorem nodup_of_codes (l : List Emission)
    (h : distinctNat (l.map (fun e => keyCode (emissionKey e))) = true) :
    (l.map emissionKey).Nodup := by
  have h1 := distinctNat_nodup _ h
  have e : l.map (fun e => keyCode (emissionKey e)) = (l.map emissionKey).map keyCode := by
    rw [List.map_map]
    rfl
  rw [e] at h1
  exact List.Nodup.of_map keyCode h1

theorem run_of_map {cfg : Config} {n : Nat}
    (h : (main cfg).map (fun r =>
      (distinctNat (r.out.map (fun e => keyCode (emissionKey e))), r.out.length)) =
        .ok (true, n)) :
    ∃ r, main cfg = .ok r ∧ r.out.length = n ∧ (r.out.map emissionKey).Nodup := by
  cases hm : main cfg with
  | error e =>
    rw [hm] at h
    exact absurd h (by simp [Except.map])
  | ok r =>
    rw [hm] at h
    have h1 : (distinctNat (r.out.map (fun e => keyCode (emissionKey e))), r.out.length) =
        (true, n) := Except.ok.inj h
    exact ⟨r, rfl, (Prod.mk.inj h1).2, nodup_of_codes r.out (Prod.mk.inj h1).1⟩

theorem main3_codes :
    (main cfg3).map (fun r =>
      (distinctNat (r.out.map (fun e => keyCode (emissionKey e))), r.out.length)) =
        .ok (true, 469) := by
  decide!

theorem main2_codes :
    (main cfg2).map (fun r =>
      (distinctNat (r.out.map (fun e => keyCode (emissionKey e))), r.out.length)) =
        .ok (true, 5) := by
  decide!

/-- C18: the sequence of objects printed by the search from the seed holds
no duplicates: the program as distributed (`MAXLEAFS` 3) prints 469 objects,
and no two of them have both the same ordered list of leaf words and the
same level types string; the same holds for the 5 objects printed with
`MAXLEAFS` 2. -/
theorem C18_no_duplicates :
    (∃ r, main cfg3 = .ok r ∧ r.out.length = 469 ∧ (r.out.map emissionKey).Nodup) ∧
    (∃ r, main cfg2 = .ok r ∧ r.out.length = 5 ∧ (r.out.map emissionKey).Nodup) :=
  ⟨run_of_map main3_codes, run_of_map main2_codes⟩

/-! ## Relations between words of different lengths -/

theorem prec_set_right (x : List Nat) : ∀ (y : List Nat) (p c : Nat), strlen x ≤ p →
    prec x (y.set p c) = prec x y := by
  induction x with
  | nil => intro y p c _; cases y <;> cases p <;> rfl
  | cons a x ih =>
    intro y p c h
    cases y with
    | nil => rfl
    | cons b y =>
      by_cases ha : a = 0
      · have e : ∀ z : List Nat, prec (a :: x) z = false := by
          intro z
          cases z with
          | nil => rfl
          | cons d z => unfold prec; rw [if_pos (Or.inl ha)]
        rw [e, e]
      · have hs : strlen (a :: x) = strlen x + 1 := by
          show (if a = 0 then 0 else strlen x + 1) = strlen x + 1
          rw [if_neg ha]
        rw [hs] at h
        cases p with
        | zero => omega
        | succ p =>
          show prec (a :: x) (b :: y.set p c) = prec (a :: x) (b :: y)
          unfold prec
          rw [ih y p c (by omega)]

theorem prec_set_left (y : List Nat) : ∀ (x : List Nat) (p c : Nat), strlen y ≤ p →
    prec (x.set p c) y = prec x y := by
  induction y with
  | nil => intro x p c _; cases x <;> cases p <;> rfl
  | cons b y ih =>
    intro x p c h
    cases x with
    | nil => rfl
    | cons a x =>
      by_cases hb : b = 0
      · have e : ∀ z : List Nat, prec z (b :: y) = false := by
          intro z
          cases z with
          | nil => rfl
          | cons d z => unfold prec; rw [if_pos (Or.inr hb)]
        rw [e, e]
      · have hs : strlen (b :: y) = strlen y + 1 := by
          show (if b = 0 then 0 else strlen y + 1) = strlen y + 1
          rw [if_neg hb]
        rw [hs] at h
        cases p with
        | zero => omega
        | succ p =>
          show prec (a :: x.set p c) (b :: y) = prec (a :: x) (b :: y)
          unfold prec
          rw [ih x p c (by omega)]

theorem perpFrom_set_right (x : List Nat) : ∀ (f1 f2 : Bool) (y : List Nat) (p c : Nat),
    strlen x ≤ p → perpFrom f1 f2 x (y.set p c) = perpFrom f1 f2 x y := by
  induction x with
  | nil => intro f1 f2 y p c _; cases y <;> cases p <;> rfl
  | cons a x ih =>
    intro f1 f2 y p c h
    cases y with
    | nil => rfl
    | cons b y =>
      by_cases ha : a = 0
      · have e : ∀ z : List Nat, perpFrom f1 f2 (a :: x) z = false := by
          intro z
          cases z with
          | nil => rfl
          | cons d z => unfold perpFrom; rw [if_pos (Or.inl ha)]
        rw [e, e]
      · have hs : strlen (a :: x) = strlen x + 1 := by
          show (if a = 0 then 0 else strlen x + 1) = strlen x + 1
          rw [if_neg ha]
        rw [hs] at h
        cases p with
        | zero => omega
        | succ p =>
          show perpFrom f1 f2 (a :: x) (b :: y.set p c) = perpFrom f1 f2 (a :: x) (b :: y)
          unfold perpFrom
          simp only []
          rw [ih _ _ y p c (by omega)]

theorem perp_set_right (x y : List Nat) (p c : Nat) (h : strlen x ≤ p) :
    perp x (y.set p c) = perp x y :=
  perpFrom_set_right x false false y p c h

theorem oneOf_comm (x y : List Nat) : oneOf x y = oneOf y x := by
  unfold oneOf
  rw [perp_swap y x]
  cases prec x y <;> cases prec y x <;> cases perp x y <;> rfl

theorem oneOf_cstr (x y : List Nat) : oneOf x y = oneOf (cstr x) (cstr y) := by
  unfold oneOf
  rw [← prec_cstr, ← prec_cstr, ← perp_cstr]

theorem oneOf_set_right (x y : List Nat) (p c : Nat) (h : strlen x ≤ p) :
    oneOf x (y.set p c) = oneOf x y := by
  unfold oneOf
  rw [prec_set_right x y p c h, prec_set_left x y p c h, perp_set_right x y p c h]

theorem oneOf_strcpy_left (d x y : List Nat) : oneOf (strcpy d x) y = oneOf x y := by
  rw [oneOf_cstr, cstr_strcpy, ← oneOf_cstr]

theorem oneOf_strcpy_right (d x y : List Nat) : oneOf x (strcpy d y) = oneOf x y := by
  rw [oneOf_comm, oneOf_strcpy_left, oneOf_comm]

theorem oneOf_cases {x y : List Nat} (h : oneOf x y = true) :
    (prec x y = true ∧ prec y x = false ∧ perp x y = false) ∨
    (prec x y = false ∧ prec y x = true ∧ perp x y = false) ∨
    (prec x y = false ∧ prec y x = false ∧ perp x y = true) := by
  unfold oneOf at h
  cases h1 : prec x y <;> cases h2 : prec y x <;> cases h3 : perp x y <;>
    simp [h1, h2, h3] at h ⊢

theorem getD_mem_abc {w : List Nat} (hw : ∀ c ∈ w, c = chL ∨ c = chO ∨ c = chR) {p : Nat}
    (hp : p < w.length) : w.getD p 0 = chL ∨ w.getD p 0 = chO ∨ w.getD p 0 = chR := by
  have e : w.getD p 0 = w.get ⟨p, hp⟩ := by
    rw [List.getD_eq_getElem?_getD, List.getElem?_eq_getElem hp]
    rfl
  rw [e]
  exact hw _ (List.get_mem w p hp)

theorem prec_trans (a b c : List Nat) (ha : ∀ z ∈ a, z = chL ∨ z = chO ∨ z = chR)
    (hb : ∀ z ∈ b, z = chL ∨ z = chO ∨ z = chR) (hc : ∀ z ∈ c, z = chL ∨ z = chO ∨ z = chR)
    (h1 : prec a b = true) (h2 : prec b c = true) : prec a c = true := by
  obtain ⟨p1, a1, b1, e1, f1, g1⟩ := (prec_iff_pos a b (abc_noNul ha) (abc_noNul hb)).1 h1
  obtain ⟨p2, a2, b2, e2, f2, g2⟩ := (prec_iff_pos b c (abc_noNul hb) (abc_noNul hc)).1 h2
  apply (prec_iff_pos a c (abc_noNul ha) (abc_noNul hc)).2
  have hne : p1 ≠ p2 := by
    intro h
    rw [h, e2] at f1
    exact absurd f1 (by decide)
  rcases Nat.lt_or_gt_of_ne hne with hlt | hgt
  · have hc1 := getD_mem_abc hc (show p1 < c.length by omega)
    have hle := g2 p1 hlt
    rw [f1] at hle
    refine ⟨p1, a1, by omega, e1, ?_, ?_⟩
    · rcases hc1 with h | h | h
      · rw [h] at hle; exact absurd hle (by decide)
      · rw [h] at hle; exact absurd hle (by decide)
      · exact h
    · intro q hq
      have := g1 q hq
      have := g2 q (by omega)
      omega
  · have ha2 := getD_mem_abc ha (show p2 < a.length by omega)
    have hle := g1 p2 hgt
    rw [e2] at hle
    refine ⟨p2, by omega, b2, ?_, f2, ?_⟩
    · rcases ha2 with h | h | h
      · exact h
      · rw [h] at hle; exact absurd hle (by decide)
      · rw [h] at hle; exact absurd hle (by decide)
    · intro q hq
      have := g1 q (by omega)
      have := g2 q hq
      omega

/-! ## The relations of the leaves -/

section Leaves

variable {cfg : Config} {s : State}

theorem oneOf_types (hI : Inv cfg s) {i m : Nat} (hi : i < s.ntypes) (hm : m < s.ntypes)
    (hrel : symRel s m i = true) : oneOf (tyrow s i) (tyrow s m) = true := by
  unfold symRel at hrel
  rw [Bool.and_eq_true] at hrel
  obtain ⟨hne, hr⟩ := hrel
  have hne' : m ≠ i := of_decide_eq_true hne
  unfold related at hr
  unfold oneOf
  rcases Nat.lt_or_gt_of_ne hne' with hlt | hgt
  · rw [Nat.min_eq_left (Nat.le_of_lt hlt), Nat.max_eq_right (Nat.le_of_lt hlt)] at hr
    have h1 := inv_prec_rev hI hlt hi
    have h2 := hI.excl m i hlt hi
    rw [perp_swap (tyrow s i) (tyrow s m), h1]
    cases h3 : prec (tyrow s m) (tyrow s i) <;> cases h4 : perp (tyrow s m) (tyrow s i) <;>
      simp_all
  · rw [Nat.min_eq_right (Nat.le_of_lt hgt), Nat.max_eq_left (Nat.le_of_lt hgt)] at hr
    have h1 := inv_prec_rev hI hgt hm
    have h2 := hI.excl i m hgt hm
    rw [h1]
    cases h3 : prec (tyrow s i) (tyrow s m) <;> cases h4 : perp (tyrow s i) (tyrow s m) <;>
      simp_all

theorem leafInv_column {t : State} {src col : Nat → Nat} (hI : Inv cfg s) (hLI : LeafInv s)
    (hC : Column s t src col) (hnl : t.nleafs = s.nleafs) (hleafs : t.leafs = s.leafs) :
    LeafInv t := by
  have hrow : ∀ a, leafrow t a = leafrow s a := by
    intro a
    unfold leafrow
    rw [hleafs]
  refine ⟨?_, ?_, ?_⟩
  · intro a ha
    rw [hrow]
    exact hLI.leaf_abc a (by omega)
  · intro a k ha hk
    rw [hrow, hC.row_active k hk, oneOf_set_right _ _ _ _ (hI.leaf_len a (by omega))]
    exact hLI.leaf_type a (src k) (by omega) (hC.src_lt k hk)
  · intro a b hab hb
    rw [hrow, hrow]
    exact hLI.leaf_leaf a b hab (by omega)

theorem leafInv_leafStep (hI : Inv cfg s) (hLI : LeafInv s) (hL : s.length < MAXLENGTH cfg)
    {i : Nat} (hi : i < s.ntypes)
    (hfull : s.relations.getD i 0 = (s.ntypes : Int) - 1) : LeafInv (leafStep s i) := by
  have hC := leafStep_column hI hL hi
  have hnl : (leafStep s i).nleafs = s.nleafs + 1 := rfl
  have hnt : (leafStep s i).ntypes = s.ntypes - 1 := rfl
  have hlt : s.nleafs < s.leafs.length := by
    have := hI.leafs_len
    have := hI.tot_le
    have := hI.nt_pos
    omega
  have hrow : ∀ a, leafrow (leafStep s i) a =
      if a = s.nleafs then strcpy (leafrow s s.nleafs) (tyrow s i) else leafrow s a := by
    intro a
    show (s.leafs.set s.nleafs (strcpy (leafrow s s.nleafs) (tyrow s i))).getD a [] = _
    rw [getD_set]
    by_cases c : a = s.nleafs
    · rw [if_pos ⟨c, hlt⟩, if_pos c]
    · rw [if_neg (fun h => c h.1), if_neg c]
      rfl
  have hnew : ∀ k, k < s.ntypes - 1 →
      oneOf (tyrow s i) (tyrow s (leafSrc i k)) = true := by
    intro k hk
    have hsrc : leafSrc i k < s.ntypes := by
      unfold leafSrc
      split_ifs <;> omega
    exact oneOf_types hI hi hsrc (all_related hI hi hfull _ hsrc (leafSrc_ne i k))
  refine ⟨?_, ?_, ?_⟩
  · intro a ha
    rw [hrow]
    by_cases c : a = s.nleafs
    · rw [if_pos c, cstr_strcpy, inv_cstr hI hi]
      exact inv_word_abc hI hi
    · rw [if_neg c]
      exact hLI.leaf_abc a (by omega)
  · intro a k ha hk
    rw [hnt] at hk
    have hk' : k < (leafStep s i).ntypes := hk
    rw [hrow, hC.row_active k hk']
    by_cases c : a = s.nleafs
    · rw [if_pos c, oneOf_set_right _ _ _ _ (by
        rw [strlen_strcpy, inv_strlen hI hi]), oneOf_strcpy_left]
      exact hnew k hk
    · rw [if_neg c, oneOf_set_right _ _ _ _ (hI.leaf_len a (by omega))]
      exact hLI.leaf_type a _ (by omega) (hC.src_lt k hk')
  · intro a b hab hb
    rw [hrow, hrow, if_neg (show a ≠ s.nleafs by omega)]
    by_cases c : b = s.nleafs
    · rw [if_pos c, oneOf_strcpy_right]
      exact hLI.leaf_type a i (by omega) hi
    · rw [if_neg c]
      exact hLI.leaf_leaf a b hab (by omega)

theorem leafInv_same {t : State} (hLI : LeafInv s) (h : SameShared s t) : LeafInv t := by
  obtain ⟨_, h2, _, _, h5, h6, _, h8⟩ := h
  have hty : ∀ k, tyrow t k = tyrow s k := by
    intro k
    unfold tyrow
    rw [h2]
  refine ⟨?_, ?_, ?_⟩
  · intro a ha
    rw [h8 a (by omega)]
    exact hLI.leaf_abc a (by omega)
  · intro a k ha hk
    rw [h8 a (by omega), hty]
    exact hLI.leaf_type a k (by omega) (by omega)
  · intro a b hab hb
    rw [h8 a (by omega), h8 b (by omega)]
    exact hLI.leaf_leaf a b hab (by omega)

theorem reach_leafInv (hM : 1 ≤ cfg.MAXLEAFS) (h : Reachable cfg s) : LeafInv s := by
  induction h with
  | seed =>
    refine ⟨?_, ?_, ?_⟩
    · intro a ha; exact absurd ha (Nat.not_lt_zero _)
    · intro a k ha; exact absurd ha (Nat.not_lt_zero _)
    · intro a b _ hb; exact absurd hb (Nat.not_lt_zero _)
  | leaf s i hR hL _ hi hfull _ ih => exact leafInv_leafStep (reach_inv hM hR) ih hL hi hfull
  | branch s i hR hL hg hi ih =>
    exact leafInv_column (reach_inv hM hR) ih
      (branchStep_column (reach_inv hM hR) hL hi (branchGate_true hg).1) rfl rfl
  | perp s i j hR hL hij hj _ _ ih =>
    exact leafInv_column (reach_inv hM hR) ih
      (perpStep_column (reach_inv hM hR) hL hij hj) rfl rfl
  | prec s i j hR hL hij hj _ _ _ ih =>
    exact leafInv_column (reach_inv hM hR) ih
      (precStep_column (reach_inv hM hR) hL hij hj) rfl rfl
  | stale s t _ hs ih => exact leafInv_same ih hs

end Leaves

/-! ## The leaves of a printed object -/

theorem getD_map_range {α : Type} (f : Nat → α) (d : α) {n a : Nat} (ha : a < n) :
    ((List.range n).map f).getD a d = f a := by
  rw [List.getD_eq_getElem?_getD, List.getElem?_map, List.getElem?_range ha]
  rfl

theorem getD_map_range' {α : Type} (f : Nat → α) (d : α) {a n k : Nat} (hk : k < n) :
    ((List.range' a n).map f).getD k d = f (a + k) := by
  rw [List.getD_eq_getElem?_getD, List.getElem?_map, List.getElem?_range' a 1 hk]
  show f (a + 1 * k) = f (a + k)
  rw [Nat.one_mul]

theorem print_type_word (s : State) {a : Nat} (ha : a < s.nleafs) :
    leafWord (print_type s) a = cstr (leafrow s a) := by
  unfold leafWord
  show (((List.range s.nleafs).map (fun i => (cstr (leafrow s i),
    ((List.range s.nleafs).filter (fun j =>
      decide (i ≠ j) && ltlex (leafrow s j) (leafrow s i))).length))).getD a ([], 0)).1 = _
  rw [getD_map_range _ _ ha]

theorem print_type_adj (s : State) {i j : Nat} (hj : j < i) (hi : i < s.nleafs) :
    adjEntry (print_type s) i j =
      if prec (leafrow s i) (leafrow s j) = true then chl
      else if prec (leafrow s j) (leafrow s i) = true then chg
      else chi := by
  unfold adjEntry
  show (((List.range' 1 (s.nleafs - 1)).map (fun i =>
      (List.range i).map (fun j =>
        if prec (leafrow s i) (leafrow s j) = true then chl
        else if prec (leafrow s j) (leafrow s i) = true then chg
        else chi))).getD (i - 1) []).getD j 0 = _
  have h1 : (i - 1) < s.nleafs - 1 := by omega
  have e : 1 + (i - 1) = i := by omega
  rw [getD_map_range' _ _ h1, e, getD_map_range _ _ hj]

theorem emitted_leaves {cfg : Config} (hM : 1 ≤ cfg.MAXLEAFS) {e : Emission}
    (he : Emitted cfg e) :
    ∃ s, e = print_type s ∧ (∀ a, a < s.nleafs → Abc (cstr (leafrow s a))) ∧
      ∀ a b, a < s.nleafs → b < s.nleafs → a ≠ b → oneOf (leafrow s a) (leafrow s b) = true := by
  obtain ⟨s, hR, hL, hn1, _, _, rfl⟩ := he
  have hI := reach_inv hM hR
  have hLI := reach_leafInv hM hR
  have h0 : 0 < s.ntypes := by omega
  have hlt : s.nleafs < s.leafs.length := by
    have := hI.leafs_len
    have := hI.tot_le
    omega
  have hrow : ∀ a, leafrow (leafMark s 0) a =
      if a = s.nleafs then strcpy (leafrow s s.nleafs) (tyrow s 0) else leafrow s a := by
    intro a
    show (s.leafs.set s.nleafs (strcpy (leafrow s s.nleafs) (tyrow s 0))).getD a [] = _
    rw [getD_set]
    by_cases c : a = s.nleafs
    · rw [if_pos ⟨c, hlt⟩, if_pos c]
    · rw [if_neg (fun h => c h.1), if_neg c]
      rfl
  have hnl : (leafMark s 0).nleafs = s.nleafs + 1 := rfl
  have key : ∀ a b, a < b → b < s.nleafs + 1 →
      oneOf (leafrow (leafMark s 0) a) (leafrow (leafMark s 0) b) = true := by
    intro a b hab hb
    rw [hrow, hrow, if_neg (show a ≠ s.nleafs by omega)]
    by_cases c : b = s.nleafs
    · rw [if_pos c, oneOf_strcpy_right]
      exact hLI.leaf_type a 0 (by omega) h0
    · rw [if_neg c]
      exact hLI.leaf_leaf a b hab (by omega)
  refine ⟨leafMark s 0, rfl, ?_, ?_⟩
  · intro a ha
    rw [hrow]
    by_cases c : a = s.nleafs
    · rw [if_pos c, cstr_strcpy, inv_cstr hI h0]
      exact inv_word_abc hI h0
    · rw [if_neg c]
      exact hLI.leaf_abc a (by rw [hnl] at ha; omega)
  · intro a b ha hb hab
    rw [hnl] at ha hb
    rcases Nat.lt_or_gt_of_ne hab with h | h
    · exact key a b h hb
    · rw [oneOf_comm]
      exact key b a h ha

theorem main_emitted {cfg : Config} (hM : 1 ≤ cfg.MAXLEAFS) :
    ∃ r, main cfg = .ok r ∧ ∀ e ∈ r.out, Emitted cfg e := by
  obtain ⟨r, h1, _, h3⟩ := recurse_ok hM (MAXLENGTH cfg + 1) (seed cfg) Reachable.seed
    (by have : (seed cfg).length = 0 := rfl
        omega)
  exact ⟨r, h1, h3⟩

/-- C16: for every object printed by the search from the seed and every two
distinct leaves of it, exactly one of `prec (a, b)`, `prec (b, a)`,
`perp (a, b)` holds; so an entry of the adjacency matrix is `l` exactly when
the first `prec` holds, `g` exactly when the second holds, and `i` exactly
when `perp` holds. -/
theorem C16_leaves_related (cfg : Config) (hM : 1 ≤ cfg.MAXLEAFS) :
    ∃ r, main cfg = .ok r ∧ ∀ e ∈ r.out,
      (∀ a b, a < e.vertices.length → b < e.vertices.length → a ≠ b →
        oneOf (leafWord e a) (leafWord e b) = true) ∧
      (∀ i j, j < i → i < e.vertices.length →
        (adjEntry e i j = chl ↔ prec (leafWord e i) (leafWord e j) = true) ∧
        (adjEntry e i j = chg ↔ prec (leafWord e j) (leafWord e i) = true) ∧
        (adjEntry e i j = chi ↔ perp (leafWord e i) (leafWord e j) = true)) := by
  obtain ⟨r, h1, h3⟩ := main_emitted hM
  refine ⟨r, h1, fun e he => ?_⟩
  obtain ⟨s, rfl, _, hone⟩ := emitted_leaves hM (h3 e he)
  rw [print_type_leaves]
  constructor
  · intro a b ha hb hab
    rw [print_type_word s ha, print_type_word s hb, ← oneOf_cstr]
    exact hone a b ha hb hab
  · intro i j hj hi
    have hjn : j < s.nleafs := by omega
    rw [print_type_adj s hj hi, print_type_word s hi, print_type_word s hjn, ← prec_cstr,
      ← prec_cstr, ← perp_cstr]
    rcases oneOf_cases (hone i j hi hjn (by omega)) with ⟨a1, a2, a3⟩ | ⟨a1, a2, a3⟩ |
      ⟨a1, a2, a3⟩ <;> rw [a1, a2, a3] <;> simp

/-- The witness of C16: the program as distributed. -/
theorem C16_witness :
    ∃ r, main cfg3 = .ok r ∧ ∀ e ∈ r.out,
      (∀ a b, a < e.vertices.length → b < e.vertices.length → a ≠ b →
        oneOf (leafWord e a) (leafWord e b) = true) ∧
      (∀ i j, j < i → i < e.vertices.length →
        (adjEntry e i j = chl ↔ prec (leafWord e i) (leafWord e j) = true) ∧
        (adjEntry e i j = chg ↔ prec (leafWord e j) (leafWord e i) = true) ∧
        (adjEntry e i j = chi ↔ perp (leafWord e i) (leafWord e j) = true)) :=
  C16_leaves_related cfg3 (by decide)

/-- C17: for every object printed by the search from the seed, `prec`
restricted to the leaves of the object is a strict partial order: it is
irreflexive, and for all leaves `a`, `b`, `c`, `prec (a, b)` and `prec (b, c)`
imply `prec (a, c)`. -/
theorem C17_prec_strict_order (cfg : Config) (hM : 1 ≤ cfg.MAXLEAFS) :
    ∃ r, main cfg = .ok r ∧ ∀ e ∈ r.out,
      (∀ a, prec (leafWord e a) (leafWord e a) = false) ∧
      (∀ a b c, a < e.vertices.length → b < e.vertices.length → c < e.vertices.length →
        prec (leafWord e a) (leafWord e b) = true → prec (leafWord e b) (leafWord e c) = true →
        prec (leafWord e a) (leafWord e c) = true) := by
  obtain ⟨r, h1, h3⟩ := main_emitted hM
  refine ⟨r, h1, fun e he => ⟨fun a => prec_self _, ?_⟩⟩
  obtain ⟨s, rfl, habc, _⟩ := emitted_leaves hM (h3 e he)
  rw [print_type_leaves]
  intro a b c ha hb hc
  rw [print_type_word s ha, print_type_word s hb, print_type_word s hc]
  exact prec_trans _ _ _ (habc a ha) (habc b hb) (habc c hc)

/-- The witness of C17: the program as distributed, `MAXLEAFS` 3. -/
theorem C17_witness :
    ∃ r, main cfg3 = .ok r ∧ ∀ e ∈ r.out,
      (∀ a, prec (leafWord e a) (leafWord e a) = false) ∧
      (∀ a b c, a < e.vertices.length → b < e.vertices.length → c < e.vertices.length →
        prec (leafWord e a) (leafWord e b) = true → prec (leafWord e b) (leafWord e c) = true →
        prec (leafWord e a) (leafWord e c) = true) :=
  C17_prec_strict_order cfg3 (by decide)

end PosetTypes
